import Mathlib

/-!
Verification of the jsonfs JSON codec and tree model.

The Go sources are shallowly embedded over byte lists (`List Nat`, each
element a byte value).  The `bufio.Reader` is modelled as the list of bytes
not yet consumed; `ReadRune` is modelled at byte granularity, which agrees
with the source on every ASCII byte (all structural characters, digits,
keywords and whitespace that the decoder inspects are ASCII; string contents
are read with the byte-level `ReadBytes` in the source as well).
Go maps are modelled as association lists whose assignment operation
replaces an existing key or appends a fresh one; iteration order of a Go map
is unspecified, and the association-list order realizes one admissible
order.  Modification times and the reader/writer lock are omitted: no claim
mentions them.  `time.Time` fields are dropped from `File` and `Directory`.
-/

/-! ### Bytes and byte classification -/

/-- Byte constants from the source: `doubleQuote`, `openBracket`,
`closeBracket`, `openBrace`, `closeBrace`, `colon`, `comma`, `backslash`,
and the dot used by `decodeNumber`. -/
def doubleQuote : Nat := 34

def openBracket : Nat := 91

def closeBracket : Nat := 93

def openBrace : Nat := 123

def closeBrace : Nat := 125

def colonByte : Nat := 58

def commaByte : Nat := 44

def backslash : Nat := 92

def dotByte : Nat := 46

/-- `unicode.IsSpace` restricted to ASCII bytes (tab, LF, VT, FF, CR, space),
the fragment the byte-granular reader model can meet. -/
def isSpaceB (b : Nat) : Bool :=
  b = 9 || b = 10 || b = 11 || b = 12 || b = 13 || b = 32

/-- `unicode.IsNumber` restricted to ASCII bytes: the decimal digits. -/
def isNumberB (b : Nat) : Bool :=
  48 ≤ b && b ≤ 57

/-! ### The tree model: `File` and `Directory` -/

/-- `FileType` from jsonfs.go: the JSON kind a `File` stores. -/
inductive FileType where
  | FTNull
  | FTBool
  | FTInt
  | FTFloat
  | FTString
deriving DecidableEq, Repr

export FileType (FTNull FTBool FTInt FTFloat FTString)

/-- `File` from jsonfs.go: a leaf value.  `value` is the raw byte encoding
(for strings, the bytes between the quotes, escapes untouched).  The
`modTime` and `readValue` fields are omitted (no claim concerns them). -/
structure File where
  name : List Nat
  t : FileType
  value : List Nat
deriving DecidableEq, Repr

/-- `Directory` from jsonfs.go: a JSON object or array node with two
name-keyed child maps (`dirs`, `sub`-directories, and `files`, leaves) and
the `isArray` flag.  The Go maps are association lists here. -/
inductive Directory where
  | mk (name : List Nat) (dirs : List (List Nat × Directory))
       (files : List (List Nat × File)) (isArray : Bool)

/-- The `name` field of a `Directory`. -/
def Directory.name : Directory → List Nat
  | .mk n _ _ _ => n

/-- The `dirs` map of a `Directory`. -/
def Directory.dirs : Directory → List (List Nat × Directory)
  | .mk _ d _ _ => d

/-- The `files` map of a `Directory`. -/
def Directory.files : Directory → List (List Nat × File)
  | .mk _ _ f _ => f

/-- The `isArray` flag of a `Directory`. -/
def Directory.isArray : Directory → Bool
  | .mk _ _ _ a => a

/-- `newDir` from jsonfs.go: a directory with empty child maps (the
`modTime` argument of the source is dropped with the field). -/
def newDir (name : List Nat) : Directory :=
  .mk name [] [] false

/-! ### Association lists standing for Go maps -/

/-- Keys of an association list (the key set of the Go map). -/
def keysA {α : Type} (l : List (List Nat × α)) : List (List Nat) :=
  l.map Prod.fst

/-- Go map read `m[k]`: the first binding of `k`, if any. -/
def lookupA {α : Type} (l : List (List Nat × α)) (k : List Nat) : Option α :=
  match l with
  | [] => none
  | (k', v) :: t => if k' = k then some v else lookupA t k

/-- Go map assignment `m[k] = v`: replace the binding of `k`, or append a
fresh one. -/
def insertA {α : Type} (l : List (List Nat × α)) (k : List Nat) (v : α) :
    List (List Nat × α) :=
  match l with
  | [] => [(k, v)]
  | (k', v') :: t => if k' = k then (k, v) :: t else (k', v') :: insertA t k v

/-- Go map `delete(m, k)`: drop the binding of `k`. -/
def eraseA {α : Type} (l : List (List Nat × α)) (k : List Nat) :
    List (List Nat × α) :=
  match l with
  | [] => []
  | (k', v') :: t => if k' = k then t else (k', v') :: eraseA t k

theorem insertA_fresh {α : Type} (l : List (List Nat × α)) (k : List Nat)
    (v : α) (h : ¬ k ∈ keysA l) : insertA l k v = l ++ [(k, v)] := by
  induction l with
  | nil => rfl
  | cons hd t ih =>
      obtain ⟨k', v'⟩ := hd
      simp only [keysA, List.map_cons, List.mem_cons] at h
      push_neg at h
      simp only [insertA]
      rw [if_neg (Ne.symm h.1), ih (by simpa [keysA] using h.2)]
      simp

theorem lookupA_isSome_iff {α : Type} (l : List (List Nat × α))
    (k : List Nat) : (lookupA l k).isSome = true ↔ k ∈ keysA l := by
  induction l with
  | nil =>
      constructor
      · intro h; simp [lookupA] at h
      · intro h; simp [keysA] at h
  | cons hd t ih =>
      obtain ⟨k', v'⟩ := hd
      show (if k' = k then some v' else lookupA t k).isSome = true ↔ _
      by_cases h : k' = k
      · rw [if_pos h]
        simp [keysA, h]
      · rw [if_neg h]
        rw [ih]
        simp [keysA, Ne.symm h]

theorem lookupA_eq_none_iff {α : Type} (l : List (List Nat × α))
    (k : List Nat) : lookupA l k = none ↔ ¬ k ∈ keysA l := by
  rw [← lookupA_isSome_iff]
  cases lookupA l k <;> simp

/-! ### `strconv.Itoa` for the array item counter -/

/-- Auxiliary digit emitter: produces the decimal digits of `n` (most
significant first) in front of `acc`; `fuel` only forces termination and is
irrelevant once it exceeds the digit count. -/
def itoaAux : Nat → Nat → List Nat → List Nat
  | 0, _, acc => acc
  | fuel + 1, n, acc =>
      if n < 10 then (48 + n % 10) :: acc
      else itoaAux fuel (n / 10) ((48 + n % 10) :: acc)

/-- `strconv.Itoa` on the (always non-negative) array item counter:
the ASCII decimal digits of `n`. -/
def itoa (n : Nat) : List Nat :=
  itoaAux (n + 1) n []

theorem itoaAux_acc (fuel : Nat) : ∀ (n : Nat) (acc : List Nat),
    n < fuel → itoaAux fuel n acc = itoaAux fuel n [] ++ acc := by
  induction fuel with
  | zero => intro n acc h; omega
  | succ f ih =>
      intro n acc h
      by_cases h10 : n < 10
      · simp [itoaAux, h10]
      · simp only [itoaAux, if_neg h10]
        rw [ih (n / 10) ((48 + n % 10) :: acc) (by omega),
            ih (n / 10) [(48 + n % 10)] (by omega)]
        simp

theorem itoaAux_fuel (fuel₁ : Nat) : ∀ (fuel₂ n : Nat),
    n < fuel₁ → n < fuel₂ → itoaAux fuel₁ n [] = itoaAux fuel₂ n [] := by
  induction fuel₁ with
  | zero => intro fuel₂ n h; omega
  | succ f₁ ih =>
      intro fuel₂ n h₁ h₂
      cases fuel₂ with
      | zero => omega
      | succ f₂ =>
          by_cases h10 : n < 10
          · simp [itoaAux, h10]
          · simp only [itoaAux, if_neg h10]
            rw [itoaAux_acc f₁ _ _ (by omega), itoaAux_acc f₂ _ _ (by omega),
                ih f₂ (n / 10) (by omega) (by omega)]

/-- Unfolding `itoa` one digit at a time, least significant digit last. -/
theorem itoa_unfold (n : Nat) :
    itoa n = (if n < 10 then [] else itoa (n / 10)) ++ [48 + n % 10] := by
  by_cases h10 : n < 10
  · simp [itoa, itoaAux, h10]
  · simp only [itoa, itoaAux, if_neg h10]
    rw [itoaAux_acc n _ _ (by omega),
        itoaAux_fuel n (n / 10 + 1) (n / 10) (by omega) (by omega)]
    rfl

theorem itoa_ne_nil (n : Nat) : itoa n ≠ [] := by
  rw [itoa_unfold]; simp

theorem itoa_digits (n : Nat) : ∀ b ∈ itoa n, isNumberB b = true := by
  induction n using Nat.strongRecOn with
  | _ n ih =>
      rw [itoa_unfold]
      intro b hb
      rw [List.mem_append] at hb
      rcases hb with hb | hb
      · by_cases h10 : n < 10
        · simp [h10] at hb
        · exact ih (n / 10) (by omega) b (by simpa [h10] using hb)
      · rw [List.mem_singleton] at hb
        subst hb
        have := Nat.mod_lt n (show 0 < 10 by omega)
        simp only [isNumberB, Bool.and_eq_true, decide_eq_true_eq]
        omega

/-- Reading the digits back: `itoa` is inverted by the base-10 fold, hence
injective. -/
theorem itoa_foldl (n : Nat) :
    (itoa n).foldl (fun acc b => acc * 10 + (b - 48)) 0 = n := by
  induction n using Nat.strongRecOn with
  | _ n ih =>
      rw [itoa_unfold, List.foldl_append]
      by_cases h10 : n < 10
      · simp only [if_pos h10, List.foldl_nil, List.foldl_cons]
        omega
      · simp only [if_neg h10]
        rw [ih (n / 10) (by omega)]
        simp only [List.foldl_cons, List.foldl_nil]
        omega

theorem itoa_inj : Function.Injective itoa := by
  intro a b h
  have ha := itoa_foldl a
  have hb := itoa_foldl b
  rw [h] at ha
  omega

/-! ### Errors

The Go code reports errors as `fmt.Errorf` strings; each distinct error site
becomes one constructor here. -/

/-- Error outcomes of the codec and tree operations, one constructor per
`fmt.Errorf` site of the source (payloads keep the formatted data). -/
inductive Err where
  | eof
  | objectMustStartWithBrace
  | keyQuoteExpected (found : Nat)
  | stringNotTerminated
  | colonExpected (found : Nat)
  | valueTypeUnknown (found : Nat)
  | dupField (name : List Nat)
  | commaOrCloseBraceEol
  | commaOrCloseBrace (found : Nat)
  | arrayOpenBracketExpected (found : Nat)
  | commaOrCloseBracketEol
  | commaOrCloseBracket (found : Nat)
  | boolReadError
  | boolInvalid (got : List Nat)
  | nullReadError
  | nullInvalid (got : List Nat)
  | numberEmpty
  | encodeMissingIndex (index : Nat)
  | notEmpty
  | noName
  | fuelExhausted
deriving DecidableEq, Repr

/-! ### Whitespace and value classification -/

/-- `skipSpace`: drop leading whitespace (the reader loop that reads runes
and unreads the first non-space). -/
def skipSpace (l : List Nat) : List Nat :=
  match l with
  | [] => []
  | b :: t => if isSpaceB b then skipSpace t else b :: t

/-- The `next` enumeration of the source (`unknownNext` is never produced
together with a nil error, so it is omitted). -/
inductive NextKind where
  | msgNext
  | arrayNext
  | stringNext
  | trueNext
  | falseNext
  | numNext
  | nullNext
deriving DecidableEq, Repr

/-- `valueCheck`: skip spaces and peek one byte to classify the value that
follows.  Returns the classification and the reader after the skipped
spaces (the peeked byte is not consumed). -/
def valueCheck (l : List Nat) : Except Err (NextKind × List Nat) :=
  match skipSpace l with
  | [] => .error .eof
  | b :: t =>
      if b = openBrace then .ok (.msgNext, b :: t)
      else if b = openBracket then .ok (.arrayNext, b :: t)
      else if b = doubleQuote then .ok (.stringNext, b :: t)
      else if isNumberB b then .ok (.numNext, b :: t)
      else if b = 116 then .ok (.trueNext, b :: t)
      else if b = 102 then .ok (.falseNext, b :: t)
      else if b = 110 then .ok (.nullNext, b :: t)
      else .error (.valueTypeUnknown b)

/-! ### Strings: `isQuote` and `getString` -/

/-- The scan loop inside `isQuote` (for inputs of length at least 3): walk
the bytes before the final quote from right to left, flipping a flag per
backslash, stopping at the first other byte.  The argument list is the
reversed prefix. -/
def trailingFlips : List Nat → Bool → Bool
  | [], acc => acc
  | b :: t, acc => if b = backslash then trailingFlips t (!acc) else acc

/-- `isQuote`: does this `ReadBytes('"')` segment end in a terminating
(unescaped) quote?  Length 0, 1 and 2 are special-cased as in the source;
longer inputs use the backslash-flip loop. -/
def isQuote (b : List Nat) : Bool :=
  match b with
  | [] => false
  | [_] => true
  | [x, _] => if x = backslash then false else true
  | _ => trailingFlips b.dropLast.reverse true

/-- `bufio.Reader.ReadBytes('"')`: the prefix up to and including the first
double quote, plus the remainder; `none` when no quote remains (the EOF
error of `ReadBytes`). -/
def readUntilQuote : List Nat → Option (List Nat × List Nat)
  | [] => none
  | b :: t =>
      if b = doubleQuote then some ([b], t)
      else
        match readUntilQuote t with
        | none => none
        | some (s, r) => some (b :: s, r)

/-- `getString`: read segments until one passes `isQuote`; keep all bytes of
non-terminating segments (their quotes included) and drop the final quote.
When `deleteFirst` is set the first byte (the opening quote) is discarded.
`fuel` only forces termination; every recursive call consumes at least one
byte, so `input length + 1` always suffices. -/
def getString : Nat → List Nat → Bool → Except Err (List Nat × List Nat)
  | 0, _, _ => .error .fuelExhausted
  | fuel + 1, l, deleteFirst =>
      match (if deleteFirst then l.tail? else some l) with
      | none => .error .eof
      | some l' =>
          match readUntilQuote l' with
          | none => .error .stringNotTerminated
          | some (s, r) =>
              if isQuote s then .ok (s.dropLast, r)
              else
                match getString fuel r false with
                | .error e => .error e
                | .ok (buff, r') => .ok (s ++ buff, r')

/-! ### Scalar decoders -/

/-- The byte sequences of the JSON keywords. -/
def trueBytes : List Nat := [116, 114, 117, 101]

def falseBytes : List Nat := [102, 97, 108, 115, 101]

def nullBytes : List Nat := [110, 117, 108, 108]

/-- `decodeString`: a string value becomes an `FTString` file holding the
raw bytes between the quotes. -/
def decodeString (name : List Nat) (l : List Nat) :
    Except Err (File × List Nat) :=
  match getString (l.length + 1) l true with
  | .error e => .error e
  | .ok (s, rest) => .ok ({ name := name, t := FTString, value := s }, rest)

/-- `decodeBool`: read exactly 4 (`trueNext` hint) or 5 bytes and require
the keyword. -/
def decodeBool (name : List Nat) (hint : NextKind) (l : List Nat) :
    Except Err (File × List Nat) :=
  let n := if hint = .trueNext then 4 else 5
  if l.length < n then .error .boolReadError
  else
    let buff := l.take n
    if buff = falseBytes then
      .ok ({ name := name, t := FTBool, value := buff }, l.drop n)
    else if buff = trueBytes then
      .ok ({ name := name, t := FTBool, value := buff }, l.drop n)
    else .error (.boolInvalid buff)

/-- `decodeNull`: read exactly 4 bytes and require `null`. -/
def decodeNull (name : List Nat) (l : List Nat) :
    Except Err (File × List Nat) :=
  if l.length < 4 then .error .nullReadError
  else
    let buff := l.take 4
    if buff = nullBytes then
      .ok ({ name := name, t := FTNull, value := buff }, l.drop 4)
    else .error (.nullInvalid buff)

/-- The scan loop of `decodeNumber`: consume digits (appended) and dots
(appended, setting the float flag); any other byte is pushed back and ends
the scan; end of input mid-scan is a read error. -/
def decodeNumLoop : List Nat → List Nat → Bool →
    Except Err (List Nat × Bool × List Nat)
  | [], _, _ => .error .eof
  | b :: t, buff, float =>
      if isNumberB b then decodeNumLoop t (buff ++ [b]) float
      else if b = dotByte then decodeNumLoop t (buff ++ [b]) true
      else .ok (buff, float, b :: t)

/-- `decodeNumber`: run the scan loop; an empty scan is an error; the file
is `FTFloat` exactly when the float flag was set. -/
def decodeNumber (name : List Nat) (l : List Nat) :
    Except Err (File × List Nat) :=
  match decodeNumLoop l [] false with
  | .error e => .error e
  | .ok (buff, float, rest) =>
      if buff = [] then .error .numberEmpty
      else
        .ok ({ name := name, t := if float then FTFloat else FTInt,
               value := buff }, rest)

/-- `duplicateField`: reject a key already bound in either child map. -/
def duplicateField (dir : Directory) (name : List Nat) : Except Err Unit :=
  if (lookupA dir.dirs name).isSome then .error (.dupField name)
  else if (lookupA dir.files name).isSome then .error (.dupField name)
  else .ok ()

/-! ### Claim C3: the quote-termination rule -/

/-- Modelled from the spec text of the quote-termination rule: the number
of contiguous backslash bytes at the end of `l` (the raw bytes immediately
preceding the candidate quote). -/
def trailingBackslashCount (l : List Nat) : Nat :=
  (l.reverse.takeWhile (fun b => b == backslash)).length

theorem trailingFlips_parity : ∀ (l : List Nat) (acc : Bool),
    trailingFlips l acc =
      if Even (l.takeWhile (fun b => b == backslash)).length then acc
      else !acc := by
  intro l
  induction l with
  | nil => intro acc; simp [trailingFlips]
  | cons b t ih =>
      intro acc
      by_cases hb : b = backslash
      · subst hb
        rw [show trailingFlips (backslash :: t) acc
              = trailingFlips t (!acc) from by simp [trailingFlips]]
        rw [ih (!acc)]
        rw [show (backslash :: t).takeWhile (fun b => b == backslash)
              = backslash :: t.takeWhile (fun b => b == backslash) from by
            simp [List.takeWhile_cons]]
        simp only [List.length_cons, Nat.even_add_one]
        by_cases he : Even (t.takeWhile (fun b => b == backslash)).length
        · simp [he]
        · simp [he]
      · rw [show trailingFlips (b :: t) acc = acc from by
            simp [trailingFlips, hb]]
        rw [show (b :: t).takeWhile (fun x => x == backslash) = [] from by
            simp [List.takeWhile_cons, hb]]
        simp

/-- Claim C3: a `ReadBytes` segment ending in a double quote is accepted by
`isQuote` as a true string terminator exactly when the number of contiguous
backslash bytes immediately before that quote is even (zero included); and
the four literal vectors of the test table evaluate as the spec states. -/
theorem isQuote_backslash_parity :
    (∀ s : List Nat,
       isQuote (s ++ [doubleQuote]) = true ↔ Even (trailingBackslashCount s))
    ∧ isQuote [backslash, doubleQuote] = false
    ∧ isQuote [backslash, backslash, doubleQuote] = true
    ∧ isQuote [backslash, backslash, backslash, doubleQuote] = false
    ∧ isQuote [backslash, backslash, backslash, backslash, doubleQuote]
        = true := by
  refine ⟨?_, by decide, by decide, by decide, by decide⟩
  intro s
  match s with
  | [] =>
      simp [isQuote, trailingBackslashCount]
  | [x] =>
      by_cases hx : x = backslash
      · subst hx
        rw [show isQuote ([backslash] ++ [doubleQuote]) = false from by decide]
        simp only [trailingBackslashCount]
        constructor
        · intro h; cases h
        · intro h
          rw [show ([backslash] : List Nat).reverse.takeWhile
                (fun b => b == backslash) = [backslash] from by decide] at h
          simp at h
      · rw [show isQuote ([x] ++ [doubleQuote])
              = if x = backslash then false else true from rfl]
        rw [if_neg hx]
        simp only [trailingBackslashCount, List.reverse_singleton]
        rw [show ([x] : List Nat).takeWhile (fun b => b == backslash)
              = [] from by simp [List.takeWhile_cons, hx]]
        simp
  | x :: y :: t =>
      have harm : isQuote ((x :: y :: t) ++ [doubleQuote])
          = trailingFlips ((x :: y :: t) ++ [doubleQuote]).dropLast.reverse
              true := by
        cases t with
        | nil => rfl
        | cons z t' => rfl
      rw [harm, List.dropLast_concat, trailingFlips_parity]
      simp only [trailingBackslashCount]
      by_cases he :
          Even (((x :: y :: t).reverse.takeWhile
            (fun b => b == backslash)).length)
      · simp [he]
      · simp [he]

/-! ### Claim C4: the number scan -/

/-- The byte set the number scan loop consumes: decimal digits and dots
(an analysis abbreviation for stating `decodeNumber_spec`). -/
def numScanByte (b : Nat) : Bool :=
  isNumberB b || b == dotByte

theorem decodeNumLoop_spec : ∀ (l buff : List Nat) (float : Bool),
    decodeNumLoop l buff float =
      if l.dropWhile numScanByte = [] then .error .eof
      else .ok (buff ++ l.takeWhile numScanByte,
                float || (l.takeWhile numScanByte).any (fun b => b == dotByte),
                l.dropWhile numScanByte) := by
  intro l
  induction l with
  | nil => intro buff float; simp [decodeNumLoop]
  | cons b t ih =>
      intro buff float
      by_cases hd : isNumberB b = true
      · have hscan : numScanByte b = true := by simp [numScanByte, hd]
        have hdot : (b == dotByte) = false := by
          simp only [isNumberB, Bool.and_eq_true, decide_eq_true_eq] at hd
          simp only [beq_eq_false_iff_ne, dotByte]
          omega
        rw [show decodeNumLoop (b :: t) buff float
              = decodeNumLoop t (buff ++ [b]) float from by
            simp [decodeNumLoop, hd]]
        rw [ih]
        rw [List.dropWhile_cons, List.takeWhile_cons]
        simp only [hscan, if_true, List.any_cons, hdot, Bool.false_or]
        rw [List.append_assoc]
        simp
      · by_cases hdot : b = dotByte
        · subst hdot
          have hscan : numScanByte dotByte = true := by
            simp [numScanByte]
          rw [show decodeNumLoop (dotByte :: t) buff float
                = decodeNumLoop t (buff ++ [dotByte]) true from by
              simp [decodeNumLoop, hd]]
          rw [ih]
          rw [List.dropWhile_cons, List.takeWhile_cons]
          simp only [hscan, if_true, List.any_cons, beq_self_eq_true,
                     Bool.true_or, Bool.or_true]
          rw [List.append_assoc]
          simp
        · have hscan : numScanByte b = false := by
            simp [numScanByte, hd, hdot]
          rw [show decodeNumLoop (b :: t) buff float
                = .ok (buff, float, b :: t) from by
              simp [decodeNumLoop, hd, hdot]]
          rw [List.dropWhile_cons, List.takeWhile_cons]
          simp [hscan]

/-- Claim C4 (counterexample): on the bytes of `1.2.3,` the scan does not
stop at the second dot; it consumes `1.2.3` whole (so the claimed result,
value `1.2` with the second dot pushed back, is not produced). -/
theorem decodeNumber_two_dots_cx :
    decodeNumber [] [49, 46, 50, 46, 51, 44]
      = .ok ({ name := [], t := FTFloat, value := [49, 46, 50, 46, 51] },
             [44])
    ∧ decodeNumber [] [49, 46, 50, 46, 51, 44]
        ≠ .ok ({ name := [], t := FTFloat, value := [49, 46, 50] },
               [46, 51, 44]) := by
  refine ⟨rfl, ?_⟩
  rw [show decodeNumber [] [49, 46, 50, 46, 51, 44]
        = .ok ({ name := [], t := FTFloat, value := [49, 46, 50, 46, 51] },
               [44]) from rfl]
  intro h
  simp at h

/-- Claim C4 (amended): the number scan consumes every decimal digit and
every dot (a second dot does not end it); it stops at the first byte that
is neither, pushing that byte back, and errors out at end of input
mid-scan; the file is `FTFloat` exactly when at least one dot was consumed;
and it fails when nothing (no digit and no dot) was consumed. -/
theorem decodeNumber_spec (name l : List Nat) :
    decodeNumber name l =
      if l.dropWhile numScanByte = [] then .error .eof
      else if l.takeWhile numScanByte = [] then .error .numberEmpty
      else .ok ({ name := name,
                  t := if (l.takeWhile numScanByte).any
                          (fun b => b == dotByte) then FTFloat else FTInt,
                  value := l.takeWhile numScanByte },
                l.dropWhile numScanByte) := by
  rw [show decodeNumber name l
        = (match decodeNumLoop l [] false with
           | .error e => .error e
           | .ok (buff, float, rest) =>
               if buff = [] then .error .numberEmpty
               else .ok ({ name := name,
                           t := if float then FTFloat else FTInt,
                           value := buff }, rest)) from rfl]
  rw [decodeNumLoop_spec]
  by_cases hr : l.dropWhile numScanByte = []
  · simp [hr]
  · by_cases hp : l.takeWhile numScanByte = []
    · simp [hr, hp]
    · simp [hr, hp]

/-! ### The decoder state machines

`dictSM` and `arraySM` become mutually recursive functions over the
remaining input; each state-machine state is one stage of a function.
`fuel` only forces termination: every cycle of states consumes input, and
the `2 * length + 4` budget used by the entry points dominates the number
of state transitions of any run (at most two transitions happen between
consecutive consumed bytes). -/

/-- The directory an `arraySM` starts from (`reset`): `newDir` plus the
`isArray` mark. -/
def newArrayDir (name : List Nat) : Directory :=
  .mk name [] [] true

mutual

/-- `dictSM` states `start`/`openBrace`: expect `{` (end of input before it
is a clean stop with an empty directory), handle the empty-object special
case, then run the field loop. -/
def parseDict (fuel : Nat) (l : List Nat) (dirName : List Nat) :
    Except Err (Directory × List Nat) :=
  match fuel with
  | 0 => .error .fuelExhausted
  | fuel + 1 =>
      match skipSpace l with
      | [] => .ok (newDir dirName, [])
      | b :: t =>
          if b = openBrace then
            match t with
            | [] => .error .eof
            | b2 :: t2 =>
                if b2 = closeBrace then .ok (newDir dirName, t2)
                else parseFields fuel t (newDir dirName)
          else .error .objectMustStartWithBrace

/-- `dictSM` states `parseKey`/`colon`: a quoted key, a colon, then the
value dispatch. -/
def parseFields (fuel : Nat) (l : List Nat) (dir : Directory) :
    Except Err (Directory × List Nat) :=
  match fuel with
  | 0 => .error .fuelExhausted
  | fuel + 1 =>
      match skipSpace l with
      | [] => .error .eof
      | b :: t =>
          if b = doubleQuote then
            match getString ((b :: t).length + 1) (b :: t) true with
            | .error e => .error e
            | .ok (key, l2) =>
                match skipSpace l2 with
                | [] => .error .eof
                | c :: t3 =>
                    if c = colonByte then parseValue fuel t3 key dir
                    else .error (.colonExpected c)
          else .error (.keyQuoteExpected b)

/-- `dictSM` state `valueCheck`: classify the value, reject a duplicate
key, dispatch to the scalar decoders or to a nested state machine, then
continue with `commaClose`. -/
def parseValue (fuel : Nat) (l : List Nat) (key : List Nat)
    (dir : Directory) : Except Err (Directory × List Nat) :=
  match fuel with
  | 0 => .error .fuelExhausted
  | fuel + 1 =>
      match valueCheck l with
      | .error e => .error e
      | .ok (nk, l4) =>
          match duplicateField dir key with
          | .error e => .error e
          | .ok _ =>
              match nk with
              | .msgNext =>
                  match parseDict fuel l4 key with
                  | .error e => .error e
                  | .ok (d, l5) =>
                      parseClose fuel l5
                        (.mk dir.name (insertA dir.dirs d.name d) dir.files
                          dir.isArray)
              | .arrayNext =>
                  match parseArray fuel l4 key with
                  | .error e => .error e
                  | .ok (d, l5) =>
                      parseClose fuel l5
                        (.mk dir.name (insertA dir.dirs d.name d) dir.files
                          dir.isArray)
              | .stringNext =>
                  match decodeString key l4 with
                  | .error e => .error e
                  | .ok (o, l5) =>
                      parseClose fuel l5
                        (.mk dir.name dir.dirs (insertA dir.files key o)
                          dir.isArray)
              | .trueNext =>
                  match decodeBool key .trueNext l4 with
                  | .error e => .error e
                  | .ok (o, l5) =>
                      parseClose fuel l5
                        (.mk dir.name dir.dirs (insertA dir.files key o)
                          dir.isArray)
              | .falseNext =>
                  match decodeBool key .falseNext l4 with
                  | .error e => .error e
                  | .ok (o, l5) =>
                      parseClose fuel l5
                        (.mk dir.name dir.dirs (insertA dir.files key o)
                          dir.isArray)
              | .numNext =>
                  match decodeNumber key l4 with
                  | .error e => .error e
                  | .ok (o, l5) =>
                      parseClose fuel l5
                        (.mk dir.name dir.dirs (insertA dir.files key o)
                          dir.isArray)
              | .nullNext =>
                  match decodeNull key l4 with
                  | .error e => .error e
                  | .ok (o, l5) =>
                      parseClose fuel l5
                        (.mk dir.name dir.dirs (insertA dir.files key o)
                          dir.isArray)

/-- `dictSM` states `commaClose`/`braceClose`/`comma`: `}` ends the object,
`,` loops back to the key parser. -/
def parseClose (fuel : Nat) (l : List Nat) (dir : Directory) :
    Except Err (Directory × List Nat) :=
  match fuel with
  | 0 => .error .fuelExhausted
  | fuel + 1 =>
      match skipSpace l with
      | [] => .error .commaOrCloseBraceEol
      | b :: t =>
          if b = closeBrace then .ok (dir, t)
          else if b = commaByte then parseFields fuel t dir
          else .error (.commaOrCloseBrace b)

/-- `arraySM` states `start`/`openBracket`: expect `[` (end of input is an
error here), handle the empty-array special case, then run the item
loop. -/
def parseArray (fuel : Nat) (l : List Nat) (name : List Nat) :
    Except Err (Directory × List Nat) :=
  match fuel with
  | 0 => .error .fuelExhausted
  | fuel + 1 =>
      match skipSpace l with
      | [] => .error .eof
      | b :: t =>
          if b = openBracket then
            match t with
            | [] => .error .eof
            | b2 :: t2 =>
                if b2 = closeBracket then .ok (newArrayDir name, t2)
                else parseItems fuel t 0 (newArrayDir name)
          else .error (.arrayOpenBracketExpected b)

/-- `arraySM` state `valueCheck`: like the dict dispatch but the key is the
item counter rendered by `strconv.Itoa` and there is no duplicate check;
the counter is incremented after every item. -/
def parseItems (fuel : Nat) (l : List Nat) (item : Nat) (dir : Directory) :
    Except Err (Directory × List Nat) :=
  match fuel with
  | 0 => .error .fuelExhausted
  | fuel + 1 =>
      match valueCheck l with
      | .error e => .error e
      | .ok (nk, l4) =>
          let valueName := itoa item
          match nk with
          | .msgNext =>
              match parseDict fuel l4 valueName with
              | .error e => .error e
              | .ok (d, l5) =>
                  parseCloseArr fuel l5 (item + 1)
                    (.mk dir.name (insertA dir.dirs d.name d) dir.files
                      dir.isArray)
          | .arrayNext =>
              match parseArray fuel l4 valueName with
              | .error e => .error e
              | .ok (d, l5) =>
                  parseCloseArr fuel l5 (item + 1)
                    (.mk dir.name (insertA dir.dirs d.name d) dir.files
                      dir.isArray)
          | .stringNext =>
              match decodeString valueName l4 with
              | .error e => .error e
              | .ok (o, l5) =>
                  parseCloseArr fuel l5 (item + 1)
                    (.mk dir.name dir.dirs (insertA dir.files valueName o)
                      dir.isArray)
          | .trueNext =>
              match decodeBool valueName .trueNext l4 with
              | .error e => .error e
              | .ok (o, l5) =>
                  parseCloseArr fuel l5 (item + 1)
                    (.mk dir.name dir.dirs (insertA dir.files valueName o)
                      dir.isArray)
          | .falseNext =>
              match decodeBool valueName .falseNext l4 with
              | .error e => .error e
              | .ok (o, l5) =>
                  parseCloseArr fuel l5 (item + 1)
                    (.mk dir.name dir.dirs (insertA dir.files valueName o)
                      dir.isArray)
          | .numNext =>
              match decodeNumber valueName l4 with
              | .error e => .error e
              | .ok (o, l5) =>
                  parseCloseArr fuel l5 (item + 1)
                    (.mk dir.name dir.dirs (insertA dir.files valueName o)
                      dir.isArray)
          | .nullNext =>
              match decodeNull valueName l4 with
              | .error e => .error e
              | .ok (o, l5) =>
                  parseCloseArr fuel l5 (item + 1)
                    (.mk dir.name dir.dirs (insertA dir.files valueName o)
                      dir.isArray)

/-- `arraySM` states `commaClose`/`close`/`comma`: `]` ends the array, `,`
loops back to the item parser. -/
def parseCloseArr (fuel : Nat) (l : List Nat) (item : Nat)
    (dir : Directory) : Except Err (Directory × List Nat) :=
  match fuel with
  | 0 => .error .fuelExhausted
  | fuel + 1 =>
      match skipSpace l with
      | [] => .error .commaOrCloseBracketEol
      | b :: t =>
          if b = closeBracket then .ok (dir, t)
          else if b = commaByte then parseItems fuel t item dir
          else .error (.commaOrCloseBracket b)

end

/-- `UnmarshalJSON` keeping the remaining reader contents (the source runs
the state machine over a shared `bufio.Reader`; the leftover bytes are what
`UnmarshalStream` continues from). -/
def unmarshalJSONR (l : List Nat) : Except Err (Directory × List Nat) :=
  parseDict (2 * l.length + 4) l []

/-- `UnmarshalJSON`: run the top-level `dictSM` over the input and return
the directory. -/
def UnmarshalJSON (l : List Nat) : Except Err Directory :=
  (unmarshalJSONR l).map Prod.fst

/-! ### The encoder -/

theorem sizeOf_lookupA {α : Type} [SizeOf α] :
    ∀ (l : List (List Nat × α)) (k : List Nat) (v : α),
      lookupA l k = some v → sizeOf v < sizeOf l := by
  intro l
  induction l with
  | nil => intro k v h; simp [lookupA] at h
  | cons hd t ih =>
      intro k v h
      obtain ⟨k', v'⟩ := hd
      rw [show lookupA ((k', v') :: t) k
            = if k' = k then some v' else lookupA t k from rfl] at h
      by_cases he : k' = k
      · rw [if_pos he] at h
        cases h
        simp
        omega
      · rw [if_neg he] at h
        have := ih k v h
        simp
        omega

/-- `File.EncodeJSON`: the raw value, quoted when the kind is string. -/
def File.EncodeJSON (f : File) : List Nat :=
  match f.t with
  | FTString => [doubleQuote] ++ f.value ++ [doubleQuote]
  | _ => f.value

/-- The file half of `encodeJSONDict`: each file as `"name":value`, commas
between entries (the association-list order realizes one Go map iteration
order). -/
def encodeDictFilesBytes : List (List Nat × File) → List Nat
  | [] => []
  | (_, f) :: t =>
      [doubleQuote] ++ f.name ++ [doubleQuote] ++ [colonByte]
        ++ File.EncodeJSON f
        ++ (if t.isEmpty then [] else [commaByte])
        ++ encodeDictFilesBytes t

theorem sizeOf_dirs_lt (d : Directory) : sizeOf d.dirs < sizeOf d := by
  cases d with
  | mk n ds fs a =>
      simp [Directory.dirs]
      omega

theorem sizeOf_mem_pair_lt {k : List Nat} {dd : Directory}
    {t : List (List Nat × Directory)} :
    sizeOf dd < sizeOf ((k, dd) :: t) := by
  simp
  omega

mutual

/-- `Directory.EncodeJSON`: arrays by position (`encodeJSONArray`), objects
by name (`encodeJSONDict`); the two named wrappers below restate the
branches. -/
def Directory.EncodeJSON (d : Directory) : Except Err (List Nat) :=
  if d.isArray then
    match encodeArrayItems d (d.files.length + d.dirs.length)
        (d.files.length + d.dirs.length) 0 with
    | .error e => .error e
    | .ok out => .ok ([openBracket] ++ out ++ [closeBracket])
  else
    match encodeDictDirs d.dirs with
    | .error e => .error e
    | .ok dirsB =>
        .ok ([openBrace] ++ encodeDictFilesBytes d.files
              ++ (if 0 < d.files.length ∧ 0 < d.dirs.length then [commaByte]
                  else [])
              ++ dirsB ++ [closeBrace])
termination_by (sizeOf d, d.files.length + d.dirs.length + 2)
decreasing_by
  · apply Prod.Lex.right
    omega
  · apply Prod.Lex.left
    exact sizeOf_dirs_lt d

/-- The item loop of `encodeJSONArray`: item `i` is the file or directory
named `itoa i`; a missing index is the invalid-array error; a comma follows
every item but the last.  `left` is the count of items still to emit
(`n - i`), driving the recursion. -/
def encodeArrayItems (d : Directory) (left n i : Nat) :
    Except Err (List Nat) :=
  match left with
  | 0 => .ok []
  | left + 1 =>
      match lookupA d.files (itoa i) with
      | some fv =>
          match encodeArrayItems d left n (i + 1) with
          | .error e => .error e
          | .ok restB =>
              .ok (File.EncodeJSON fv
                    ++ (if i < n - 1 then [commaByte] else []) ++ restB)
      | none =>
          match hfd : lookupA d.dirs (itoa i) with
          | none => .error (.encodeMissingIndex i)
          | some fd =>
              match Directory.EncodeJSON fd with
              | .error e => .error e
              | .ok innerB =>
                  match encodeArrayItems d left n (i + 1) with
                  | .error e => .error e
                  | .ok restB =>
                      .ok (innerB
                            ++ (if i < n - 1 then [commaByte] else [])
                            ++ restB)
termination_by (sizeOf d, left + 1)
decreasing_by
  · apply Prod.Lex.right
    omega
  · apply Prod.Lex.left
    have h1 := sizeOf_lookupA d.dirs (itoa i) fd hfd
    have h2 := sizeOf_dirs_lt d
    omega

/-- The directory half of `encodeJSONDict`: each sub-directory as
`"name":inner`, commas between entries. -/
def encodeDictDirs : List (List Nat × Directory) → Except Err (List Nat)
  | [] => .ok []
  | (_, dd) :: t =>
      match Directory.EncodeJSON dd with
      | .error e => .error e
      | .ok innerB =>
          match encodeDictDirs t with
          | .error e => .error e
          | .ok restB =>
              .ok ([doubleQuote] ++ dd.name ++ [doubleQuote] ++ [colonByte]
                    ++ innerB
                    ++ (if t.isEmpty then [] else [commaByte]) ++ restB)
termination_by l => (sizeOf l, 0)
decreasing_by
  · apply Prod.Lex.left
    exact sizeOf_mem_pair_lt
  · apply Prod.Lex.left
    simp

end

/-- `encodeJSONArray` of the source, as a wrapper over the item loop. -/
def encodeJSONArray (d : Directory) : Except Err (List Nat) :=
  match encodeArrayItems d (d.files.length + d.dirs.length)
      (d.files.length + d.dirs.length) 0 with
  | .error e => .error e
  | .ok out => .ok ([openBracket] ++ out ++ [closeBracket])

/-- `encodeJSONDict` of the source, as a wrapper over the two halves. -/
def encodeJSONDict (d : Directory) : Except Err (List Nat) :=
  match encodeDictDirs d.dirs with
  | .error e => .error e
  | .ok dirsB =>
      .ok ([openBrace] ++ encodeDictFilesBytes d.files
            ++ (if 0 < d.files.length ∧ 0 < d.dirs.length then [commaByte]
                else [])
            ++ dirsB ++ [closeBrace])

theorem EncodeJSON_unfold (d : Directory) :
    Directory.EncodeJSON d
      = if d.isArray then encodeJSONArray d else encodeJSONDict d := by
  rw [Directory.EncodeJSON.eq_def]
  rfl

/-- `MarshalJSON`: encode a directory (the `bufio.Writer` wrapping of the
source is dropped with the writer). -/
def MarshalJSON (d : Directory) : Except Err (List Nat) :=
  Directory.EncodeJSON d

/-! ### Construction API: `NewDir` and `NewArray` -/

/-- The two child kinds a constructor accepts (the `any` parameters of the
source narrowed to their two supported cases; the default
unsupported-type arm is outside the sum). -/
inductive FileOrDir where
  | file (f : File)
  | dir (d : Directory)

/-- The argument fold of `NewDir`: named children are stored under their
own names; an empty name aborts. -/
def newDirFold : Directory → List FileOrDir → Except Err Directory
  | d, [] => .ok d
  | d, .file f :: t =>
      if f.name = [] then .error .noName
      else newDirFold
        (.mk d.name d.dirs (insertA d.files f.name f) d.isArray) t
  | d, .dir x :: t =>
      if x.name = [] then .error .noName
      else newDirFold
        (.mk d.name (insertA d.dirs x.name x) d.files d.isArray) t

/-- `NewDir` from jsonfs.go: starts from `newDir` and — as written in the
source — sets `isArray` to `true` before folding the children in. -/
def NewDir (name : List Nat) (filesOrDirs : List FileOrDir) :
    Except Err Directory :=
  newDirFold (.mk name [] [] true) filesOrDirs

/-- The indexed argument fold of `NewArray`: each child is renamed to its
position `itoa i` and stored under that name. -/
def newArrayFold : Directory → Nat → List FileOrDir → Except Err Directory
  | d, _, [] => .ok d
  | d, i, .file f :: t =>
      newArrayFold
        (.mk d.name d.dirs
          (insertA d.files (itoa i) { f with name := itoa i }) d.isArray)
        (i + 1) t
  | d, i, .dir x :: t =>
      newArrayFold
        (.mk d.name
          (insertA d.dirs (itoa i) (.mk (itoa i) x.dirs x.files x.isArray))
          d.files d.isArray)
        (i + 1) t

/-- `NewArray` from jsonfs.go: starts from `newDir` (whose `isArray` stays
at its zero value, `false` — the source never sets it) and folds the
children in positionally. -/
def NewArray (name : List Nat) (filesOrDirs : List FileOrDir) :
    Except Err Directory :=
  newArrayFold (.mk name [] [] false) 0 filesOrDirs

theorem newDirFold_isArray : ∀ (fds : List FileOrDir) (d d' : Directory),
    newDirFold d fds = .ok d' → d'.isArray = d.isArray := by
  intro fds
  induction fds with
  | nil =>
      intro d d' h
      rw [show newDirFold d [] = .ok d from rfl] at h
      cases h
      rfl
  | cons hd t ih =>
      intro d d' h
      cases hd with
      | file f =>
          rw [show newDirFold d (.file f :: t)
                = if f.name = [] then .error .noName
                  else newDirFold
                    (.mk d.name d.dirs (insertA d.files f.name f) d.isArray)
                    t from rfl] at h
          by_cases hn : f.name = []
          · rw [if_pos hn] at h; cases h
          · rw [if_neg hn] at h
            have hres := ih
              (.mk d.name d.dirs (insertA d.files f.name f) d.isArray) d' h
            simpa [Directory.isArray] using hres
      | dir x =>
          rw [show newDirFold d (.dir x :: t)
                = if x.name = [] then .error .noName
                  else newDirFold
                    (.mk d.name (insertA d.dirs x.name x) d.files d.isArray)
                    t from rfl] at h
          by_cases hn : x.name = []
          · rw [if_pos hn] at h; cases h
          · rw [if_neg hn] at h
            have hres := ih
              (.mk d.name (insertA d.dirs x.name x) d.files d.isArray) d' h
            simpa [Directory.isArray] using hres

theorem newArrayFold_isArray : ∀ (fds : List FileOrDir) (i : Nat)
    (d d' : Directory),
    newArrayFold d i fds = .ok d' → d'.isArray = d.isArray := by
  intro fds
  induction fds with
  | nil =>
      intro i d d' h
      rw [show newArrayFold d i [] = .ok d from rfl] at h
      cases h
      rfl
  | cons hd t ih =>
      intro i d d' h
      cases hd with
      | file f =>
          rw [show newArrayFold d i (.file f :: t)
                = newArrayFold
                    (.mk d.name d.dirs
                      (insertA d.files (itoa i) { f with name := itoa i })
                      d.isArray)
                    (i + 1) t from rfl] at h
          have hres := ih (i + 1)
            (.mk d.name d.dirs
              (insertA d.files (itoa i) { f with name := itoa i }) d.isArray)
            d' h
          simpa [Directory.isArray] using hres
      | dir x =>
          rw [show newArrayFold d i (.dir x :: t)
                = newArrayFold
                    (.mk d.name
                      (insertA d.dirs (itoa i)
                        (.mk (itoa i) x.dirs x.files x.isArray))
                      d.files d.isArray)
                    (i + 1) t from rfl] at h
          have hres := ih (i + 1)
            (.mk d.name
              (insertA d.dirs (itoa i) (.mk (itoa i) x.dirs x.files x.isArray))
              d.files d.isArray)
            d' h
          simpa [Directory.isArray] using hres

/-- Claim C1: in the source the two flags are the reverse of the claim.
`NewDir` (the object-flavor constructor) marks every directory it builds
with `is_array = true`, and `NewArray` (the array-flavor constructor) never
sets the flag, leaving `false`; consequently a one-field `NewDir` result
fails to serialize (the array encoder misses index 0) while a one-item
`NewArray` result serializes as the JSON object with the positional name,
not as `[...]`. -/
theorem NewDir_NewArray_isArray_inverted :
    (∀ name fds d, NewDir name fds = .ok d → d.isArray = true)
    ∧ (∀ name fds d, NewArray name fds = .ok d → d.isArray = false)
    ∧ NewDir [] [.file { name := [97], t := FTInt, value := [49] }]
        = .ok (.mk [] [] [([97], { name := [97], t := FTInt, value := [49] })]
            true)
    ∧ MarshalJSON
        (.mk [] [] [([97], { name := [97], t := FTInt, value := [49] })] true)
        = .error (.encodeMissingIndex 0)
    ∧ NewArray [] [.file { name := [97], t := FTInt, value := [49] }]
        = .ok (.mk [] []
            [([48], { name := [48], t := FTInt, value := [49] })] false)
    ∧ MarshalJSON
        (.mk [] [] [([48], { name := [48], t := FTInt, value := [49] })]
          false)
        = .ok [123, 34, 48, 34, 58, 49, 125] := by
  refine ⟨?_, ?_, by rfl, ?_, by rfl, ?_⟩
  · intro name fds d h
    exact newDirFold_isArray fds _ d h
  · intro name fds d h
    exact newArrayFold_isArray fds 0 _ d h
  · simp [MarshalJSON, Directory.EncodeJSON, encodeArrayItems, itoa, itoaAux,
          lookupA, Directory.files, Directory.dirs, Directory.isArray]
  · simp [MarshalJSON, Directory.EncodeJSON, encodeDictDirs,
          encodeDictFilesBytes, File.EncodeJSON, Directory.files,
          Directory.dirs, Directory.isArray, doubleQuote, colonByte,
          openBrace, closeBrace]

/-- Witness for `NewDir_NewArray_isArray_inverted`: the two universally
quantified conjuncts applied at a concrete one-file argument list. -/
theorem NewDir_NewArray_isArray_inverted_witness :
    (Directory.mk [] []
        [([97], { name := [97], t := FTInt, value := [49] })] true).isArray
      = true
    ∧ (Directory.mk [] []
        [([48], { name := [48], t := FTInt, value := [49] })] false).isArray
      = false :=
  ⟨NewDir_NewArray_isArray_inverted.1 []
      [.file { name := [97], t := FTInt, value := [49] }] _ (by rfl),
   NewDir_NewArray_isArray_inverted.2.1 []
      [.file { name := [97], t := FTInt, value := [49] }] _ (by rfl)⟩

/-! ### `Directory.remove` -/

/-- `Directory.remove` from jsonfs.go, as a function returning the updated
directory: a file child is deleted; for a directory child the source
consults `len(d.files)+len(d.dirs)` — the count of the parent `d` itself —
and refuses non-recursive removal when it is nonzero; an unknown name falls
through to a nil error with no change. -/
def Directory.remove (d : Directory) (name : List Nat) (children : Bool) :
    Except Err Directory :=
  if (lookupA d.files name).isSome then
    .ok (.mk d.name d.dirs (eraseA d.files name) d.isArray)
  else if (lookupA d.dirs name).isSome then
    if d.files.length + d.dirs.length ≠ 0 ∧ children = false then
      .error .notEmpty
    else .ok (.mk d.name (eraseA d.dirs name) d.files d.isArray)
  else .ok d

/-- `Directory.Remove`: non-recursive removal. -/
def Directory.Remove (d : Directory) (name : List Nat) :
    Except Err Directory :=
  d.remove name false

/-- `Directory.RemoveAll`: recursive removal. -/
def Directory.RemoveAll (d : Directory) (name : List Nat) :
    Except Err Directory :=
  d.remove name true

/-- Claim C5: the source checks the parent's own child count (never zero
when the named child exists), so non-recursive `Remove` fails with the
not-empty error for every directory child — the empty child directory of
the claim included — and a missing name returns nil success instead of a
not-found error. -/
theorem Remove_parent_count_bug :
    (∀ (d : Directory) (name : List Nat),
       lookupA d.files name = none → (lookupA d.dirs name).isSome = true →
       Directory.Remove d name = .error .notEmpty)
    ∧ Directory.Remove
        (.mk [] [([115, 117, 98], newDir [115, 117, 98])] [] false)
        [115, 117, 98]
        = .error .notEmpty
    ∧ Directory.Remove
        (.mk [] [([115, 117, 98], newDir [115, 117, 98])] [] false)
        [110, 111]
        = .ok (.mk [] [([115, 117, 98], newDir [115, 117, 98])] [] false) := by
  refine ⟨?_, by rfl, by rfl⟩
  intro d name hf hd
  have hne : d.dirs ≠ [] := by
    intro he
    rw [he] at hd
    simp [lookupA] at hd
  have hlen : 0 < d.dirs.length := List.length_pos.mpr hne
  have hsum : d.files.length + d.dirs.length ≠ 0 := by omega
  simp [Directory.Remove, Directory.remove, hf, hd, hsum]

/-- Witness for `Remove_parent_count_bug`: the universally quantified
conjunct applied to a parent holding one empty sub-directory. -/
theorem Remove_parent_count_bug_witness :
    Directory.Remove
        (.mk [] [([115, 117, 98], newDir [115, 117, 98])] [] false)
        [115, 117, 98]
      = .error .notEmpty :=
  Remove_parent_count_bug.1
    (.mk [] [([115, 117, 98], newDir [115, 117, 98])] [] false)
    [115, 117, 98] (by rfl) (by rfl)

/-! ### Claims C9 and C10: the top-level entry point -/

/-- Claim C9: an input whose first non-whitespace byte is not `{` is
rejected by the non-streaming entry point with the
object-must-start-with-brace error. -/
theorem UnmarshalJSON_rejects_non_object (l : List Nat) (b : Nat)
    (t : List Nat) (hss : skipSpace l = b :: t) (hb : b ≠ openBrace) :
    UnmarshalJSON l = .error .objectMustStartWithBrace := by
  unfold UnmarshalJSON unmarshalJSONR
  rw [show 2 * l.length + 4 = (2 * l.length + 3) + 1 from rfl]
  rw [show parseDict (2 * l.length + 3 + 1) l []
        = (match skipSpace l with
           | [] => .ok (newDir [], [])
           | b :: t =>
               if b = openBrace then
                 match t with
                 | [] => .error .eof
                 | b2 :: t2 =>
                     if b2 = closeBrace then .ok (newDir [], t2)
                     else parseFields (2 * l.length + 3) t (newDir [])
               else .error .objectMustStartWithBrace) from rfl]
  rw [hss]
  simp [hb, Except.map]

/-- Witness for `UnmarshalJSON_rejects_non_object`: the bare array `[1]`. -/
theorem UnmarshalJSON_rejects_non_object_witness :
    UnmarshalJSON [91, 49, 93] = .error .objectMustStartWithBrace :=
  UnmarshalJSON_rejects_non_object [91, 49, 93] 91 [49, 93] (by rfl)
    (by decide)

theorem skipSpace_all_spaces : ∀ (l : List Nat),
    (∀ b ∈ l, isSpaceB b = true) → skipSpace l = [] := by
  intro l
  induction l with
  | nil => intro h; rfl
  | cons b t ih =>
      intro h
      rw [show skipSpace (b :: t)
            = if isSpaceB b then skipSpace t else b :: t from rfl]
      rw [if_pos (h b (by simp))]
      exact ih (fun x hx => h x (by simp [hx]))

/-- Claim C10: empty or all-whitespace input decodes to the empty unnamed
directory with no children and no error (the EOF path of `openBrace` ends
the machine without setting an error). -/
theorem UnmarshalJSON_empty_input (l : List Nat)
    (h : ∀ b ∈ l, isSpaceB b = true) :
    UnmarshalJSON l = .ok (.mk [] [] [] false) := by
  unfold UnmarshalJSON unmarshalJSONR
  rw [show 2 * l.length + 4 = (2 * l.length + 3) + 1 from rfl]
  rw [show parseDict (2 * l.length + 3 + 1) l []
        = (match skipSpace l with
           | [] => .ok (newDir [], [])
           | b :: t =>
               if b = openBrace then
                 match t with
                 | [] => .error .eof
                 | b2 :: t2 =>
                     if b2 = closeBrace then .ok (newDir [], t2)
                     else parseFields (2 * l.length + 3) t (newDir [])
               else .error .objectMustStartWithBrace) from rfl]
  rw [skipSpace_all_spaces l h]
  rfl

/-- Witness for `UnmarshalJSON_empty_input`: a space and a tab. -/
theorem UnmarshalJSON_empty_input_witness :
    UnmarshalJSON [32, 9] = .ok (.mk [] [] [] false) :=
  UnmarshalJSON_empty_input [32, 9] (by decide)

/-! ### The shape of `getString` contents

`StrOK v` says the byte sequence `v` can stand between two quotes and be
read back whole by `getString`: every quote inside `v` is escaped (its
segment fails `isQuote`) and the trailing backslash run of `v` is even (so
the closing quote after `v` passes `isQuote`).  The definition walks the
same `ReadBytes` segments the decoder walks. -/

/-- Segment-wise well-formedness of a string body (fuelled; each segment
consumes at least one byte, so `length + 1` always suffices). -/
def strOKAux : Nat → List Nat → Bool
  | 0, _ => false
  | fuel + 1, v =>
      match readUntilQuote v with
      | none => trailingFlips v.reverse true
      | some (s, r) => !(isQuote s) && strOKAux fuel r

/-- A string body the decoder can reproduce verbatim. -/
def StrOK (v : List Nat) : Bool :=
  strOKAux (v.length + 1) v

theorem readUntilQuote_none (l : List Nat) (h : ¬ doubleQuote ∈ l) :
    readUntilQuote l = none := by
  induction l with
  | nil => rfl
  | cons b t ih =>
      simp only [List.mem_cons] at h
      push_neg at h
      rw [show readUntilQuote (b :: t)
            = if b = doubleQuote then some ([b], t)
              else match readUntilQuote t with
                   | none => none
                   | some (s, r) => some (b :: s, r) from rfl]
      rw [if_neg (fun e => h.1 e.symm), ih h.2]

theorem readUntilQuote_app (s : List Nat) (r : List Nat)
    (h : ¬ doubleQuote ∈ s) :
    readUntilQuote (s ++ doubleQuote :: r) = some (s ++ [doubleQuote], r) := by
  induction s with
  | nil => simp [readUntilQuote]
  | cons b t ih =>
      simp only [List.mem_cons] at h
      push_neg at h
      rw [List.cons_append]
      rw [show readUntilQuote (b :: (t ++ doubleQuote :: r))
            = if b = doubleQuote then some ([b], t ++ doubleQuote :: r)
              else match readUntilQuote (t ++ doubleQuote :: r) with
                   | none => none
                   | some (s, r') => some (b :: s, r') from rfl]
      rw [if_neg (fun e => h.1 e.symm), ih h.2]
      simp

theorem readUntilQuote_sound : ∀ (l s r : List Nat),
    readUntilQuote l = some (s, r) →
    ∃ s₀, s = s₀ ++ [doubleQuote] ∧ ¬ doubleQuote ∈ s₀
      ∧ l = s₀ ++ doubleQuote :: r := by
  intro l
  induction l with
  | nil => intro s r h; simp [readUntilQuote] at h
  | cons b t ih =>
      intro s r h
      rw [show readUntilQuote (b :: t)
            = if b = doubleQuote then some ([b], t)
              else match readUntilQuote t with
                   | none => none
                   | some (s, r) => some (b :: s, r) from rfl] at h
      by_cases hb : b = doubleQuote
      · rw [if_pos hb] at h
        cases h
        exact ⟨[], by simp [hb], by simp, by simp [hb]⟩
      · rw [if_neg hb] at h
        match ht : readUntilQuote t with
        | none => rw [ht] at h; cases h
        | some (s', r') =>
            rw [ht] at h
            cases h
            obtain ⟨s₀, hs, hmem, hl⟩ := ih s' r ht
            refine ⟨b :: s₀, by simp [hs], ?_, by simp [hl]⟩
            simp only [List.mem_cons]
            push_neg
            exact ⟨fun e => hb e.symm, hmem⟩

/-- `isQuote` on a segment closed by a quote is the backslash-flip scan of
the bytes before that quote. -/
theorem isQuote_append_quote : ∀ (v : List Nat),
    isQuote (v ++ [doubleQuote]) = trailingFlips v.reverse true := by
  intro v
  match v with
  | [] => rfl
  | [x] =>
      show (if x = backslash then false else true)
        = trailingFlips [x] true
      rw [show trailingFlips [x] true
            = if x = backslash then trailingFlips [] (!true) else true from
          rfl]
      by_cases hx : x = backslash
      · simp [hx, trailingFlips]
      · simp [hx]
  | x :: y :: t =>
      have harm : isQuote ((x :: y :: t) ++ [doubleQuote])
          = trailingFlips ((x :: y :: t) ++ [doubleQuote]).dropLast.reverse
              true := by
        cases t with
        | nil => rfl
        | cons z t' => rfl
      rw [harm, List.dropLast_concat]

theorem strOKAux_fuel : ∀ (fuel₁ fuel₂ : Nat) (v : List Nat),
    v.length < fuel₁ → v.length < fuel₂ →
    strOKAux fuel₁ v = strOKAux fuel₂ v := by
  intro fuel₁
  induction fuel₁ with
  | zero => intro fuel₂ v h; omega
  | succ f₁ ih =>
      intro fuel₂ v h₁ h₂
      cases fuel₂ with
      | zero => omega
      | succ f₂ =>
          show (match readUntilQuote v with
                | none => trailingFlips v.reverse true
                | some (s, r) => !(isQuote s) && strOKAux f₁ r)
              = (match readUntilQuote v with
                | none => trailingFlips v.reverse true
                | some (s, r) => !(isQuote s) && strOKAux f₂ r)
          match hr : readUntilQuote v with
          | none => rfl
          | some (s, r) =>
              obtain ⟨s₀, hs, hmem, hl⟩ := readUntilQuote_sound v s r hr
              have hlen : r.length < v.length := by
                rw [hl]
                simp
                omega
              dsimp only
              rw [ih f₂ r (by omega) (by omega)]

theorem StrOK_unfold (v : List Nat) :
    StrOK v = (match readUntilQuote v with
               | none => trailingFlips v.reverse true
               | some (s, r) => !(isQuote s) && StrOK r) := by
  show strOKAux (v.length + 1) v = _
  rw [show strOKAux (v.length + 1) v
        = (match readUntilQuote v with
           | none => trailingFlips v.reverse true
           | some (s, r) => !(isQuote s) && strOKAux v.length r) from rfl]
  match hr : readUntilQuote v with
  | none => rfl
  | some (s, r) =>
      obtain ⟨s₀, hs, hmem, hl⟩ := readUntilQuote_sound v s r hr
      have hlen : r.length < v.length := by
        rw [hl]; simp; omega
      dsimp only
      rw [strOKAux_fuel v.length (r.length + 1) r (by omega) (by omega)]
      rfl

theorem readUntilQuote_none_iff (l : List Nat) :
    readUntilQuote l = none ↔ ¬ doubleQuote ∈ l := by
  constructor
  · intro h
    induction l with
    | nil => simp
    | cons b t ih =>
        rw [show readUntilQuote (b :: t)
              = if b = doubleQuote then some ([b], t)
                else match readUntilQuote t with
                     | none => none
                     | some (s, r) => some (b :: s, r) from rfl] at h
        by_cases hb : b = doubleQuote
        · rw [if_pos hb] at h; cases h
        · rw [if_neg hb] at h
          match ht : readUntilQuote t with
          | none =>
              simp only [List.mem_cons]
              push_neg
              exact ⟨fun e => hb e.symm, ih ht⟩
          | some (s', r') => rw [ht] at h; cases h
  · exact readUntilQuote_none l

/-- Completeness of `getString` on a well-formed body: the decoder reads
back exactly the bytes between the opening and the closing quote, leaving
the rest untouched. -/
theorem getString_app : ∀ (n : Nat) (v : List Nat), v.length ≤ n →
    StrOK v = true →
    ∀ (fuel : Nat) (rest : List Nat), v.length < fuel →
      getString fuel (v ++ doubleQuote :: rest) false = .ok (v, rest) := by
  intro n
  induction n with
  | zero =>
      intro v hn hok fuel rest hf
      have hv : v = [] := List.length_eq_zero.mp (by omega)
      subst hv
      cases fuel with
      | zero => omega
      | succ f =>
          show (match readUntilQuote ([] ++ doubleQuote :: rest) with
                | none => (.error .stringNotTerminated :
                    Except Err (List Nat × List Nat))
                | some (s, r) =>
                    if isQuote s then .ok (s.dropLast, r)
                    else
                      match getString f r false with
                      | .error e => .error e
                      | .ok (buff, r') => .ok (s ++ buff, r')) = .ok ([], rest)
          rw [readUntilQuote_app [] rest (by simp)]
          rfl
  | succ m ih =>
      intro v hn hok fuel rest hf
      cases fuel with
      | zero => omega
      | succ f =>
          show (match readUntilQuote (v ++ doubleQuote :: rest) with
                | none => (.error .stringNotTerminated :
                    Except Err (List Nat × List Nat))
                | some (s, r) =>
                    if isQuote s then .ok (s.dropLast, r)
                    else
                      match getString f r false with
                      | .error e => .error e
                      | .ok (buff, r') => .ok (s ++ buff, r')) = .ok (v, rest)
          match hr : readUntilQuote v with
          | none =>
              have hmem : ¬ doubleQuote ∈ v := (readUntilQuote_none_iff v).mp hr
              rw [readUntilQuote_app v rest hmem]
              rw [StrOK_unfold, hr] at hok
              dsimp only at hok
              dsimp only
              rw [show isQuote (v ++ [doubleQuote])
                    = trailingFlips v.reverse true from isQuote_append_quote v]
              rw [hok, if_pos rfl, List.dropLast_concat]
          | some (s, r) =>
              obtain ⟨s₀, hs, hmem, hl⟩ := readUntilQuote_sound v s r hr
              rw [StrOK_unfold, hr] at hok
              dsimp only at hok
              simp only [Bool.and_eq_true, Bool.not_eq_true'] at hok
              have hlen : r.length + 1 ≤ v.length := by
                rw [hl]
                simp only [List.length_append, List.length_cons]
                omega
              have happ : v ++ doubleQuote :: rest
                  = s₀ ++ doubleQuote :: (r ++ doubleQuote :: rest) := by
                rw [hl]; simp
              rw [happ, readUntilQuote_app s₀ _ hmem]
              dsimp only
              rw [← hs]
              rw [if_neg (by rw [hok.1]; simp)]
              rw [ih r (by omega) hok.2 f rest (by omega)]
              dsimp only
              rw [hs]
              simp [hl]

/-- Soundness of `getString`: a successful read means the input was the
returned body, a closing quote, then the remainder, and the body is
well-formed. -/
theorem getString_sound : ∀ (fuel : Nat) (l v rest : List Nat),
    getString fuel l false = .ok (v, rest) →
    StrOK v = true ∧ l = v ++ doubleQuote :: rest := by
  intro fuel
  induction fuel with
  | zero => intro l v rest h; cases h
  | succ f ih =>
      intro l v rest h
      rw [show getString (f + 1) l false
            = (match readUntilQuote l with
               | none => .error .stringNotTerminated
               | some (s, r) =>
                   if isQuote s then .ok (s.dropLast, r)
                   else
                     match getString f r false with
                     | .error e => .error e
                     | .ok (buff, r') => .ok (s ++ buff, r')) from rfl] at h
      match hr : readUntilQuote l with
      | none => rw [hr] at h; cases h
      | some (s, r) =>
          rw [hr] at h
          dsimp only at h
          obtain ⟨s₀, hs, hmem, hl⟩ := readUntilQuote_sound l s r hr
          by_cases hq : isQuote s = true
          · rw [if_pos hq] at h
            cases h
            constructor
            · rw [StrOK_unfold, hs, List.dropLast_concat,
                  readUntilQuote_none s₀ hmem]
              rw [← isQuote_append_quote s₀, ← hs]
              exact hq
            · rw [hl, hs, List.dropLast_concat]
          · rw [if_neg hq] at h
            match hg : getString f r false with
            | .error e => rw [hg] at h; cases h
            | .ok (buff, r') =>
                rw [hg] at h
                cases h
                obtain ⟨hok', hr'⟩ := ih r buff rest hg
                constructor
                · rw [show s ++ buff = s₀ ++ doubleQuote :: buff from by
                      rw [hs]; simp]
                  rw [StrOK_unfold, readUntilQuote_app s₀ buff hmem, ← hs]
                  simp [hq, hok']
                · rw [hl, hr', hs]
                  simp

/-- One step of `getString` with `deleteFirst` set: the first byte is
discarded, the rest is read with `deleteFirst` clear. -/
theorem getString_deleteFirst (f : Nat) (x : Nat) (t : List Nat) :
    getString (f + 1) (x :: t) true = getString (f + 1) t false := rfl

/-! ### Claim C7: duplicate keys -/

theorem skipSpace_nonspace (b : Nat) (t : List Nat)
    (h : isSpaceB b = false) : skipSpace (b :: t) = b :: t := by
  rw [show skipSpace (b :: t)
        = if isSpaceB b then skipSpace t else b :: t from rfl]
  rw [h]
  rfl

/-- Claim C7: an object key already bound in the directory under
construction aborts the decode with the duplicate-field error — shown on
the spec's literal vector `{"a":1,"a":2}` and, in general, for the key
parser at any well-formed quoted key whose value classifies, whenever the
key is bound in either child map. -/
theorem UnmarshalJSON_duplicate_key :
    UnmarshalJSON [123, 34, 97, 34, 58, 49, 44, 34, 97, 34, 58, 50, 125]
      = .error (.dupField [97])
    ∧ ∀ (fuel : Nat) (k : List Nat) (acc : Directory) (w : List Nat)
        (nk : NextKind) (l4 : List Nat),
        StrOK k = true →
        valueCheck w = .ok (nk, l4) →
        ((lookupA acc.dirs k).isSome || (lookupA acc.files k).isSome)
            = true →
        parseFields (fuel + 2)
            (doubleQuote :: (k ++ doubleQuote :: colonByte :: w)) acc
          = .error (.dupField k) := by
  refine ⟨by rfl, ?_⟩
  intro fuel k acc w nk l4 hks hvc hor
  rw [show parseFields (fuel + 2)
        (doubleQuote :: (k ++ doubleQuote :: colonByte :: w)) acc
      = (match skipSpace
            (doubleQuote :: (k ++ doubleQuote :: colonByte :: w)) with
         | [] => .error .eof
         | b :: t =>
             if b = doubleQuote then
               match getString ((b :: t).length + 1) (b :: t) true with
               | .error e => .error e
               | .ok (key, l2) =>
                   match skipSpace l2 with
                   | [] => .error .eof
                   | c :: t3 =>
                       if c = colonByte then parseValue (fuel + 1) t3 key acc
                       else .error (.colonExpected c)
             else .error (.keyQuoteExpected b)) from rfl]
  rw [skipSpace_nonspace doubleQuote _ (by decide)]
  dsimp only
  rw [if_pos rfl]
  rw [show ((doubleQuote :: (k ++ doubleQuote :: colonByte :: w)).length + 1)
        = ((k ++ doubleQuote :: colonByte :: w).length + 1) + 1 from by
      simp]
  rw [getString_deleteFirst]
  rw [getString_app k.length k (le_refl _) hks _ (colonByte :: w)
        (by simp only [List.length_append, List.length_cons]; omega)]
  dsimp only
  rw [skipSpace_nonspace colonByte _ (by decide)]
  dsimp only
  rw [if_pos rfl]
  rw [show parseValue (fuel + 1) w k acc
        = (match valueCheck w with
           | .error e => .error e
           | .ok (nk, l4) =>
               match duplicateField acc k with
               | .error e => .error e
               | .ok _ =>
                   match nk with
                   | .msgNext =>
                       match parseDict fuel l4 k with
                       | .error e => .error e
                       | .ok (d, l5) =>
                           parseClose fuel l5
                             (.mk acc.name (insertA acc.dirs d.name d)
                               acc.files acc.isArray)
                   | .arrayNext =>
                       match parseArray fuel l4 k with
                       | .error e => .error e
                       | .ok (d, l5) =>
                           parseClose fuel l5
                             (.mk acc.name (insertA acc.dirs d.name d)
                               acc.files acc.isArray)
                   | .stringNext =>
                       match decodeString k l4 with
                       | .error e => .error e
                       | .ok (o, l5) =>
                           parseClose fuel l5
                             (.mk acc.name acc.dirs (insertA acc.files k o)
                               acc.isArray)
                   | .trueNext =>
                       match decodeBool k .trueNext l4 with
                       | .error e => .error e
                       | .ok (o, l5) =>
                           parseClose fuel l5
                             (.mk acc.name acc.dirs (insertA acc.files k o)
                               acc.isArray)
                   | .falseNext =>
                       match decodeBool k .falseNext l4 with
                       | .error e => .error e
                       | .ok (o, l5) =>
                           parseClose fuel l5
                             (.mk acc.name acc.dirs (insertA acc.files k o)
                               acc.isArray)
                   | .numNext =>
                       match decodeNumber k l4 with
                       | .error e => .error e
                       | .ok (o, l5) =>
                           parseClose fuel l5
                             (.mk acc.name acc.dirs (insertA acc.files k o)
                               acc.isArray)
                   | .nullNext =>
                       match decodeNull k l4 with
                       | .error e => .error e
                       | .ok (o, l5) =>
                           parseClose fuel l5
                             (.mk acc.name acc.dirs (insertA acc.files k o)
                               acc.isArray)) from rfl]
  rw [hvc]
  dsimp only
  by_cases hd : (lookupA acc.dirs k).isSome = true
  · simp [duplicateField, hd]
  · have hf2 : (lookupA acc.files k).isSome = true := by
      rcases Bool.or_eq_true_iff.mp hor with h | h
      · exact absurd h hd
      · exact h
    simp [duplicateField, hd, hf2]

/-- Witness for `UnmarshalJSON_duplicate_key`: the general conjunct at a
directory already holding the file `a`. -/
theorem UnmarshalJSON_duplicate_key_witness :
    parseFields 2 (doubleQuote :: ([97] ++ doubleQuote :: colonByte :: [49, 125]))
        (.mk [] [] [([97], { name := [97], t := FTInt, value := [49] })] false)
      = .error (.dupField [97]) :=
  UnmarshalJSON_duplicate_key.2 0 [97]
    (.mk [] [] [([97], { name := [97], t := FTInt, value := [49] })] false)
    [49, 125] .numNext [49, 125] (by rfl) (by rfl) (by rfl)

/-! ### Claim C6: the streaming driver

`UnmarshalStream` loops `UnmarshalJSON` over one shared reader; the channel
is modelled as the list of emitted `Stream` values (`Dir` or `Err`).  `fuel`
only forces termination of the model; each emitted directory consumes
input, so `length + 2` dominates the number of loop iterations. -/

/-- The goroutine loop of `UnmarshalStream`: a decode error is emitted and
ends the stream; a result with empty name and no children ends the stream
silently; anything else is emitted and the loop continues on the remaining
input. -/
def unmarshalStream : Nat → List Nat → List (Except Err Directory)
  | 0, _ => []
  | fuel + 1, l =>
      match unmarshalJSONR l with
      | .error e => [.error e]
      | .ok (d, rest) =>
          if d.name = [] ∧ d.files.length + d.dirs.length = 0 then []
          else .ok d :: unmarshalStream fuel rest

/-- `UnmarshalStream` over a finite source. -/
def UnmarshalStream (l : List Nat) : List (Except Err Directory) :=
  unmarshalStream (l.length + 2) l

/-- Claim C6 (counterexample): on the source `{}{"a":1}` the run that
decodes the leading `{}` returns an empty unnamed directory, which the
loop treats as end-of-stream — so the stream yields nothing and ends
without an error even though the run consumed a whole object and a further
object follows and decodes.  The claim predicted one yielded Directory per
successfully decoded object and end-of-stream only at end-of-input. -/
theorem UnmarshalStream_empty_object_cx :
    UnmarshalStream [123, 125, 123, 34, 97, 34, 58, 49, 125] = []
    ∧ unmarshalJSONR [123, 125, 123, 34, 97, 34, 58, 49, 125]
        = .ok (.mk [] [] [] false, [123, 34, 97, 34, 58, 49, 125])
    ∧ UnmarshalJSON [123, 34, 97, 34, 58, 49, 125]
        = .ok (.mk [] []
            [([97], { name := [97], t := FTInt, value := [49] })] false) := by
  exact ⟨rfl, rfl, rfl⟩

/-- Claim C6 (amended): each loop iteration of the streaming driver emits
one Directory per successfully decoded top-level object whose result is
not the empty unnamed directory, in input order; a decode failure emits
one error value and ends the stream; and the stream ends without an error
value exactly when a run returns an empty, unnamed directory — which
happens both at end of input and when a run decodes a bare `{}`.  The
spec's two-object vector `{"a":1}{"b":2}` yields its two Directories in
order and then ends without error. -/
theorem UnmarshalStream_loop_laws :
    UnmarshalStream
        [123, 34, 97, 34, 58, 49, 125, 123, 34, 98, 34, 58, 50, 125]
      = [.ok (.mk [] [] [([97], { name := [97], t := FTInt, value := [49] })]
            false),
         .ok (.mk [] [] [([98], { name := [98], t := FTInt, value := [50] })]
            false)]
    ∧ (∀ (fuel : Nat) (l : List Nat) (e : Err),
        unmarshalJSONR l = .error e →
        unmarshalStream (fuel + 1) l = [.error e])
    ∧ (∀ (fuel : Nat) (l : List Nat) (d : Directory) (rest : List Nat),
        unmarshalJSONR l = .ok (d, rest) →
        d.name = [] → d.files.length + d.dirs.length = 0 →
        unmarshalStream (fuel + 1) l = [])
    ∧ (∀ (fuel : Nat) (l : List Nat) (d : Directory) (rest : List Nat),
        unmarshalJSONR l = .ok (d, rest) →
        ¬ (d.name = [] ∧ d.files.length + d.dirs.length = 0) →
        unmarshalStream (fuel + 1) l
          = .ok d :: unmarshalStream fuel rest) := by
  refine ⟨by rfl, ?_, ?_, ?_⟩
  · intro fuel l e h
    rw [show unmarshalStream (fuel + 1) l
          = (match unmarshalJSONR l with
             | .error e => [.error e]
             | .ok (d, rest) =>
                 if d.name = [] ∧ d.files.length + d.dirs.length = 0 then []
                 else .ok d :: unmarshalStream fuel rest) from rfl]
    rw [h]
  · intro fuel l d rest h h1 h2
    rw [show unmarshalStream (fuel + 1) l
          = (match unmarshalJSONR l with
             | .error e => [.error e]
             | .ok (d, rest) =>
                 if d.name = [] ∧ d.files.length + d.dirs.length = 0 then []
                 else .ok d :: unmarshalStream fuel rest) from rfl]
    rw [h]
    dsimp only
    rw [if_pos ⟨h1, h2⟩]
  · intro fuel l d rest h hnot
    rw [show unmarshalStream (fuel + 1) l
          = (match unmarshalJSONR l with
             | .error e => [.error e]
             | .ok (d, rest) =>
                 if d.name = [] ∧ d.files.length + d.dirs.length = 0 then []
                 else .ok d :: unmarshalStream fuel rest) from rfl]
    rw [h]
    dsimp only
    rw [if_neg hnot]

/-- Witness for `UnmarshalStream_loop_laws`: the step law at the two-object
source, emitting the first Directory and continuing on the second. -/
theorem UnmarshalStream_loop_laws_witness :
    unmarshalStream 15
        [123, 34, 97, 34, 58, 49, 125, 123, 34, 98, 34, 58, 50, 125]
      = .ok (.mk [] [] [([97], { name := [97], t := FTInt, value := [49] })]
            false)
        :: unmarshalStream 14 [123, 34, 98, 34, 58, 50, 125] :=
  UnmarshalStream_loop_laws.2.2.2 14
    [123, 34, 97, 34, 58, 49, 125, 123, 34, 98, 34, 58, 50, 125]
    (.mk [] [] [([97], { name := [97], t := FTInt, value := [49] })] false)
    [123, 34, 98, 34, 58, 50, 125] (by rfl) (by simp [Directory.files])

/-! ### Well-formedness of decoded trees

`WFDir` captures exactly the shape `parseDict`/`parseArray` produce: child
map keys equal child names and are reproducible string bodies, keys are
unique across both maps, array children are the positional views
`filesOf`/`dirsOf` of one item sequence, and file values fit their kind.
This is the invariant behind claims C8 and C2. -/

/-- One parsed array item: a scalar leaf or a nested directory. -/
inductive Entry where
  | fileE (f : File)
  | dirE (d : Directory)

/-- The file half of an item sequence, keyed positionally from `i`. -/
def filesOf : Nat → List Entry → List (List Nat × File)
  | _, [] => []
  | i, .fileE f :: t => (itoa i, f) :: filesOf (i + 1) t
  | i, .dirE _ :: t => filesOf (i + 1) t

/-- The directory half of an item sequence, keyed positionally from `i`. -/
def dirsOf : Nat → List Entry → List (List Nat × Directory)
  | _, [] => []
  | i, .fileE _ :: t => dirsOf (i + 1) t
  | i, .dirE d :: t => (itoa i, d) :: dirsOf (i + 1) t

/-- A file value agrees with its kind the way the scalar decoders build
them. -/
def fileValueOK (f : File) : Prop :=
  match f.t with
  | FTNull => f.value = nullBytes
  | FTBool => f.value = trueBytes ∨ f.value = falseBytes
  | FTInt => f.value ≠ [] ∧ ∀ b ∈ f.value, isNumberB b = true
  | FTFloat =>
      (∃ b t, f.value = b :: t ∧ isNumberB b = true)
      ∧ (∀ b ∈ f.value, numScanByte b = true) ∧ dotByte ∈ f.value
  | FTString => StrOK f.value = true

/-- Well-formedness of a directory tree as produced by the decoder. -/
inductive WFDir : Directory → Prop where
  | mk : ∀ (d : Directory),
      (∀ p ∈ d.files, (p.2 : File).name = p.1 ∧ StrOK p.1 = true
        ∧ fileValueOK p.2) →
      (∀ p ∈ d.dirs, (p.2 : Directory).name = p.1 ∧ StrOK p.1 = true) →
      (∀ p ∈ d.dirs, WFDir p.2) →
      (keysA d.dirs ++ keysA d.files).Nodup →
      (d.isArray = true →
        ∃ items, d.files = filesOf 0 items ∧ d.dirs = dirsOf 0 items) →
      WFDir d

theorem WFDir_files {d : Directory} (h : WFDir d) :
    ∀ p ∈ d.files, (p.2 : File).name = p.1 ∧ StrOK p.1 = true
      ∧ fileValueOK p.2 := by
  cases h with
  | mk d hf hd hr hn ha => exact hf

theorem WFDir_dirs {d : Directory} (h : WFDir d) :
    ∀ p ∈ d.dirs, (p.2 : Directory).name = p.1 ∧ StrOK p.1 = true := by
  cases h with
  | mk d hf hd hr hn ha => exact hd

theorem WFDir_dirs_rec {d : Directory} (h : WFDir d) :
    ∀ p ∈ d.dirs, WFDir p.2 := by
  cases h with
  | mk d hf hd hr hn ha => exact hr

theorem WFDir_nodup {d : Directory} (h : WFDir d) :
    (keysA d.dirs ++ keysA d.files).Nodup := by
  cases h with
  | mk d hf hd hr hn ha => exact hn

theorem WFDir_array {d : Directory} (h : WFDir d) :
    d.isArray = true →
      ∃ items, d.files = filesOf 0 items ∧ d.dirs = dirsOf 0 items := by
  cases h with
  | mk d hf hd hr hn ha => exact ha

/-- Every digit string is a reproducible string body (no quotes, no
backslashes, even trailing run). -/
theorem StrOK_digits (k : List Nat) (h : ∀ b ∈ k, isNumberB b = true) :
    StrOK k = true := by
  rw [StrOK_unfold]
  rw [readUntilQuote_none k (by
      intro hm
      have := h doubleQuote hm
      simp [isNumberB, doubleQuote] at this)]
  have : ∀ r : List Nat, (∀ b ∈ r, isNumberB b = true) →
      trailingFlips r true = true := by
    intro r
    induction r with
    | nil => intro _; rfl
    | cons b t ih =>
        intro hr
        rw [show trailingFlips (b :: t) true
              = if b = backslash then trailingFlips t (!true) else true from
            rfl]
        rw [if_neg (by
          intro he
          have := hr b (by simp)
          rw [he] at this
          simp [isNumberB, backslash] at this)]
  exact this k.reverse (fun b hb => h b (List.mem_reverse.mp hb))

theorem StrOK_itoa (n : Nat) : StrOK (itoa n) = true :=
  StrOK_digits (itoa n) (itoa_digits n)

theorem filesOf_length_add (items : List Entry) : ∀ i,
    (filesOf i items).length + (dirsOf i items).length = items.length := by
  induction items with
  | nil => intro i; rfl
  | cons e t ih =>
      intro i
      cases e with
      | fileE f =>
          show (filesOf i (.fileE f :: t)).length
              + (dirsOf i (.fileE f :: t)).length = t.length + 1
          rw [show filesOf i (.fileE f :: t)
                = (itoa i, f) :: filesOf (i + 1) t from rfl,
              show dirsOf i (.fileE f :: t) = dirsOf (i + 1) t from rfl]
          simp only [List.length_cons]
          have := ih (i + 1)
          omega
      | dirE dd =>
          show (filesOf i (.dirE dd :: t)).length
              + (dirsOf i (.dirE dd :: t)).length = t.length + 1
          rw [show filesOf i (.dirE dd :: t) = filesOf (i + 1) t from rfl,
              show dirsOf i (.dirE dd :: t)
                = (itoa i, dd) :: dirsOf (i + 1) t from rfl]
          simp only [List.length_cons]
          have := ih (i + 1)
          omega

theorem keysA_filesOf (items : List Entry) : ∀ i k,
    k ∈ keysA (filesOf i items) →
      ∃ j, i ≤ j ∧ j < i + items.length ∧ k = itoa j := by
  induction items with
  | nil => intro i k h; simp [filesOf, keysA] at h
  | cons e t ih =>
      intro i k h
      cases e with
      | fileE f =>
          rw [show filesOf i (.fileE f :: t)
                = (itoa i, f) :: filesOf (i + 1) t from rfl] at h
          rw [show keysA ((itoa i, f) :: filesOf (i + 1) t)
                = itoa i :: keysA (filesOf (i + 1) t) from rfl] at h
          rcases List.mem_cons.mp h with h | h
          · exact ⟨i, le_refl i, by simp, h⟩
          · obtain ⟨j, h1, h2, h3⟩ := ih (i + 1) k h
            exact ⟨j, by omega, by simp; omega, h3⟩
      | dirE dd =>
          rw [show filesOf i (.dirE dd :: t) = filesOf (i + 1) t from rfl] at h
          obtain ⟨j, h1, h2, h3⟩ := ih (i + 1) k h
          exact ⟨j, by omega, by simp; omega, h3⟩

theorem keysA_dirsOf (items : List Entry) : ∀ i k,
    k ∈ keysA (dirsOf i items) →
      ∃ j, i ≤ j ∧ j < i + items.length ∧ k = itoa j := by
  induction items with
  | nil => intro i k h; simp [dirsOf, keysA] at h
  | cons e t ih =>
      intro i k h
      cases e with
      | fileE f =>
          rw [show dirsOf i (.fileE f :: t) = dirsOf (i + 1) t from rfl] at h
          obtain ⟨j, h1, h2, h3⟩ := ih (i + 1) k h
          exact ⟨j, by omega, by simp; omega, h3⟩
      | dirE dd =>
          rw [show dirsOf i (.dirE dd :: t)
                = (itoa i, dd) :: dirsOf (i + 1) t from rfl] at h
          rw [show keysA ((itoa i, dd) :: dirsOf (i + 1) t)
                = itoa i :: keysA (dirsOf (i + 1) t) from rfl] at h
          rcases List.mem_cons.mp h with h | h
          · exact ⟨i, le_refl i, by simp, h⟩
          · obtain ⟨j, h1, h2, h3⟩ := ih (i + 1) k h
            exact ⟨j, by omega, by simp; omega, h3⟩

/-- The positional keys of one item sequence, both halves together, are a
permutation of `itoa` over the index range. -/
theorem keys_perm_range (items : List Entry) : ∀ i,
    (keysA (filesOf i items) ++ keysA (dirsOf i items)).Perm
      (List.map itoa (List.range' i items.length)) := by
  induction items with
  | nil => intro i; simp [filesOf, dirsOf, keysA]
  | cons e t ih =>
      intro i
      cases e with
      | fileE f =>
          rw [show filesOf i (.fileE f :: t)
                = (itoa i, f) :: filesOf (i + 1) t from rfl,
              show dirsOf i (.fileE f :: t) = dirsOf (i + 1) t from rfl]
          rw [show keysA ((itoa i, f) :: filesOf (i + 1) t)
                = itoa i :: keysA (filesOf (i + 1) t) from rfl]
          simp only [List.length_cons]
          rw [show (List.range' i (t.length + 1))
                = i :: List.range' (i + 1) t.length from rfl]
          rw [List.cons_append, List.map_cons]
          exact (ih (i + 1)).cons (itoa i)
      | dirE dd =>
          rw [show filesOf i (.dirE dd :: t) = filesOf (i + 1) t from rfl,
              show dirsOf i (.dirE dd :: t)
                = (itoa i, dd) :: dirsOf (i + 1) t from rfl]
          rw [show keysA ((itoa i, dd) :: dirsOf (i + 1) t)
                = itoa i :: keysA (dirsOf (i + 1) t) from rfl]
          simp only [List.length_cons]
          rw [show (List.range' i (t.length + 1))
                = i :: List.range' (i + 1) t.length from rfl]
          rw [List.map_cons]
          exact List.Perm.trans List.perm_middle ((ih (i + 1)).cons (itoa i))

/-! ### One-step equations for the parser -/

theorem parseDict_eq (fuel : Nat) (l dirName : List Nat) :
    parseDict (fuel + 1) l dirName
      = (match skipSpace l with
         | [] => .ok (newDir dirName, [])
         | b :: t =>
             if b = openBrace then
               match t with
               | [] => .error .eof
               | b2 :: t2 =>
                   if b2 = closeBrace then .ok (newDir dirName, t2)
                   else parseFields fuel t (newDir dirName)
             else .error .objectMustStartWithBrace) := rfl

theorem parseFields_eq (fuel : Nat) (l : List Nat) (dir : Directory) :
    parseFields (fuel + 1) l dir
      = (match skipSpace l with
         | [] => .error .eof
         | b :: t =>
             if b = doubleQuote then
               match getString ((b :: t).length + 1) (b :: t) true with
               | .error e => .error e
               | .ok (key, l2) =>
                   match skipSpace l2 with
                   | [] => .error .eof
                   | c :: t3 =>
                       if c = colonByte then parseValue fuel t3 key dir
                       else .error (.colonExpected c)
             else .error (.keyQuoteExpected b)) := rfl

theorem parseValue_eq (fuel : Nat) (l k : List Nat) (dir : Directory) :
    parseValue (fuel + 1) l k dir
      = (match valueCheck l with
         | .error e => .error e
         | .ok (nk, l4) =>
             match duplicateField dir k with
             | .error e => .error e
             | .ok _ =>
                 match nk with
                 | .msgNext =>
                     match parseDict fuel l4 k with
                     | .error e => .error e
                     | .ok (d, l5) =>
                         parseClose fuel l5
                           (.mk dir.name (insertA dir.dirs d.name d)
                             dir.files dir.isArray)
                 | .arrayNext =>
                     match parseArray fuel l4 k with
                     | .error e => .error e
                     | .ok (d, l5) =>
                         parseClose fuel l5
                           (.mk dir.name (insertA dir.dirs d.name d)
                             dir.files dir.isArray)
                 | .stringNext =>
                     match decodeString k l4 with
                     | .error e => .error e
                     | .ok (o, l5) =>
                         parseClose fuel l5
                           (.mk dir.name dir.dirs (insertA dir.files k o)
                             dir.isArray)
                 | .trueNext =>
                     match decodeBool k .trueNext l4 with
                     | .error e => .error e
                     | .ok (o, l5) =>
                         parseClose fuel l5
                           (.mk dir.name dir.dirs (insertA dir.files k o)
                             dir.isArray)
                 | .falseNext =>
                     match decodeBool k .falseNext l4 with
                     | .error e => .error e
                     | .ok (o, l5) =>
                         parseClose fuel l5
                           (.mk dir.name dir.dirs (insertA dir.files k o)
                             dir.isArray)
                 | .numNext =>
                     match decodeNumber k l4 with
                     | .error e => .error e
                     | .ok (o, l5) =>
                         parseClose fuel l5
                           (.mk dir.name dir.dirs (insertA dir.files k o)
                             dir.isArray)
                 | .nullNext =>
                     match decodeNull k l4 with
                     | .error e => .error e
                     | .ok (o, l5) =>
                         parseClose fuel l5
                           (.mk dir.name dir.dirs (insertA dir.files k o)
                             dir.isArray)) := rfl

theorem parseClose_eq (fuel : Nat) (l : List Nat) (dir : Directory) :
    parseClose (fuel + 1) l dir
      = (match skipSpace l with
         | [] => .error .commaOrCloseBraceEol
         | b :: t =>
             if b = closeBrace then .ok (dir, t)
             else if b = commaByte then parseFields fuel t dir
             else .error (.commaOrCloseBrace b)) := rfl

theorem parseArray_eq (fuel : Nat) (l name : List Nat) :
    parseArray (fuel + 1) l name
      = (match skipSpace l with
         | [] => .error .eof
         | b :: t =>
             if b = openBracket then
               match t with
               | [] => .error .eof
               | b2 :: t2 =>
                   if b2 = closeBracket then .ok (newArrayDir name, t2)
                   else parseItems fuel t 0 (newArrayDir name)
             else .error (.arrayOpenBracketExpected b)) := rfl

theorem parseItems_eq (fuel : Nat) (l : List Nat) (item : Nat)
    (dir : Directory) :
    parseItems (fuel + 1) l item dir
      = (match valueCheck l with
         | .error e => .error e
         | .ok (nk, l4) =>
             match nk with
             | .msgNext =>
                 match parseDict fuel l4 (itoa item) with
                 | .error e => .error e
                 | .ok (d, l5) =>
                     parseCloseArr fuel l5 (item + 1)
                       (.mk dir.name (insertA dir.dirs d.name d) dir.files
                         dir.isArray)
             | .arrayNext =>
                 match parseArray fuel l4 (itoa item) with
                 | .error e => .error e
                 | .ok (d, l5) =>
                     parseCloseArr fuel l5 (item + 1)
                       (.mk dir.name (insertA dir.dirs d.name d) dir.files
                         dir.isArray)
             | .stringNext =>
                 match decodeString (itoa item) l4 with
                 | .error e => .error e
                 | .ok (o, l5) =>
                     parseCloseArr fuel l5 (item + 1)
                       (.mk dir.name dir.dirs
                         (insertA dir.files (itoa item) o) dir.isArray)
             | .trueNext =>
                 match decodeBool (itoa item) .trueNext l4 with
                 | .error e => .error e
                 | .ok (o, l5) =>
                     parseCloseArr fuel l5 (item + 1)
                       (.mk dir.name dir.dirs
                         (insertA dir.files (itoa item) o) dir.isArray)
             | .falseNext =>
                 match decodeBool (itoa item) .falseNext l4 with
                 | .error e => .error e
                 | .ok (o, l5) =>
                     parseCloseArr fuel l5 (item + 1)
                       (.mk dir.name dir.dirs
                         (insertA dir.files (itoa item) o) dir.isArray)
             | .numNext =>
                 match decodeNumber (itoa item) l4 with
                 | .error e => .error e
                 | .ok (o, l5) =>
                     parseCloseArr fuel l5 (item + 1)
                       (.mk dir.name dir.dirs
                         (insertA dir.files (itoa item) o) dir.isArray)
             | .nullNext =>
                 match decodeNull (itoa item) l4 with
                 | .error e => .error e
                 | .ok (o, l5) =>
                     parseCloseArr fuel l5 (item + 1)
                       (.mk dir.name dir.dirs
                         (insertA dir.files (itoa item) o) dir.isArray)) :=
  rfl

theorem parseCloseArr_eq (fuel : Nat) (l : List Nat) (item : Nat)
    (dir : Directory) :
    parseCloseArr (fuel + 1) l item dir
      = (match skipSpace l with
         | [] => .error .commaOrCloseBracketEol
         | b :: t =>
             if b = closeBracket then .ok (dir, t)
             else if b = commaByte then parseItems fuel t item dir
             else .error (.commaOrCloseBracket b)) := rfl

/-! ### Soundness helpers -/

theorem nodup_mid_insert {A B : List (List Nat)} {k : List Nat}
    (h : (A ++ B).Nodup) (hA : ¬ k ∈ A) (hB : ¬ k ∈ B) :
    ((A ++ [k]) ++ B).Nodup := by
  have hperm : ((A ++ [k]) ++ B).Perm (k :: (A ++ B)) := by
    rw [List.append_assoc]
    exact List.perm_middle
  exact hperm.nodup_iff.mpr (by
    rw [List.nodup_cons]
    exact ⟨by simp [hA, hB], h⟩)

theorem nodup_snoc_right {A B : List (List Nat)} {k : List Nat}
    (h : (A ++ B).Nodup) (hA : ¬ k ∈ A) (hB : ¬ k ∈ B) :
    (A ++ (B ++ [k])).Nodup := by
  have hperm : (A ++ (B ++ [k])).Perm (k :: (A ++ B)) := by
    rw [← List.append_assoc]
    exact List.perm_append_singleton k (A ++ B)
  exact hperm.nodup_iff.mpr (by
    rw [List.nodup_cons]
    exact ⟨by simp [hA, hB], h⟩)

theorem keysA_append {α : Type} (A B : List (List Nat × α)) :
    keysA (A ++ B) = keysA A ++ keysA B := by
  simp [keysA]

theorem keysA_snoc {α : Type} (A : List (List Nat × α)) (k : List Nat)
    (v : α) : keysA (A ++ [(k, v)]) = keysA A ++ [k] := by
  simp [keysA]

theorem duplicateField_ok {dir : Directory} {name : List Nat}
    (h : duplicateField dir name = .ok ()) :
    ¬ name ∈ keysA dir.dirs ∧ ¬ name ∈ keysA dir.files := by
  unfold duplicateField at h
  by_cases h1 : (lookupA dir.dirs name).isSome = true
  · rw [if_pos h1] at h; cases h
  · rw [if_neg h1] at h
    by_cases h2 : (lookupA dir.files name).isSome = true
    · rw [if_pos h2] at h; cases h
    · constructor
      · intro hm
        exact h1 ((lookupA_isSome_iff dir.dirs name).mpr hm)
      · intro hm
        exact h2 ((lookupA_isSome_iff dir.files name).mpr hm)

theorem valueCheck_num {l : List Nat} {l4 : List Nat}
    (h : valueCheck l = .ok (.numNext, l4)) :
    l4 = skipSpace l ∧ ∃ b t, l4 = b :: t ∧ isNumberB b = true := by
  unfold valueCheck at h
  cases hss : skipSpace l with
  | nil => rw [hss] at h; cases h
  | cons b t =>
      rw [hss] at h
      dsimp only at h
      split_ifs at h with h1 h2 h3 h4 h5 h6 h7 <;>
        (injection h with hp; injection hp with hk hl)
      all_goals first
        | exact ⟨hl.symm, b, t, hl.symm, h4⟩
        | cases hk

theorem decodeString_ok {k l : List Nat} {o : File} {r : List Nat}
    (h : decodeString k l = .ok (o, r)) :
    o.name = k ∧ o.t = FTString ∧ StrOK o.value = true := by
  unfold decodeString at h
  cases l with
  | nil => cases h
  | cons x t =>
      rw [show (x :: t).length + 1 = (t.length + 1) + 1 from by simp] at h
      rw [getString_deleteFirst] at h
      match hg : getString (t.length + 1 + 1) t false with
      | .error e => rw [hg] at h; cases h
      | .ok (s, rest) =>
          rw [hg] at h
          cases h
          exact ⟨rfl, rfl, (getString_sound _ _ _ _ hg).1⟩

theorem decodeBool_ok {k : List Nat} {hint : NextKind} {l : List Nat}
    {o : File} {r : List Nat} (h : decodeBool k hint l = .ok (o, r)) :
    o.name = k ∧ o.t = FTBool
      ∧ (o.value = trueBytes ∨ o.value = falseBytes) := by
  simp only [decodeBool] at h
  split_ifs at h <;> cases h <;>
    refine ⟨rfl, rfl, ?_⟩ <;>
    first
      | exact Or.inl (by assumption)
      | exact Or.inr (by assumption)

theorem decodeNull_ok {k l : List Nat} {o : File} {r : List Nat}
    (h : decodeNull k l = .ok (o, r)) :
    o.name = k ∧ o.t = FTNull ∧ o.value = nullBytes := by
  simp only [decodeNull] at h
  split_ifs at h with h1 h2
  · cases h
    exact ⟨rfl, rfl, h2⟩

theorem decodeNumber_ok {k : List Nat} {b : Nat} {t : List Nat} {o : File}
    {r : List Nat} (hb : isNumberB b = true)
    (h : decodeNumber k (b :: t) = .ok (o, r)) :
    o.name = k ∧ fileValueOK o := by
  rw [decodeNumber_spec] at h
  have hscan : numScanByte b = true := by simp [numScanByte, hb]
  have hval : (b :: t).takeWhile numScanByte
      = b :: t.takeWhile numScanByte := by
    rw [List.takeWhile_cons, if_pos hscan]
  split_ifs at h with h1 h2 h3
  · cases h
    refine ⟨rfl, ?_⟩
    unfold fileValueOK
    dsimp only
    refine ⟨⟨b, t.takeWhile numScanByte, hval, hb⟩, ?_, ?_⟩
    · intro x hx
      exact List.mem_takeWhile_imp hx
    · rw [List.any_eq_true] at h3
      obtain ⟨x, hx, he⟩ := h3
      rw [beq_iff_eq] at he
      exact he ▸ hx
  · cases h
    refine ⟨rfl, ?_⟩
    unfold fileValueOK
    dsimp only
    refine ⟨h2, ?_⟩
    intro x hx
    have hsc : numScanByte x = true := List.mem_takeWhile_imp hx
    rw [List.any_eq_true] at h3
    push_neg at h3
    have hxd := h3 x hx
    rw [numScanByte] at hsc
    rcases Bool.or_eq_true_iff.mp hsc with hd | hd
    · exact hd
    · exact absurd hd (by simpa using hxd)

theorem filesOf_append (xs ys : List Entry) : ∀ i,
    filesOf i (xs ++ ys) = filesOf i xs ++ filesOf (i + xs.length) ys := by
  induction xs with
  | nil => intro i; simp [filesOf]
  | cons e t ih =>
      intro i
      cases e with
      | fileE f =>
          rw [List.cons_append,
              show filesOf i (.fileE f :: (t ++ ys))
                = (itoa i, f) :: filesOf (i + 1) (t ++ ys) from rfl,
              show filesOf i (.fileE f :: t)
                = (itoa i, f) :: filesOf (i + 1) t from rfl,
              ih (i + 1)]
          simp only [List.length_cons, List.cons_append]
          rw [show i + 1 + t.length = i + (t.length + 1) from by omega]
      | dirE dd =>
          rw [List.cons_append,
              show filesOf i (.dirE dd :: (t ++ ys))
                = filesOf (i + 1) (t ++ ys) from rfl,
              show filesOf i (.dirE dd :: t) = filesOf (i + 1) t from rfl,
              ih (i + 1)]
          simp only [List.length_cons]
          rw [show i + 1 + t.length = i + (t.length + 1) from by omega]

theorem dirsOf_append (xs ys : List Entry) : ∀ i,
    dirsOf i (xs ++ ys) = dirsOf i xs ++ dirsOf (i + xs.length) ys := by
  induction xs with
  | nil => intro i; simp [dirsOf]
  | cons e t ih =>
      intro i
      cases e with
      | fileE f =>
          rw [List.cons_append,
              show dirsOf i (.fileE f :: (t ++ ys))
                = dirsOf (i + 1) (t ++ ys) from rfl,
              show dirsOf i (.fileE f :: t) = dirsOf (i + 1) t from rfl,
              ih (i + 1)]
          simp only [List.length_cons]
          rw [show i + 1 + t.length = i + (t.length + 1) from by omega]
      | dirE dd =>
          rw [List.cons_append,
              show dirsOf i (.dirE dd :: (t ++ ys))
                = (itoa i, dd) :: dirsOf (i + 1) (t ++ ys) from rfl,
              show dirsOf i (.dirE dd :: t)
                = (itoa i, dd) :: dirsOf (i + 1) t from rfl,
              ih (i + 1)]
          simp only [List.length_cons, List.cons_append]
          rw [show i + 1 + t.length = i + (t.length + 1) from by omega]

theorem itoa_fresh_filesOf (items : List Entry) (j : Nat)
    (hj : items.length ≤ j) : ¬ itoa j ∈ keysA (filesOf 0 items) := by
  intro hm
  obtain ⟨j', h1, h2, h3⟩ := keysA_filesOf items 0 (itoa j) hm
  have := itoa_inj h3
  omega

theorem itoa_fresh_dirsOf (items : List Entry) (j : Nat)
    (hj : items.length ≤ j) : ¬ itoa j ∈ keysA (dirsOf 0 items) := by
  intro hm
  obtain ⟨j', h1, h2, h3⟩ := keysA_dirsOf items 0 (itoa j) hm
  have := itoa_inj h3
  omega

theorem fileValueOK_string {o : File} (ht : o.t = FTString)
    (hv : StrOK o.value = true) : fileValueOK o := by
  unfold fileValueOK
  rw [ht]
  exact hv

theorem fileValueOK_bool {o : File} (ht : o.t = FTBool)
    (hv : o.value = trueBytes ∨ o.value = falseBytes) : fileValueOK o := by
  unfold fileValueOK
  rw [ht]
  exact hv

theorem fileValueOK_null {o : File} (ht : o.t = FTNull)
    (hv : o.value = nullBytes) : fileValueOK o := by
  unfold fileValueOK
  rw [ht]
  exact hv

/-- The invariant every `dictSM`/`arraySM` accumulator directory keeps:
the four non-array hypotheses of `WFDir`. -/
def DictInv (dir : Directory) : Prop :=
  (∀ p ∈ dir.files, (p.2 : File).name = p.1 ∧ StrOK p.1 = true
      ∧ fileValueOK p.2)
  ∧ (∀ p ∈ dir.dirs, (p.2 : Directory).name = p.1 ∧ StrOK p.1 = true)
  ∧ (∀ p ∈ dir.dirs, WFDir p.2)
  ∧ (keysA dir.dirs ++ keysA dir.files).Nodup

/-- The extra invariant of an `arraySM` accumulator after `count` items:
its maps are the positional views of one item sequence of length
`count`. -/
def ArrInv (dir : Directory) (count : Nat) : Prop :=
  DictInv dir
  ∧ ∃ items : List Entry, items.length = count
      ∧ dir.files = filesOf 0 items ∧ dir.dirs = dirsOf 0 items

theorem WFDir_of_inv {d : Directory} (h : DictInv d)
    (ha : d.isArray = true →
      ∃ items, d.files = filesOf 0 items ∧ d.dirs = dirsOf 0 items) :
    WFDir d :=
  WFDir.mk d h.1 h.2.1 h.2.2.1 h.2.2.2 ha

theorem DictInv_empty (n : List Nat) (a : Bool) :
    DictInv (.mk n [] [] a) := by
  refine ⟨?_, ?_, ?_, ?_⟩
  · intro p hp
    simp [Directory.files] at hp
  · intro p hp
    simp [Directory.dirs] at hp
  · intro p hp
    simp [Directory.dirs] at hp
  · exact List.nodup_nil

theorem ArrInv_newArrayDir (n : List Nat) : ArrInv (newArrayDir n) 0 :=
  ⟨DictInv_empty n true, [], rfl, rfl, rfl⟩

theorem WFDir_newDir (n : List Nat) : WFDir (newDir n) :=
  WFDir_of_inv (DictInv_empty n false)
    (fun h => by simp [newDir, Directory.isArray] at h)

theorem WFDir_newArrayDir (n : List Nat) : WFDir (newArrayDir n) :=
  WFDir_of_inv (DictInv_empty n true) (fun _ => ⟨[], rfl, rfl⟩)

theorem dictInv_insert_file {acc : Directory} {k : List Nat} {o : File}
    (h : DictInv acc) (hk : StrOK k = true) (hn : o.name = k)
    (hv : fileValueOK o) (hd : ¬ k ∈ keysA acc.dirs)
    (hf : ¬ k ∈ keysA acc.files) :
    DictInv (.mk acc.name acc.dirs (insertA acc.files k o) acc.isArray) := by
  obtain ⟨h1, h2, h3, h4⟩ := h
  rw [insertA_fresh acc.files k o hf]
  refine ⟨?_, h2, h3, ?_⟩
  · intro p hp
    rw [show Directory.files
          (.mk acc.name acc.dirs (acc.files ++ [(k, o)]) acc.isArray)
            = acc.files ++ [(k, o)] from rfl] at hp
    rcases List.mem_append.mp hp with hp | hp
    · exact h1 p hp
    · have hpe : p = (k, o) := by simpa using hp
      subst hpe
      exact ⟨hn, hk, hv⟩
  · rw [show Directory.dirs
          (.mk acc.name acc.dirs (acc.files ++ [(k, o)]) acc.isArray)
            = acc.dirs from rfl,
        show Directory.files
          (.mk acc.name acc.dirs (acc.files ++ [(k, o)]) acc.isArray)
            = acc.files ++ [(k, o)] from rfl,
        keysA_snoc]
    exact nodup_snoc_right h4 hd hf

theorem dictInv_insert_dir {acc : Directory} {k : List Nat}
    {dd : Directory} (h : DictInv acc) (hk : StrOK k = true)
    (hn : dd.name = k) (hw : WFDir dd) (hd : ¬ k ∈ keysA acc.dirs)
    (hf : ¬ k ∈ keysA acc.files) :
    DictInv (.mk acc.name (insertA acc.dirs dd.name dd) acc.files
      acc.isArray) := by
  obtain ⟨h1, h2, h3, h4⟩ := h
  rw [hn, insertA_fresh acc.dirs k dd hd]
  refine ⟨h1, ?_, ?_, ?_⟩
  · intro p hp
    rw [show Directory.dirs
          (.mk acc.name (acc.dirs ++ [(k, dd)]) acc.files acc.isArray)
            = acc.dirs ++ [(k, dd)] from rfl] at hp
    rcases List.mem_append.mp hp with hp | hp
    · exact h2 p hp
    · have hpe : p = (k, dd) := by simpa using hp
      subst hpe
      exact ⟨hn, hk⟩
  · intro p hp
    rw [show Directory.dirs
          (.mk acc.name (acc.dirs ++ [(k, dd)]) acc.files acc.isArray)
            = acc.dirs ++ [(k, dd)] from rfl] at hp
    rcases List.mem_append.mp hp with hp | hp
    · exact h3 p hp
    · have hpe : p = (k, dd) := by simpa using hp
      subst hpe
      exact hw
  · rw [show Directory.dirs
          (.mk acc.name (acc.dirs ++ [(k, dd)]) acc.files acc.isArray)
            = acc.dirs ++ [(k, dd)] from rfl,
        show Directory.files
          (.mk acc.name (acc.dirs ++ [(k, dd)]) acc.files acc.isArray)
            = acc.files from rfl,
        keysA_snoc]
    exact nodup_mid_insert h4 hd hf

theorem arrInv_insert_file {acc : Directory} {cnt : Nat} {o : File}
    (h : ArrInv acc cnt) (hn : o.name = itoa cnt) (hv : fileValueOK o) :
    ArrInv (.mk acc.name acc.dirs (insertA acc.files (itoa cnt) o)
      acc.isArray) (cnt + 1) := by
  obtain ⟨hdi, items, hlen, hfv, hdv⟩ := h
  have hfd : ¬ itoa cnt ∈ keysA acc.dirs := by
    rw [hdv]
    exact itoa_fresh_dirsOf items cnt (le_of_eq hlen)
  have hff : ¬ itoa cnt ∈ keysA acc.files := by
    rw [hfv]
    exact itoa_fresh_filesOf items cnt (le_of_eq hlen)
  refine ⟨dictInv_insert_file hdi (StrOK_itoa cnt) hn hv hfd hff,
    items ++ [.fileE o], ?_, ?_, ?_⟩
  · simp [hlen]
  · rw [show Directory.files (.mk acc.name acc.dirs
          (insertA acc.files (itoa cnt) o) acc.isArray)
            = insertA acc.files (itoa cnt) o from rfl,
        insertA_fresh acc.files (itoa cnt) o hff,
        filesOf_append,
        show filesOf (0 + items.length) [Entry.fileE o]
          = [(itoa (0 + items.length), o)] from rfl,
        Nat.zero_add, hlen, hfv]
  · rw [show Directory.dirs (.mk acc.name acc.dirs
          (insertA acc.files (itoa cnt) o) acc.isArray)
            = acc.dirs from rfl,
        dirsOf_append,
        show dirsOf (0 + items.length) [Entry.fileE o] = [] from rfl,
        List.append_nil, hdv]

theorem arrInv_insert_dir {acc : Directory} {cnt : Nat} {dd : Directory}
    (h : ArrInv acc cnt) (hn : dd.name = itoa cnt) (hw : WFDir dd) :
    ArrInv (.mk acc.name (insertA acc.dirs dd.name dd) acc.files
      acc.isArray) (cnt + 1) := by
  obtain ⟨hdi, items, hlen, hfv, hdv⟩ := h
  have hfd : ¬ itoa cnt ∈ keysA acc.dirs := by
    rw [hdv]
    exact itoa_fresh_dirsOf items cnt (le_of_eq hlen)
  have hff : ¬ itoa cnt ∈ keysA acc.files := by
    rw [hfv]
    exact itoa_fresh_filesOf items cnt (le_of_eq hlen)
  refine ⟨dictInv_insert_dir hdi (StrOK_itoa cnt) hn hw hfd hff,
    items ++ [.dirE dd], ?_, ?_, ?_⟩
  · simp [hlen]
  · rw [show Directory.files (.mk acc.name
          (insertA acc.dirs dd.name dd) acc.files acc.isArray)
            = acc.files from rfl,
        filesOf_append,
        show filesOf (0 + items.length) [Entry.dirE dd] = [] from rfl,
        List.append_nil, hfv]
  · rw [show Directory.dirs (.mk acc.name
          (insertA acc.dirs dd.name dd) acc.files acc.isArray)
            = insertA acc.dirs dd.name dd from rfl,
        hn, insertA_fresh acc.dirs (itoa cnt) dd hfd,
        dirsOf_append,
        show dirsOf (0 + items.length) [Entry.dirE dd]
          = [(itoa (0 + items.length), dd)] from rfl,
        Nat.zero_add, hlen, hdv]

/-- Soundness of all seven state-machine stages at once, by induction on
fuel: a successful dictionary run is a well-formed non-array directory with
the requested name; the field/close stages preserve `DictInv`; a successful
array run is a well-formed array directory; the item stages preserve
`ArrInv` and leave a positional item view. -/
theorem parseSound : ∀ fuel : Nat,
    (∀ l n d r, parseDict fuel l n = .ok (d, r) →
        d.name = n ∧ d.isArray = false ∧ WFDir d)
  ∧ (∀ l acc d r, parseFields fuel l acc = .ok (d, r) → DictInv acc →
        d.name = acc.name ∧ d.isArray = acc.isArray ∧ DictInv d)
  ∧ (∀ l k acc d r, parseValue fuel l k acc = .ok (d, r) →
        StrOK k = true → DictInv acc →
        d.name = acc.name ∧ d.isArray = acc.isArray ∧ DictInv d)
  ∧ (∀ l acc d r, parseClose fuel l acc = .ok (d, r) → DictInv acc →
        d.name = acc.name ∧ d.isArray = acc.isArray ∧ DictInv d)
  ∧ (∀ l n d r, parseArray fuel l n = .ok (d, r) →
        d.name = n ∧ d.isArray = true ∧ WFDir d)
  ∧ (∀ l item acc d r, parseItems fuel l item acc = .ok (d, r) →
        ArrInv acc item →
        d.name = acc.name ∧ d.isArray = acc.isArray ∧ DictInv d
          ∧ ∃ items, d.files = filesOf 0 items ∧ d.dirs = dirsOf 0 items)
  ∧ (∀ l item acc d r, parseCloseArr fuel l item acc = .ok (d, r) →
        ArrInv acc item →
        d.name = acc.name ∧ d.isArray = acc.isArray ∧ DictInv d
          ∧ ∃ items, d.files = filesOf 0 items ∧ d.dirs = dirsOf 0 items)
    := by
  intro fuel
  induction fuel with
  | zero =>
      refine ⟨?_, ?_, ?_, ?_, ?_, ?_, ?_⟩
      · intro l n d r h
        rw [show parseDict 0 l n = .error .fuelExhausted from rfl] at h
        cases h
      · intro l acc d r h _
        rw [show parseFields 0 l acc = .error .fuelExhausted from rfl] at h
        cases h
      · intro l k acc d r h _ _
        rw [show parseValue 0 l k acc = .error .fuelExhausted from rfl] at h
        cases h
      · intro l acc d r h _
        rw [show parseClose 0 l acc = .error .fuelExhausted from rfl] at h
        cases h
      · intro l n d r h
        rw [show parseArray 0 l n = .error .fuelExhausted from rfl] at h
        cases h
      · intro l item acc d r h _
        rw [show parseItems 0 l item acc = .error .fuelExhausted from rfl]
          at h
        cases h
      · intro l item acc d r h _
        rw [show parseCloseArr 0 l item acc = .error .fuelExhausted
              from rfl] at h
        cases h
  | succ fuel ih =>
      obtain ⟨ihD, ihF, ihV, ihC, ihA, ihI, ihCA⟩ := ih
      refine ⟨?_, ?_, ?_, ?_, ?_, ?_, ?_⟩
      · intro l n d r h
        rw [parseDict_eq] at h
        cases hss : skipSpace l with
        | nil =>
            rw [hss] at h
            dsimp only at h
            cases h
            exact ⟨rfl, rfl, WFDir_newDir n⟩
        | cons b t =>
            rw [hss] at h
            dsimp only at h
            by_cases hb : b = openBrace
            · rw [if_pos hb] at h
              cases t with
              | nil => cases h
              | cons b2 t2 =>
                  dsimp only at h
                  by_cases h2 : b2 = closeBrace
                  · rw [if_pos h2] at h
                    cases h
                    exact ⟨rfl, rfl, WFDir_newDir n⟩
                  · rw [if_neg h2] at h
                    obtain ⟨e1, e2, e3⟩ :=
                      ihF _ (newDir n) d r h (DictInv_empty n false)
                    have e2' : d.isArray = false := e2
                    exact ⟨e1, e2', WFDir_of_inv e3 (fun hia => by
                      rw [e2'] at hia; cases hia)⟩
            · rw [if_neg hb] at h
              cases h
      · intro l acc d r h hinv
        rw [parseFields_eq] at h
        cases hss : skipSpace l with
        | nil => rw [hss] at h; cases h
        | cons b t =>
            rw [hss] at h
            dsimp only at h
            by_cases hb : b = doubleQuote
            · rw [if_pos hb] at h
              rw [show (b :: t).length + 1 = t.length + 1 + 1 from by simp]
                at h
              rw [getString_deleteFirst] at h
              cases hg : getString (t.length + 1 + 1) t false with
              | error e => rw [hg] at h; cases h
              | ok p =>
                  obtain ⟨key, l2⟩ := p
                  rw [hg] at h
                  dsimp only at h
                  have hks : StrOK key = true :=
                    (getString_sound _ _ _ _ hg).1
                  cases hss2 : skipSpace l2 with
                  | nil => rw [hss2] at h; cases h
                  | cons c t3 =>
                      rw [hss2] at h
                      dsimp only at h
                      by_cases hc : c = colonByte
                      · rw [if_pos hc] at h
                        exact ihV t3 key acc d r h hks hinv
                      · rw [if_neg hc] at h
                        cases h
            · rw [if_neg hb] at h
              cases h
      · intro l k acc d r h hks hinv
        rw [parseValue_eq] at h
        cases hvc : valueCheck l with
        | error e => rw [hvc] at h; cases h
        | ok p =>
            obtain ⟨nk, l4⟩ := p
            rw [hvc] at h
            dsimp only at h
            cases hdf : duplicateField acc k with
            | error e => rw [hdf] at h; cases h
            | ok u =>
                cases u
                rw [hdf] at h
                dsimp only at h
                obtain ⟨hfd1, hfd2⟩ := duplicateField_ok hdf
                cases nk with
                | msgNext =>
                    cases hpd : parseDict fuel l4 k with
                    | error e => rw [hpd] at h; cases h
                    | ok q =>
                        obtain ⟨dc, l5⟩ := q
                        rw [hpd] at h
                        dsimp only at h
                        obtain ⟨hcn, _, hcw⟩ := ihD l4 k dc l5 hpd
                        obtain ⟨e1, e2, e3⟩ := ihC l5 _ d r h
                          (dictInv_insert_dir hinv hks hcn hcw hfd1 hfd2)
                        exact ⟨e1, e2, e3⟩
                | arrayNext =>
                    cases hpa : parseArray fuel l4 k with
                    | error e => rw [hpa] at h; cases h
                    | ok q =>
                        obtain ⟨dc, l5⟩ := q
                        rw [hpa] at h
                        dsimp only at h
                        obtain ⟨hcn, _, hcw⟩ := ihA l4 k dc l5 hpa
                        obtain ⟨e1, e2, e3⟩ := ihC l5 _ d r h
                          (dictInv_insert_dir hinv hks hcn hcw hfd1 hfd2)
                        exact ⟨e1, e2, e3⟩
                | stringNext =>
                    cases hdc : decodeString k l4 with
                    | error e => rw [hdc] at h; cases h
                    | ok q =>
                        obtain ⟨o, l5⟩ := q
                        rw [hdc] at h
                        dsimp only at h
                        obtain ⟨hon, hot, hov⟩ := decodeString_ok hdc
                        obtain ⟨e1, e2, e3⟩ := ihC l5 _ d r h
                          (dictInv_insert_file hinv hks hon
                            (fileValueOK_string hot hov) hfd1 hfd2)
                        exact ⟨e1, e2, e3⟩
                | trueNext =>
                    cases hdc : decodeBool k .trueNext l4 with
                    | error e => rw [hdc] at h; cases h
                    | ok q =>
                        obtain ⟨o, l5⟩ := q
                        rw [hdc] at h
                        dsimp only at h
                        obtain ⟨hon, hot, hov⟩ := decodeBool_ok hdc
                        obtain ⟨e1, e2, e3⟩ := ihC l5 _ d r h
                          (dictInv_insert_file hinv hks hon
                            (fileValueOK_bool hot hov) hfd1 hfd2)
                        exact ⟨e1, e2, e3⟩
                | falseNext =>
                    cases hdc : decodeBool k .falseNext l4 with
                    | error e => rw [hdc] at h; cases h
                    | ok q =>
                        obtain ⟨o, l5⟩ := q
                        rw [hdc] at h
                        dsimp only at h
                        obtain ⟨hon, hot, hov⟩ := decodeBool_ok hdc
                        obtain ⟨e1, e2, e3⟩ := ihC l5 _ d r h
                          (dictInv_insert_file hinv hks hon
                            (fileValueOK_bool hot hov) hfd1 hfd2)
                        exact ⟨e1, e2, e3⟩
                | numNext =>
                    obtain ⟨_, b, t, hbt, hbn⟩ := valueCheck_num hvc
                    subst hbt
                    cases hdc : decodeNumber k (b :: t) with
                    | error e => rw [hdc] at h; cases h
                    | ok q =>
                        obtain ⟨o, l5⟩ := q
                        rw [hdc] at h
                        dsimp only at h
                        obtain ⟨hon, hov⟩ := decodeNumber_ok hbn hdc
                        obtain ⟨e1, e2, e3⟩ := ihC l5 _ d r h
                          (dictInv_insert_file hinv hks hon hov hfd1 hfd2)
                        exact ⟨e1, e2, e3⟩
                | nullNext =>
                    cases hdc : decodeNull k l4 with
                    | error e => rw [hdc] at h; cases h
                    | ok q =>
                        obtain ⟨o, l5⟩ := q
                        rw [hdc] at h
                        dsimp only at h
                        obtain ⟨hon, hot, hov⟩ := decodeNull_ok hdc
                        obtain ⟨e1, e2, e3⟩ := ihC l5 _ d r h
                          (dictInv_insert_file hinv hks hon
                            (fileValueOK_null hot hov) hfd1 hfd2)
                        exact ⟨e1, e2, e3⟩
      · intro l acc d r h hinv
        rw [parseClose_eq] at h
        cases hss : skipSpace l with
        | nil => rw [hss] at h; cases h
        | cons b t =>
            rw [hss] at h
            dsimp only at h
            by_cases hb : b = closeBrace
            · rw [if_pos hb] at h
              cases h
              exact ⟨rfl, rfl, hinv⟩
            · rw [if_neg hb] at h
              by_cases hc : b = commaByte
              · rw [if_pos hc] at h
                exact ihF t acc d r h hinv
              · rw [if_neg hc] at h
                cases h
      · intro l n d r h
        rw [parseArray_eq] at h
        cases hss : skipSpace l with
        | nil => rw [hss] at h; cases h
        | cons b t =>
            rw [hss] at h
            dsimp only at h
            by_cases hb : b = openBracket
            · rw [if_pos hb] at h
              cases t with
              | nil => cases h
              | cons b2 t2 =>
                  dsimp only at h
                  by_cases h2 : b2 = closeBracket
                  · rw [if_pos h2] at h
                    cases h
                    exact ⟨rfl, rfl, WFDir_newArrayDir n⟩
                  · rw [if_neg h2] at h
                    obtain ⟨e1, e2, e3, items, hfv, hdv⟩ :=
                      ihI _ 0 (newArrayDir n) d r h (ArrInv_newArrayDir n)
                    have e2' : d.isArray = true := e2
                    exact ⟨e1, e2',
                      WFDir_of_inv e3 (fun _ => ⟨items, hfv, hdv⟩)⟩
            · rw [if_neg hb] at h
              cases h
      · intro l item acc d r h hai
        rw [parseItems_eq] at h
        cases hvc : valueCheck l with
        | error e => rw [hvc] at h; cases h
        | ok p =>
            obtain ⟨nk, l4⟩ := p
            rw [hvc] at h
            dsimp only at h
            cases nk with
            | msgNext =>
                cases hpd : parseDict fuel l4 (itoa item) with
                | error e => rw [hpd] at h; cases h
                | ok q =>
                    obtain ⟨dc, l5⟩ := q
                    rw [hpd] at h
                    dsimp only at h
                    obtain ⟨hcn, _, hcw⟩ := ihD l4 (itoa item) dc l5 hpd
                    obtain ⟨e1, e2, e3, e4⟩ := ihCA l5 (item + 1) _ d r h
                      (arrInv_insert_dir hai hcn hcw)
                    exact ⟨e1, e2, e3, e4⟩
            | arrayNext =>
                cases hpa : parseArray fuel l4 (itoa item) with
                | error e => rw [hpa] at h; cases h
                | ok q =>
                    obtain ⟨dc, l5⟩ := q
                    rw [hpa] at h
                    dsimp only at h
                    obtain ⟨hcn, _, hcw⟩ := ihA l4 (itoa item) dc l5 hpa
                    obtain ⟨e1, e2, e3, e4⟩ := ihCA l5 (item + 1) _ d r h
                      (arrInv_insert_dir hai hcn hcw)
                    exact ⟨e1, e2, e3, e4⟩
            | stringNext =>
                cases hdc : decodeString (itoa item) l4 with
                | error e => rw [hdc] at h; cases h
                | ok q =>
                    obtain ⟨o, l5⟩ := q
                    rw [hdc] at h
                    dsimp only at h
                    obtain ⟨hon, hot, hov⟩ := decodeString_ok hdc
                    obtain ⟨e1, e2, e3, e4⟩ := ihCA l5 (item + 1) _ d r h
                      (arrInv_insert_file hai hon
                        (fileValueOK_string hot hov))
                    exact ⟨e1, e2, e3, e4⟩
            | trueNext =>
                cases hdc : decodeBool (itoa item) .trueNext l4 with
                | error e => rw [hdc] at h; cases h
                | ok q =>
                    obtain ⟨o, l5⟩ := q
                    rw [hdc] at h
                    dsimp only at h
                    obtain ⟨hon, hot, hov⟩ := decodeBool_ok hdc
                    obtain ⟨e1, e2, e3, e4⟩ := ihCA l5 (item + 1) _ d r h
                      (arrInv_insert_file hai hon (fileValueOK_bool hot hov))
                    exact ⟨e1, e2, e3, e4⟩
            | falseNext =>
                cases hdc : decodeBool (itoa item) .falseNext l4 with
                | error e => rw [hdc] at h; cases h
                | ok q =>
                    obtain ⟨o, l5⟩ := q
                    rw [hdc] at h
                    dsimp only at h
                    obtain ⟨hon, hot, hov⟩ := decodeBool_ok hdc
                    obtain ⟨e1, e2, e3, e4⟩ := ihCA l5 (item + 1) _ d r h
                      (arrInv_insert_file hai hon (fileValueOK_bool hot hov))
                    exact ⟨e1, e2, e3, e4⟩
            | numNext =>
                obtain ⟨_, b, t, hbt, hbn⟩ := valueCheck_num hvc
                subst hbt
                cases hdc : decodeNumber (itoa item) (b :: t) with
                | error e => rw [hdc] at h; cases h
                | ok q =>
                    obtain ⟨o, l5⟩ := q
                    rw [hdc] at h
                    dsimp only at h
                    obtain ⟨hon, hov⟩ := decodeNumber_ok hbn hdc
                    obtain ⟨e1, e2, e3, e4⟩ := ihCA l5 (item + 1) _ d r h
                      (arrInv_insert_file hai hon hov)
                    exact ⟨e1, e2, e3, e4⟩
            | nullNext =>
                cases hdc : decodeNull (itoa item) l4 with
                | error e => rw [hdc] at h; cases h
                | ok q =>
                    obtain ⟨o, l5⟩ := q
                    rw [hdc] at h
                    dsimp only at h
                    obtain ⟨hon, hot, hov⟩ := decodeNull_ok hdc
                    obtain ⟨e1, e2, e3, e4⟩ := ihCA l5 (item + 1) _ d r h
                      (arrInv_insert_file hai hon (fileValueOK_null hot hov))
                    exact ⟨e1, e2, e3, e4⟩
      · intro l item acc d r h hai
        rw [parseCloseArr_eq] at h
        cases hss : skipSpace l with
        | nil => rw [hss] at h; cases h
        | cons b t =>
            rw [hss] at h
            dsimp only at h
            by_cases hb : b = closeBracket
            · rw [if_pos hb] at h
              cases h
              obtain ⟨hdi, items, _, hfv, hdv⟩ := hai
              exact ⟨rfl, rfl, hdi, items, hfv, hdv⟩
            · rw [if_neg hb] at h
              by_cases hc : b = commaByte
              · rw [if_pos hc] at h
                exact ihI t item acc d r h hai
              · rw [if_neg hc] at h
                cases h

/-- The two model invariants of claim C8, recursively at every directory of
a tree: child names unique across both maps, and an array directory's child
names are exactly the decimal strings of `0 .. n-1` (`n` the child count,
as a permutation of `itoa` over the range). -/
inductive InvariantsHold : Directory → Prop where
  | mk : ∀ d : Directory,
      (keysA d.dirs ++ keysA d.files).Nodup →
      (d.isArray = true →
        (keysA d.files ++ keysA d.dirs).Perm
          (List.map itoa
            (List.range' 0 (d.files.length + d.dirs.length)))) →
      (∀ p ∈ d.dirs, InvariantsHold p.2) →
      InvariantsHold d

theorem InvariantsHold_of_WFDir : ∀ {d : Directory},
    WFDir d → InvariantsHold d := by
  intro d h
  induction h with
  | mk d hf hd hr hn ha ih =>
      refine InvariantsHold.mk d hn ?_ ih
      intro hia
      obtain ⟨items, hfv, hdv⟩ := ha hia
      rw [hfv, hdv]
      have hlen := filesOf_length_add items 0
      rw [hlen]
      exact keys_perm_range items 0

/-- Claim C8: for every input whose top-level decode succeeds, every
directory of the resulting tree has pairwise-distinct child names across
its file and sub-directory maps, and every directory carrying the array
mark has children named exactly the decimal strings of the contiguous
range `0 .. n-1` for its child count `n`. -/
theorem UnmarshalJSON_invariants (l : List Nat) (d : Directory)
    (h : UnmarshalJSON l = .ok d) : InvariantsHold d := by
  unfold UnmarshalJSON at h
  cases hu : unmarshalJSONR l with
  | error e => rw [hu] at h; cases h
  | ok p =>
      obtain ⟨d2, r⟩ := p
      rw [hu] at h
      simp only [Except.map] at h
      cases h
      exact InvariantsHold_of_WFDir
        ((parseSound (2 * l.length + 4)).1 l [] d r hu).2.2

theorem UnmarshalJSON_invariants_witness :
    InvariantsHold (Directory.mk [] [([97],
      Directory.mk [97] []
        [([48], ⟨[48], FTInt, [49]⟩), ([49], ⟨[49], FTInt, [50]⟩)] true)]
      [] false) :=
  UnmarshalJSON_invariants [123, 34, 97, 34, 58, 91, 49, 44, 50, 93, 125]
    _ (by rfl)

/-! ### Claim C2: encode/decode roundtrip — helper lemmas -/

theorem Directory.eta (d : Directory) :
    Directory.mk d.name d.dirs d.files d.isArray = d := by
  cases d
  rfl

theorem lookupA_mem {α : Type} : ∀ (l : List (List Nat × α)) (k : List Nat)
    (v : α), lookupA l k = some v → (k, v) ∈ l := by
  intro l
  induction l with
  | nil => intro k v h; cases h
  | cons hd t ih =>
      intro k v h
      obtain ⟨k2, v2⟩ := hd
      rw [show lookupA ((k2, v2) :: t) k
            = if k2 = k then some v2 else lookupA t k from rfl] at h
      by_cases he : k2 = k
      · rw [if_pos he] at h
        cases h
        subst he
        exact List.mem_cons_self _ _
      · rw [if_neg he] at h
        exact List.mem_cons_of_mem _ (ih k v h)

theorem sizeOf_mem_dirs_lt {d : Directory}
    {p : List Nat × Directory} (h : p ∈ d.dirs) :
    sizeOf p.2 < sizeOf d := by
  cases d with
  | mk n ds fs a =>
      have h1 : sizeOf p < sizeOf ds := List.sizeOf_lt_of_mem h
      have h2 : sizeOf p.2 < sizeOf p := by
        obtain ⟨k, dd⟩ := p
        simp
      have h3 : sizeOf ds < sizeOf (Directory.mk n ds fs a) := by
        simp
        omega
      omega

theorem lookupA_append_right {α : Type} :
    ∀ (A B : List (List Nat × α)) (k : List Nat), ¬ k ∈ keysA A →
      lookupA (A ++ B) k = lookupA B k := by
  intro A
  induction A with
  | nil => intro B k _; rfl
  | cons hd t ih =>
      intro B k h
      obtain ⟨k2, v2⟩ := hd
      simp only [keysA, List.map_cons, List.mem_cons] at h
      push_neg at h
      rw [List.cons_append,
          show lookupA ((k2, v2) :: (t ++ B)) k
            = if k2 = k then some v2 else lookupA (t ++ B) k from rfl,
          if_neg (Ne.symm h.1)]
      exact ih B k (by simpa [keysA] using h.2)

theorem takeWhile_all_append {p : Nat → Bool} :
    ∀ (v : List Nat) (b : Nat) (r : List Nat),
      (∀ x ∈ v, p x = true) → p b = false →
      (v ++ b :: r).takeWhile p = v ∧ (v ++ b :: r).dropWhile p = b :: r := by
  intro v
  induction v with
  | nil =>
      intro b r _ hb
      constructor
      · rw [List.nil_append, List.takeWhile_cons, if_neg (by simp [hb])]
      · rw [List.nil_append, List.dropWhile_cons, if_neg (by simp [hb])]
  | cons x t ih =>
      intro b r hall hb
      have hx : p x = true := hall x (by simp)
      obtain ⟨h1, h2⟩ := ih b r (fun y hy => hall y (by simp [hy])) hb
      constructor
      · rw [List.cons_append, List.takeWhile_cons, if_pos hx, h1]
      · rw [List.cons_append, List.dropWhile_cons, if_pos hx, h2]

theorem decodeString_enc (k v rest : List Nat) (hv : StrOK v = true) :
    decodeString k (doubleQuote :: (v ++ doubleQuote :: rest))
      = .ok (⟨k, FTString, v⟩, rest) := by
  unfold decodeString
  rw [show (doubleQuote :: (v ++ doubleQuote :: rest)).length + 1
        = (v ++ doubleQuote :: rest).length + 1 + 1 from by simp]
  rw [getString_deleteFirst]
  rw [getString_app v.length v (le_refl _) hv
        ((v ++ doubleQuote :: rest).length + 1 + 1) rest
        (by simp only [List.length_append, List.length_cons]; omega)]

theorem decodeBool_enc_true (k rest : List Nat) :
    decodeBool k .trueNext (trueBytes ++ rest)
      = .ok (⟨k, FTBool, trueBytes⟩, rest) := rfl

theorem decodeBool_enc_false (k rest : List Nat) :
    decodeBool k .falseNext (falseBytes ++ rest)
      = .ok (⟨k, FTBool, falseBytes⟩, rest) := rfl

theorem decodeNull_enc (k rest : List Nat) :
    decodeNull k (nullBytes ++ rest)
      = .ok (⟨k, FTNull, nullBytes⟩, rest) := rfl

theorem decodeNumber_enc {k : List Nat} {f : File} (b : Nat)
    (rest : List Nat) (hv : fileValueOK f)
    (ht : f.t = FTInt ∨ f.t = FTFloat) (hb : numScanByte b = false) :
    decodeNumber k (f.value ++ b :: rest)
      = .ok (⟨k, f.t, f.value⟩, b :: rest) := by
  unfold fileValueOK at hv
  rcases ht with ht | ht
  · rw [ht] at hv
    dsimp only at hv
    obtain ⟨hne, hdig⟩ := hv
    have hall : ∀ x ∈ f.value, numScanByte x = true := fun x hx => by
      simp [numScanByte, hdig x hx]
    obtain ⟨htw, hdw⟩ := takeWhile_all_append f.value b rest hall hb
    rw [decodeNumber_spec, htw, hdw]
    rw [if_neg (by simp), if_neg hne]
    have hany : (f.value.any fun x => x == dotByte) = false := by
      rw [List.any_eq_false]
      intro x hx
      have hdx := hdig x hx
      simp only [isNumberB, Bool.and_eq_true, decide_eq_true_eq] at hdx
      simp only [beq_iff_eq, dotByte]
      omega
    rw [hany, if_neg (by simp), ht]
  · rw [ht] at hv
    dsimp only at hv
    obtain ⟨⟨b2, t2, hbt, _⟩, hall, hdot⟩ := hv
    have hne : f.value ≠ [] := by
      rw [hbt]
      simp
    obtain ⟨htw, hdw⟩ := takeWhile_all_append f.value b rest hall hb
    rw [decodeNumber_spec, htw, hdw]
    rw [if_neg (by simp), if_neg hne]
    have hany : (f.value.any fun x => x == dotByte) = true := by
      rw [List.any_eq_true]
      exact ⟨dotByte, hdot, by simp⟩
    rw [hany, if_pos rfl, ht]

theorem valueCheck_brace (rest : List Nat) :
    valueCheck (openBrace :: rest) = .ok (.msgNext, openBrace :: rest) := rfl

theorem valueCheck_bracket (rest : List Nat) :
    valueCheck (openBracket :: rest)
      = .ok (.arrayNext, openBracket :: rest) := rfl

theorem valueCheck_quote (rest : List Nat) :
    valueCheck (doubleQuote :: rest)
      = .ok (.stringNext, doubleQuote :: rest) := rfl

theorem valueCheck_t (rest : List Nat) :
    valueCheck (116 :: rest) = .ok (.trueNext, 116 :: rest) := rfl

theorem valueCheck_f (rest : List Nat) :
    valueCheck (102 :: rest) = .ok (.falseNext, 102 :: rest) := rfl

theorem valueCheck_n (rest : List Nat) :
    valueCheck (110 :: rest) = .ok (.nullNext, 110 :: rest) := rfl

theorem valueCheck_num_head (b : Nat) (rest : List Nat)
    (hb : isNumberB b = true) :
    valueCheck (b :: rest) = .ok (.numNext, b :: rest) := by
  have hbb : 48 ≤ b ∧ b ≤ 57 := by
    simpa [isNumberB] using hb
  unfold valueCheck
  rw [skipSpace_nonspace b rest (by simp [isSpaceB]; omega)]
  dsimp only
  rw [if_neg (by simp [openBrace]; omega),
      if_neg (by simp [openBracket]; omega),
      if_neg (by simp [doubleQuote]; omega),
      if_pos hb]

theorem parseValue_scalar_enc (fuel : Nat) (k : List Nat) (acc : Directory)
    (f : File) (c : Nat) (tail : List Nat) (hv : fileValueOK f)
    (hn : f.name = k) (hc : numScanByte c = false)
    (hdup : duplicateField acc k = .ok ()) :
    parseValue (fuel + 1) (File.EncodeJSON f ++ c :: tail) k acc
      = parseClose fuel (c :: tail)
          (.mk acc.name acc.dirs (insertA acc.files k f) acc.isArray) := by
  rw [parseValue_eq]
  unfold File.EncodeJSON
  have hfe : (⟨f.name, f.t, f.value⟩ : File) = f := rfl
  cases hft : f.t with
  | FTString =>
      have hsv : StrOK f.value = true := by
        unfold fileValueOK at hv
        rw [hft] at hv
        exact hv
      dsimp only
      rw [show ([doubleQuote] ++ f.value ++ [doubleQuote]) ++ c :: tail
            = doubleQuote :: (f.value ++ doubleQuote :: (c :: tail)) from by
          simp]
      rw [valueCheck_quote]
      dsimp only
      rw [hdup]
      dsimp only
      rw [decodeString_enc k f.value (c :: tail) hsv]
      dsimp only
      rw [show (⟨k, FTString, f.value⟩ : File) = f from by
          rw [← hn, ← hft]]
  | FTBool =>
      have hbv : f.value = trueBytes ∨ f.value = falseBytes := by
        unfold fileValueOK at hv
        rw [hft] at hv
        exact hv
      dsimp only
      rcases hbv with hbv | hbv
      · rw [hbv]
        rw [show trueBytes ++ c :: tail
              = 116 :: (114 :: 117 :: 101 :: (c :: tail)) from rfl]
        rw [valueCheck_t]
        dsimp only
        rw [hdup]
        dsimp only
        rw [show (116 : Nat) :: (114 :: 117 :: 101 :: (c :: tail))
              = trueBytes ++ c :: tail from rfl]
        rw [decodeBool_enc_true k (c :: tail)]
        dsimp only
        rw [show (⟨k, FTBool, trueBytes⟩ : File) = f from by
            rw [← hn, ← hft, ← hbv]]
      · rw [hbv]
        rw [show falseBytes ++ c :: tail
              = 102 :: (97 :: 108 :: 115 :: 101 :: (c :: tail)) from rfl]
        rw [valueCheck_f]
        dsimp only
        rw [hdup]
        dsimp only
        rw [show (102 : Nat) :: (97 :: 108 :: 115 :: 101 :: (c :: tail))
              = falseBytes ++ c :: tail from rfl]
        rw [decodeBool_enc_false k (c :: tail)]
        dsimp only
        rw [show (⟨k, FTBool, falseBytes⟩ : File) = f from by
            rw [← hn, ← hft, ← hbv]]
  | FTNull =>
      have hbv : f.value = nullBytes := by
        unfold fileValueOK at hv
        rw [hft] at hv
        exact hv
      dsimp only
      rw [hbv]
      rw [show nullBytes ++ c :: tail
            = 110 :: (117 :: 108 :: 108 :: (c :: tail)) from rfl]
      rw [valueCheck_n]
      dsimp only
      rw [hdup]
      dsimp only
      rw [show (110 : Nat) :: (117 :: 108 :: 108 :: (c :: tail))
            = nullBytes ++ c :: tail from rfl]
      rw [decodeNull_enc k (c :: tail)]
      dsimp only
      rw [show (⟨k, FTNull, nullBytes⟩ : File) = f from by
          rw [← hn, ← hft, ← hbv]]
  | FTInt =>
      have hvv := hv
      unfold fileValueOK at hvv
      rw [hft] at hvv
      dsimp only at hvv
      obtain ⟨hne, hdig⟩ := hvv
      obtain ⟨b0, t0, hbt⟩ := List.exists_cons_of_ne_nil hne
      have hb0 : isNumberB b0 = true := hdig b0 (by rw [hbt]; simp)
      dsimp only
      rw [hbt, List.cons_append, valueCheck_num_head b0 _ hb0]
      dsimp only
      rw [hdup]
      dsimp only
      rw [← List.cons_append, ← hbt,
          decodeNumber_enc c tail hv (Or.inl hft) hc]
      dsimp only
      rw [show (⟨k, f.t, f.value⟩ : File) = f from by rw [← hn]]
  | FTFloat =>
      have hvv := hv
      unfold fileValueOK at hvv
      rw [hft] at hvv
      dsimp only at hvv
      obtain ⟨⟨b0, t0, hbt, hb0⟩, _, _⟩ := hvv
      dsimp only
      rw [hbt, List.cons_append, valueCheck_num_head b0 _ hb0]
      dsimp only
      rw [hdup]
      dsimp only
      rw [← List.cons_append, ← hbt,
          decodeNumber_enc c tail hv (Or.inr hft) hc]
      dsimp only
      rw [show (⟨k, f.t, f.value⟩ : File) = f from by rw [← hn]]

theorem parseItems_scalar_enc (fuel : Nat) (item : Nat) (acc : Directory)
    (f : File) (c : Nat) (tail : List Nat) (hv : fileValueOK f)
    (hn : f.name = itoa item) (hc : numScanByte c = false) :
    parseItems (fuel + 1) (File.EncodeJSON f ++ c :: tail) item acc
      = parseCloseArr fuel (c :: tail) (item + 1)
          (.mk acc.name acc.dirs (insertA acc.files (itoa item) f)
            acc.isArray) := by
  rw [parseItems_eq]
  unfold File.EncodeJSON
  cases hft : f.t with
  | FTString =>
      have hsv : StrOK f.value = true := by
        unfold fileValueOK at hv
        rw [hft] at hv
        exact hv
      dsimp only
      rw [show ([doubleQuote] ++ f.value ++ [doubleQuote]) ++ c :: tail
            = doubleQuote :: (f.value ++ doubleQuote :: (c :: tail)) from by
          simp]
      rw [valueCheck_quote]
      dsimp only
      rw [decodeString_enc (itoa item) f.value (c :: tail) hsv]
      dsimp only
      rw [show (⟨itoa item, FTString, f.value⟩ : File) = f from by
          rw [← hn, ← hft]]
  | FTBool =>
      have hbv : f.value = trueBytes ∨ f.value = falseBytes := by
        unfold fileValueOK at hv
        rw [hft] at hv
        exact hv
      dsimp only
      rcases hbv with hbv | hbv
      · rw [hbv]
        rw [show trueBytes ++ c :: tail
              = 116 :: (114 :: 117 :: 101 :: (c :: tail)) from rfl]
        rw [valueCheck_t]
        dsimp only
        rw [show (116 : Nat) :: (114 :: 117 :: 101 :: (c :: tail))
              = trueBytes ++ c :: tail from rfl]
        rw [decodeBool_enc_true (itoa item) (c :: tail)]
        dsimp only
        rw [show (⟨itoa item, FTBool, trueBytes⟩ : File) = f from by
            rw [← hn, ← hft, ← hbv]]
      · rw [hbv]
        rw [show falseBytes ++ c :: tail
              = 102 :: (97 :: 108 :: 115 :: 101 :: (c :: tail)) from rfl]
        rw [valueCheck_f]
        dsimp only
        rw [show (102 : Nat) :: (97 :: 108 :: 115 :: 101 :: (c :: tail))
              = falseBytes ++ c :: tail from rfl]
        rw [decodeBool_enc_false (itoa item) (c :: tail)]
        dsimp only
        rw [show (⟨itoa item, FTBool, falseBytes⟩ : File) = f from by
            rw [← hn, ← hft, ← hbv]]
  | FTNull =>
      have hbv : f.value = nullBytes := by
        unfold fileValueOK at hv
        rw [hft] at hv
        exact hv
      dsimp only
      rw [hbv]
      rw [show nullBytes ++ c :: tail
            = 110 :: (117 :: 108 :: 108 :: (c :: tail)) from rfl]
      rw [valueCheck_n]
      dsimp only
      rw [show (110 : Nat) :: (117 :: 108 :: 108 :: (c :: tail))
            = nullBytes ++ c :: tail from rfl]
      rw [decodeNull_enc (itoa item) (c :: tail)]
      dsimp only
      rw [show (⟨itoa item, FTNull, nullBytes⟩ : File) = f from by
          rw [← hn, ← hft, ← hbv]]
  | FTInt =>
      have hvv := hv
      unfold fileValueOK at hvv
      rw [hft] at hvv
      dsimp only at hvv
      obtain ⟨hne, hdig⟩ := hvv
      obtain ⟨b0, t0, hbt⟩ := List.exists_cons_of_ne_nil hne
      have hb0 : isNumberB b0 = true := hdig b0 (by rw [hbt]; simp)
      dsimp only
      rw [hbt, List.cons_append, valueCheck_num_head b0 _ hb0]
      dsimp only
      rw [← List.cons_append, ← hbt,
          decodeNumber_enc c tail hv (Or.inl hft) hc]
      dsimp only
      rw [show (⟨itoa item, f.t, f.value⟩ : File) = f from by rw [← hn]]
  | FTFloat =>
      have hvv := hv
      unfold fileValueOK at hvv
      rw [hft] at hvv
      dsimp only at hvv
      obtain ⟨⟨b0, t0, hbt, hb0⟩, _, _⟩ := hvv
      dsimp only
      rw [hbt, List.cons_append, valueCheck_num_head b0 _ hb0]
      dsimp only
      rw [← List.cons_append, ← hbt,
          decodeNumber_enc c tail hv (Or.inr hft) hc]
      dsimp only
      rw [show (⟨itoa item, f.t, f.value⟩ : File) = f from by rw [← hn]]

theorem duplicateField_none {dir : Directory} {k : List Nat}
    (hd : ¬ k ∈ keysA dir.dirs) (hf : ¬ k ∈ keysA dir.files) :
    duplicateField dir k = .ok () := by
  unfold duplicateField
  rw [(lookupA_eq_none_iff dir.dirs k).mpr hd,
      (lookupA_eq_none_iff dir.files k).mpr hf]
  rfl

theorem EncodeJSON_len {f : File} (hv : fileValueOK f) :
    0 < (File.EncodeJSON f).length := by
  unfold File.EncodeJSON fileValueOK at *
  cases hft : f.t with
  | FTString => simp
  | FTBool =>
      rw [hft] at hv
      rcases hv with hv | hv <;> simp [hv, trueBytes, falseBytes]
  | FTNull =>
      rw [hft] at hv
      simp [hv, nullBytes]
  | FTInt =>
      rw [hft] at hv
      dsimp only at hv
      rcases hv with ⟨hne, _⟩
      simpa using List.length_pos.mpr hne
  | FTFloat =>
      rw [hft] at hv
      dsimp only at hv
      obtain ⟨⟨b0, t0, hbt, _⟩, _, _⟩ := hv
      simp [hbt]

/-- The roundtrip property of one well-formed directory: its encoder
succeeds, the output opens with the matching bracket, and the matching
state machine decodes the output back to the same child maps under any
requested name, any leftover input and any fuel above the output
length. -/
def ChildRT (dd : Directory) : Prop :=
  ∃ o, Directory.EncodeJSON dd = .ok o
    ∧ ((dd.isArray = false
          ∧ (∃ o2, o = openBrace :: o2)
          ∧ ∀ fuel rest nm, 2 * (o ++ rest).length < fuel →
              parseDict fuel (o ++ rest) nm
                = .ok (.mk nm dd.dirs dd.files false, rest))
      ∨ (dd.isArray = true
          ∧ (∃ o2, o = openBracket :: o2)
          ∧ ∀ fuel rest nm, 2 * (o ++ rest).length < fuel →
              parseArray fuel (o ++ rest) nm
                = .ok (.mk nm dd.dirs dd.files true, rest)))

theorem nodup_key_fresh {A B C : List (List Nat)} {k : List Nat}
    (h : (A ++ (B ++ k :: C)).Nodup) : ¬ k ∈ A ∧ ¬ k ∈ B := by
  rw [List.nodup_append] at h
  obtain ⟨_, h2, hdisj⟩ := h
  rw [List.nodup_append] at h2
  obtain ⟨_, _, hdisj2⟩ := h2
  constructor
  · intro hk
    exact hdisj hk (by simp)
  · intro hk
    exact hdisj2 hk (by simp)

theorem rt_fields : ∀ (fs1 : List (List Nat × File)) (acc : Directory)
    (tail : List Nat) (res : Except Err (Directory × List Nat)),
    fs1 ≠ [] →
    (∀ p ∈ fs1, (p.2 : File).name = p.1 ∧ StrOK p.1 = true
      ∧ fileValueOK p.2) →
    (keysA acc.dirs ++ keysA (acc.files ++ fs1)).Nodup →
    (∃ c0 t0, tail = c0 :: t0 ∧ numScanByte c0 = false) →
    (∀ f2, 2 * tail.length + 2 < f2 →
        parseClose f2 tail
          (.mk acc.name acc.dirs (acc.files ++ fs1) acc.isArray) = res) →
    ∀ fuel, 2 * (encodeDictFilesBytes fs1 ++ tail).length + 1 < fuel →
      parseFields fuel (encodeDictFilesBytes fs1 ++ tail) acc = res := by
  intro fs1
  induction fs1 with
  | nil =>
      intro acc tail res hne
      exact absurd rfl hne
  | cons p t ih =>
      intro acc tail res _ hwf hnd htail hcont fuel hfl
      obtain ⟨k, f⟩ := p
      obtain ⟨hname, hks, hvok⟩ := hwf (k, f) (by simp)
      dsimp only at hname hks hvok
      subst hname
      obtain ⟨c0, t0, htl0, hc0⟩ := htail
      subst htl0
      have htext : encodeDictFilesBytes ((f.name, f) :: t) ++ (c0 :: t0)
          = doubleQuote :: (f.name ++ doubleQuote :: colonByte ::
              (File.EncodeJSON f
                ++ ((if t.isEmpty then [] else [commaByte])
                  ++ (encodeDictFilesBytes t ++ (c0 :: t0))))) := by
        rw [show encodeDictFilesBytes ((f.name, f) :: t)
              = [doubleQuote] ++ f.name ++ [doubleQuote] ++ [colonByte]
                  ++ File.EncodeJSON f
                  ++ (if t.isEmpty then [] else [commaByte])
                  ++ encodeDictFilesBytes t from rfl]
        simp
      rw [htext] at hfl ⊢
      have hEf : 0 < (File.EncodeJSON f).length := EncodeJSON_len hvok
      simp only [List.length_cons, List.length_append] at hfl
      cases fuel with
      | zero => omega
      | succ f1 =>
          rw [parseFields_eq]
          rw [skipSpace_nonspace doubleQuote _ (by decide)]
          dsimp only
          rw [if_pos rfl]
          rw [show (doubleQuote :: (f.name ++ doubleQuote :: colonByte ::
                (File.EncodeJSON f
                  ++ ((if t.isEmpty then [] else [commaByte])
                    ++ (encodeDictFilesBytes t ++ (c0 :: t0)))))).length + 1
              = ((f.name ++ doubleQuote :: colonByte ::
                  (File.EncodeJSON f
                    ++ ((if t.isEmpty then [] else [commaByte])
                      ++ (encodeDictFilesBytes t ++ (c0 :: t0))))).length + 1)
                  + 1 from by simp]
          rw [getString_deleteFirst]
          rw [getString_app f.name.length f.name (le_refl _) hks _
                (colonByte :: (File.EncodeJSON f
                  ++ ((if t.isEmpty then [] else [commaByte])
                    ++ (encodeDictFilesBytes t ++ (c0 :: t0)))))
                (by simp only [List.length_append, List.length_cons]; omega)]
          dsimp only
          rw [skipSpace_nonspace colonByte _ (by decide)]
          dsimp only
          rw [if_pos rfl]
          have hfree := nodup_key_fresh (by
            rw [keysA_append] at hnd
            exact hnd)
          have hdup : duplicateField acc f.name = .ok () :=
            duplicateField_none hfree.1 hfree.2
          cases f1 with
          | zero => omega
          | succ f2 =>
              by_cases ht : t = []
              · subst ht
                rw [show ((if ([] : List (List Nat × File)).isEmpty then []
                      else [commaByte])
                    ++ (encodeDictFilesBytes [] ++ (c0 :: t0)))
                      = c0 :: t0 from rfl]
                rw [parseValue_scalar_enc f2 f.name acc f c0 t0 hvok rfl
                      hc0 hdup]
                rw [insertA_fresh acc.files f.name f hfree.2]
                exact hcont f2 (by simp only [List.length_cons]; omega)
              · have hte : t.isEmpty = false := by
                  cases t with
                  | nil => exact absurd rfl ht
                  | cons a b => rfl
                rw [hte]
                rw [if_neg (by decide)]
                rw [show (([commaByte] : List Nat)
                      ++ (encodeDictFilesBytes t ++ (c0 :: t0)))
                      = commaByte :: (encodeDictFilesBytes t ++ (c0 :: t0))
                    from rfl]
                rw [parseValue_scalar_enc f2 f.name acc f commaByte
                      (encodeDictFilesBytes t ++ (c0 :: t0)) hvok rfl
                      (by decide) hdup]
                cases f2 with
                | zero => omega
                | succ f3 =>
                    rw [parseClose_eq]
                    rw [skipSpace_nonspace commaByte _ (by decide)]
                    dsimp only
                    rw [if_neg (by decide), if_pos rfl]
                    rw [insertA_fresh acc.files f.name f hfree.2]
                    refine ih (.mk acc.name acc.dirs
                        (acc.files ++ [(f.name, f)]) acc.isArray)
                      (c0 :: t0) res ht
                      (fun q hq => hwf q (by simp [hq])) ?_
                      ⟨c0, t0, rfl, hc0⟩ ?_ f3 ?_
                    · rw [show Directory.dirs (.mk acc.name acc.dirs
                            (acc.files ++ [(f.name, f)]) acc.isArray)
                          = acc.dirs from rfl,
                          show Directory.files (.mk acc.name acc.dirs
                            (acc.files ++ [(f.name, f)]) acc.isArray)
                          = acc.files ++ [(f.name, f)] from rfl,
                          List.append_assoc]
                      exact hnd
                    · intro q hq
                      rw [show Directory.name (.mk acc.name acc.dirs
                            (acc.files ++ [(f.name, f)]) acc.isArray)
                          = acc.name from rfl,
                          show Directory.dirs (.mk acc.name acc.dirs
                            (acc.files ++ [(f.name, f)]) acc.isArray)
                          = acc.dirs from rfl,
                          show Directory.files (.mk acc.name acc.dirs
                            (acc.files ++ [(f.name, f)]) acc.isArray)
                          = acc.files ++ [(f.name, f)] from rfl,
                          show Directory.isArray (.mk acc.name acc.dirs
                            (acc.files ++ [(f.name, f)]) acc.isArray)
                          = acc.isArray from rfl,
                          List.append_assoc]
                      exact hcont q hq
                    · simp only [List.length_append, List.length_cons]
                      omega

theorem nodup_key_fresh2 {A B C : List (List Nat)} {k : List Nat}
    (h : ((A ++ k :: C) ++ B).Nodup) : ¬ k ∈ A ∧ ¬ k ∈ B := by
  rw [List.nodup_append] at h
  obtain ⟨h1, _, hdisj⟩ := h
  rw [List.nodup_append] at h1
  obtain ⟨_, _, hdisj2⟩ := h1
  exact ⟨fun hk => hdisj2 hk (by simp), fun hk => hdisj (by simp) hk⟩

theorem encodeDictDirs_nil : encodeDictDirs [] = .ok [] := by
  rw [encodeDictDirs.eq_def]

theorem encodeDictDirs_cons (k : List Nat) (dd : Directory)
    (t : List (List Nat × Directory)) :
    encodeDictDirs ((k, dd) :: t)
      = (match Directory.EncodeJSON dd with
         | .error e => .error e
         | .ok innerB =>
             match encodeDictDirs t with
             | .error e => .error e
             | .ok restB =>
                 .ok ([doubleQuote] ++ dd.name ++ [doubleQuote]
                       ++ [colonByte] ++ innerB
                       ++ (if t.isEmpty then [] else [commaByte])
                       ++ restB)) := by
  rw [encodeDictDirs.eq_def]

theorem rt_dirs : ∀ (ds1 : List (List Nat × Directory)) (acc : Directory)
    (tail : List Nat) (res : Except Err (Directory × List Nat)),
    ds1 ≠ [] →
    (∀ p ∈ ds1, (p.2 : Directory).name = p.1 ∧ StrOK p.1 = true
      ∧ ChildRT p.2) →
    (keysA (acc.dirs ++ ds1) ++ keysA acc.files).Nodup →
    (∃ c0 t0, tail = c0 :: t0) →
    (∀ f2, 2 * tail.length + 2 < f2 →
        parseClose f2 tail
          (.mk acc.name (acc.dirs ++ ds1) acc.files acc.isArray) = res) →
    ∀ dirsB, encodeDictDirs ds1 = .ok dirsB →
    ∀ fuel, 2 * (dirsB ++ tail).length + 1 < fuel →
      parseFields fuel (dirsB ++ tail) acc = res := by
  intro ds1
  induction ds1 with
  | nil =>
      intro acc tail res hne
      exact absurd rfl hne
  | cons p t ih =>
      intro acc tail res _ hwf hnd htail hcont dirsB hdd fuel hfl
      obtain ⟨k, dd⟩ := p
      obtain ⟨hname, hks, hrt⟩ := hwf (k, dd) (by simp)
      dsimp only at hname hks hrt
      subst hname
      obtain ⟨c0, t0, htl0⟩ := htail
      subst htl0
      obtain ⟨inner, hinner, hrtc⟩ := hrt
      rw [encodeDictDirs_cons, hinner] at hdd
      cases hrest : encodeDictDirs t with
      | error e => rw [hrest] at hdd; cases hdd
      | ok restB =>
          rw [hrest] at hdd
          dsimp only at hdd
          cases hdd
          have hfree := nodup_key_fresh2 (by
            rw [keysA_append] at hnd
            exact hnd)
          have hdup : duplicateField acc dd.name = .ok () :=
            duplicateField_none hfree.1 hfree.2
          have htext : ([doubleQuote] ++ dd.name ++ [doubleQuote]
                ++ [colonByte] ++ inner
                ++ (if t.isEmpty then [] else [commaByte]) ++ restB)
                ++ (c0 :: t0)
              = doubleQuote :: (dd.name ++ doubleQuote :: colonByte ::
                  (inner ++ ((if t.isEmpty then [] else [commaByte])
                    ++ (restB ++ (c0 :: t0))))) := by
            simp
          rw [htext] at hfl ⊢
          have hinner1 : 0 < inner.length := by
            rcases hrtc with ⟨_, ⟨o2, ho2⟩, _⟩ | ⟨_, ⟨o2, ho2⟩, _⟩ <;>
              simp [ho2]
          simp only [List.length_cons, List.length_append] at hfl
          cases fuel with
          | zero => omega
          | succ f1 =>
              rw [parseFields_eq]
              rw [skipSpace_nonspace doubleQuote _ (by decide)]
              dsimp only
              rw [if_pos rfl]
              rw [show (doubleQuote :: (dd.name ++ doubleQuote :: colonByte ::
                    (inner ++ ((if t.isEmpty then [] else [commaByte])
                      ++ (restB ++ (c0 :: t0)))))).length + 1
                  = ((dd.name ++ doubleQuote :: colonByte ::
                      (inner ++ ((if t.isEmpty then [] else [commaByte])
                        ++ (restB ++ (c0 :: t0))))).length + 1) + 1 from by
                  simp]
              rw [getString_deleteFirst]
              rw [getString_app dd.name.length dd.name (le_refl _) hks _
                    (colonByte :: (inner
                      ++ ((if t.isEmpty then [] else [commaByte])
                        ++ (restB ++ (c0 :: t0)))))
                    (by simp only [List.length_append, List.length_cons]
                        omega)]
              dsimp only
              rw [skipSpace_nonspace colonByte _ (by decide)]
              dsimp only
              rw [if_pos rfl]
              cases f1 with
              | zero => omega
              | succ f2 =>
                  rw [parseValue_eq]
                  rcases hrtc with ⟨hisA, ⟨o2, ho2⟩, hrtP⟩
                    | ⟨hisA, ⟨o2, ho2⟩, hrtP⟩
                  · rw [ho2, List.cons_append, valueCheck_brace]
                    dsimp only
                    rw [hdup]
                    dsimp only
                    rw [← List.cons_append, ← ho2]
                    rw [hrtP f2 ((if t.isEmpty then [] else [commaByte])
                          ++ (restB ++ (c0 :: t0))) dd.name
                          (by simp only [List.length_append,
                                List.length_cons]
                              omega)]
                    dsimp only
                    rw [show (Directory.mk dd.name dd.dirs dd.files false)
                          = dd from by rw [← hisA]; exact Directory.eta dd]
                    rw [insertA_fresh acc.dirs dd.name dd hfree.1]
                    by_cases ht : t = []
                    · subst ht
                      rw [encodeDictDirs_nil] at hrest
                      cases hrest
                      rw [show ((if ([] : List (List Nat × Directory)).isEmpty
                            then [] else [commaByte])
                            ++ (([] : List Nat) ++ (c0 :: t0)))
                          = c0 :: t0 from rfl]
                      exact hcont f2 (by simp only [List.length_cons]; omega)
                    · have hte : t.isEmpty = false := by
                        cases t with
                        | nil => exact absurd rfl ht
                        | cons a b => rfl
                      rw [hte]
                      rw [if_neg (by decide)]
                      rw [show (([commaByte] : List Nat)
                            ++ (restB ++ (c0 :: t0)))
                          = commaByte :: (restB ++ (c0 :: t0)) from rfl]
                      cases f2 with
                      | zero => omega
                      | succ f3 =>
                          rw [parseClose_eq]
                          rw [skipSpace_nonspace commaByte _ (by decide)]
                          dsimp only
                          rw [if_neg (by decide), if_pos rfl]
                          refine ih (.mk acc.name
                              (acc.dirs ++ [(dd.name, dd)]) acc.files
                              acc.isArray)
                            (c0 :: t0) res ht
                            (fun q hq => hwf q (by simp [hq])) ?_
                            ⟨c0, t0, rfl⟩ ?_ restB hrest f3 ?_
                          · rw [show Directory.dirs (.mk acc.name
                                  (acc.dirs ++ [(dd.name, dd)]) acc.files
                                  acc.isArray)
                                = acc.dirs ++ [(dd.name, dd)] from rfl,
                                show Directory.files (.mk acc.name
                                  (acc.dirs ++ [(dd.name, dd)]) acc.files
                                  acc.isArray)
                                = acc.files from rfl,
                                List.append_assoc]
                            exact hnd
                          · intro q hq
                            rw [show Directory.name (.mk acc.name
                                  (acc.dirs ++ [(dd.name, dd)]) acc.files
                                  acc.isArray) = acc.name from rfl,
                                show Directory.dirs (.mk acc.name
                                  (acc.dirs ++ [(dd.name, dd)]) acc.files
                                  acc.isArray)
                                = acc.dirs ++ [(dd.name, dd)] from rfl,
                                show Directory.files (.mk acc.name
                                  (acc.dirs ++ [(dd.name, dd)]) acc.files
                                  acc.isArray) = acc.files from rfl,
                                show Directory.isArray (.mk acc.name
                                  (acc.dirs ++ [(dd.name, dd)]) acc.files
                                  acc.isArray) = acc.isArray from rfl,
                                List.append_assoc]
                            exact hcont q hq
                          · simp only [List.length_append, List.length_cons]
                            omega
                  · rw [ho2, List.cons_append, valueCheck_bracket]
                    dsimp only
                    rw [hdup]
                    dsimp only
                    rw [← List.cons_append, ← ho2]
                    rw [hrtP f2 ((if t.isEmpty then [] else [commaByte])
                          ++ (restB ++ (c0 :: t0))) dd.name
                          (by simp only [List.length_append,
                                List.length_cons]
                              omega)]
                    dsimp only
                    rw [show (Directory.mk dd.name dd.dirs dd.files true)
                          = dd from by rw [← hisA]; exact Directory.eta dd]
                    rw [insertA_fresh acc.dirs dd.name dd hfree.1]
                    by_cases ht : t = []
                    · subst ht
                      rw [encodeDictDirs_nil] at hrest
                      cases hrest
                      rw [show ((if ([] : List (List Nat × Directory)).isEmpty
                            then [] else [commaByte])
                            ++ (([] : List Nat) ++ (c0 :: t0)))
                          = c0 :: t0 from rfl]
                      exact hcont f2 (by simp only [List.length_cons]; omega)
                    · have hte : t.isEmpty = false := by
                        cases t with
                        | nil => exact absurd rfl ht
                        | cons a b => rfl
                      rw [hte]
                      rw [if_neg (by decide)]
                      rw [show (([commaByte] : List Nat)
                            ++ (restB ++ (c0 :: t0)))
                          = commaByte :: (restB ++ (c0 :: t0)) from rfl]
                      cases f2 with
                      | zero => omega
                      | succ f3 =>
                          rw [parseClose_eq]
                          rw [skipSpace_nonspace commaByte _ (by decide)]
                          dsimp only
                          rw [if_neg (by decide), if_pos rfl]
                          refine ih (.mk acc.name
                              (acc.dirs ++ [(dd.name, dd)]) acc.files
                              acc.isArray)
                            (c0 :: t0) res ht
                            (fun q hq => hwf q (by simp [hq])) ?_
                            ⟨c0, t0, rfl⟩ ?_ restB hrest f3 ?_
                          · rw [show Directory.dirs (.mk acc.name
                                  (acc.dirs ++ [(dd.name, dd)]) acc.files
                                  acc.isArray)
                                = acc.dirs ++ [(dd.name, dd)] from rfl,
                                show Directory.files (.mk acc.name
                                  (acc.dirs ++ [(dd.name, dd)]) acc.files
                                  acc.isArray)
                                = acc.files from rfl,
                                List.append_assoc]
                            exact hnd
                          · intro q hq
                            rw [show Directory.name (.mk acc.name
                                  (acc.dirs ++ [(dd.name, dd)]) acc.files
                                  acc.isArray) = acc.name from rfl,
                                show Directory.dirs (.mk acc.name
                                  (acc.dirs ++ [(dd.name, dd)]) acc.files
                                  acc.isArray)
                                = acc.dirs ++ [(dd.name, dd)] from rfl,
                                show Directory.files (.mk acc.name
                                  (acc.dirs ++ [(dd.name, dd)]) acc.files
                                  acc.isArray) = acc.files from rfl,
                                show Directory.isArray (.mk acc.name
                                  (acc.dirs ++ [(dd.name, dd)]) acc.files
                                  acc.isArray) = acc.isArray from rfl,
                                List.append_assoc]
                            exact hcont q hq
                          · simp only [List.length_append, List.length_cons]
                            omega

theorem encodeArrayItems_zero (d : Directory) (n i : Nat) :
    encodeArrayItems d 0 n i = .ok [] := by
  rw [encodeArrayItems.eq_def]

theorem encodeArrayItems_succ (d : Directory) (left n i : Nat) :
    encodeArrayItems d (left + 1) n i
      = (match lookupA d.files (itoa i) with
         | some fv =>
             match encodeArrayItems d left n (i + 1) with
             | .error e => .error e
             | .ok restB =>
                 .ok (File.EncodeJSON fv
                       ++ (if i < n - 1 then [commaByte] else []) ++ restB)
         | none =>
             match lookupA d.dirs (itoa i) with
             | none => .error (.encodeMissingIndex i)
             | some fd =>
                 match Directory.EncodeJSON fd with
                 | .error e => .error e
                 | .ok innerB =>
                     match encodeArrayItems d left n (i + 1) with
                     | .error e => .error e
                     | .ok restB =>
                         .ok (innerB
                               ++ (if i < n - 1 then [commaByte] else [])
                               ++ restB)) := by
  rw [encodeArrayItems.eq_def]
  cases lookupA d.files (itoa i) with
  | some fv => rfl
  | none =>
      cases lookupA d.dirs (itoa i) with
      | none => rfl
      | some fd => rfl

theorem notMem_keysA_filesOf_ge (items : List Entry) (i j : Nat)
    (hj : j < i) : ¬ itoa j ∈ keysA (filesOf i items) := by
  intro hm
  obtain ⟨j2, h1, _, h3⟩ := keysA_filesOf items i (itoa j) hm
  have := itoa_inj h3
  omega

theorem notMem_keysA_dirsOf_ge (items : List Entry) (i j : Nat)
    (hj : j < i) : ¬ itoa j ∈ keysA (dirsOf i items) := by
  intro hm
  obtain ⟨j2, h1, _, h3⟩ := keysA_dirsOf items i (itoa j) hm
  have := itoa_inj h3
  omega


theorem lookup_filesOf_at (pre : List Entry) (e : Entry)
    (suf : List Entry) :
    lookupA (filesOf 0 (pre ++ e :: suf)) (itoa pre.length)
      = (match e with | .fileE f => some f | .dirE _ => none) := by
  rw [filesOf_append, Nat.zero_add,
      lookupA_append_right _ _ _
        (itoa_fresh_filesOf pre pre.length (le_refl _))]
  cases e with
  | fileE f =>
      rw [show filesOf pre.length (.fileE f :: suf)
            = (itoa pre.length, f) :: filesOf (pre.length + 1) suf from rfl]
      rw [show lookupA ((itoa pre.length, f)
              :: filesOf (pre.length + 1) suf) (itoa pre.length)
            = if itoa pre.length = itoa pre.length then some f
              else lookupA (filesOf (pre.length + 1) suf) (itoa pre.length)
          from rfl]
      rw [if_pos rfl]
  | dirE dd =>
      rw [show filesOf pre.length (.dirE dd :: suf)
            = filesOf (pre.length + 1) suf from rfl]
      exact (lookupA_eq_none_iff _ _).mpr
        (notMem_keysA_filesOf_ge suf (pre.length + 1) pre.length
          (by omega))

theorem lookup_dirsOf_at (pre : List Entry) (e : Entry)
    (suf : List Entry) :
    lookupA (dirsOf 0 (pre ++ e :: suf)) (itoa pre.length)
      = (match e with | .fileE _ => none | .dirE dd => some dd) := by
  rw [dirsOf_append, Nat.zero_add,
      lookupA_append_right _ _ _
        (itoa_fresh_dirsOf pre pre.length (le_refl _))]
  cases e with
  | fileE f =>
      rw [show dirsOf pre.length (.fileE f :: suf)
            = dirsOf (pre.length + 1) suf from rfl]
      exact (lookupA_eq_none_iff _ _).mpr
        (notMem_keysA_dirsOf_ge suf (pre.length + 1) pre.length
          (by omega))
  | dirE dd =>
      rw [show dirsOf pre.length (.dirE dd :: suf)
            = (itoa pre.length, dd) :: dirsOf (pre.length + 1) suf from rfl]
      rw [show lookupA ((itoa pre.length, dd)
              :: dirsOf (pre.length + 1) suf) (itoa pre.length)
            = if itoa pre.length = itoa pre.length then some dd
              else lookupA (dirsOf (pre.length + 1) suf) (itoa pre.length)
          from rfl]
      rw [if_pos rfl]

theorem lookup_filesOf_fileE (pre : List Entry) (f : File)
    (suf : List Entry) :
    lookupA (filesOf 0 (pre ++ .fileE f :: suf)) (itoa pre.length)
      = some f := by
  rw [lookup_filesOf_at]

theorem lookup_filesOf_dirE (pre : List Entry) (dd : Directory)
    (suf : List Entry) :
    lookupA (filesOf 0 (pre ++ .dirE dd :: suf)) (itoa pre.length)
      = none := by
  rw [lookup_filesOf_at]

theorem lookup_dirsOf_dirE (pre : List Entry) (dd : Directory)
    (suf : List Entry) :
    lookupA (dirsOf 0 (pre ++ .dirE dd :: suf)) (itoa pre.length)
      = some dd := by
  rw [lookup_dirsOf_at]

theorem EncodeJSON_head {f : File} (hv : fileValueOK f) :
    ∃ b2 t2, File.EncodeJSON f = b2 :: t2 ∧ b2 ≠ closeBracket := by
  unfold File.EncodeJSON
  unfold fileValueOK at hv
  cases hft : f.t with
  | FTString =>
      exact ⟨doubleQuote, f.value ++ [doubleQuote], rfl, by decide⟩
  | FTBool =>
      rw [hft] at hv
      rcases hv with hv | hv <;> rw [hv]
      · exact ⟨116, [114, 117, 101], rfl, by decide⟩
      · exact ⟨102, [97, 108, 115, 101], rfl, by decide⟩
  | FTNull =>
      rw [hft] at hv
      rw [hv]
      exact ⟨110, [117, 108, 108], rfl, by decide⟩
  | FTInt =>
      rw [hft] at hv
      dsimp only at hv
      obtain ⟨hne, hdig⟩ := hv
      obtain ⟨b0, t0, hbt⟩ := List.exists_cons_of_ne_nil hne
      have hb0 := hdig b0 (by rw [hbt]; simp)
      simp only [isNumberB, Bool.and_eq_true, decide_eq_true_eq] at hb0
      exact ⟨b0, t0, hbt, by simp only [closeBracket]; omega⟩
  | FTFloat =>
      rw [hft] at hv
      dsimp only at hv
      obtain ⟨⟨b0, t0, hbt, hb0⟩, _, _⟩ := hv
      simp only [isNumberB, Bool.and_eq_true, decide_eq_true_eq] at hb0
      exact ⟨b0, t0, hbt, by simp only [closeBracket]; omega⟩

theorem rt_items : ∀ (suf pre : List Entry) (d : Directory) (n : Nat),
    d.files = filesOf 0 (pre ++ suf) →
    d.dirs = dirsOf 0 (pre ++ suf) →
    n = (pre ++ suf).length →
    (∀ p ∈ d.files, (p.2 : File).name = p.1 ∧ fileValueOK p.2) →
    (∀ p ∈ d.dirs, (p.2 : Directory).name = p.1 ∧ ChildRT p.2) →
    suf ≠ [] →
    ∃ seg, encodeArrayItems d suf.length n pre.length = .ok seg
      ∧ (∃ b2 t2, seg = b2 :: t2 ∧ b2 ≠ closeBracket)
      ∧ ∀ (acc : Directory) (tail : List Nat)
          (res : Except Err (Directory × List Nat)),
          (∀ j, pre.length ≤ j →
            ¬ itoa j ∈ keysA acc.dirs ∧ ¬ itoa j ∈ keysA acc.files) →
          (∃ c0 t0, tail = c0 :: t0 ∧ numScanByte c0 = false) →
          (∀ f2, 2 * tail.length + 2 < f2 →
              parseCloseArr f2 tail n
                (.mk acc.name (acc.dirs ++ dirsOf pre.length suf)
                  (acc.files ++ filesOf pre.length suf) acc.isArray)
                = res) →
          ∀ fuel, 2 * (seg ++ tail).length + 1 < fuel →
            parseItems fuel (seg ++ tail) pre.length acc = res := by
  intro suf
  induction suf with
  | nil =>
      intro pre d n _ _ _ _ _ hne
      exact absurd rfl hne
  | cons e suf2 ih =>
      intro pre d n hff hdv hn hwff hwfd _
      have hn2 : n = pre.length + suf2.length + 1 := by
        rw [hn]
        simp only [List.length_append, List.length_cons]
        omega
      cases e with
      | fileE f =>
          have hmem : (itoa pre.length, f) ∈ d.files := by
            rw [hff, filesOf_append]
            refine List.mem_append_right _ ?_
            rw [Nat.zero_add,
                show filesOf pre.length (.fileE f :: suf2)
                  = (itoa pre.length, f)
                      :: filesOf (pre.length + 1) suf2 from rfl]
            exact List.mem_cons_self _ _
          obtain ⟨hfn, hfv⟩ := hwff _ hmem
          dsimp only at hfn hfv
          have hEf : 0 < (File.EncodeJSON f).length := EncodeJSON_len hfv
          by_cases hs2 : suf2 = []
          · subst hs2
            simp only [List.length_nil] at hn2
            have henc : encodeArrayItems d (Entry.fileE f :: []).length n
                pre.length = .ok (File.EncodeJSON f) := by
              rw [show (Entry.fileE f :: ([] : List Entry)).length = 0 + 1
                    from rfl,
                  encodeArrayItems_succ, hff, lookup_filesOf_fileE]
              dsimp only
              rw [encodeArrayItems_zero]
              dsimp only
              rw [if_neg (by omega), List.append_nil, List.append_nil]
            obtain ⟨b2h, t2h, hbh, hbneh⟩ := EncodeJSON_head hfv
            refine ⟨File.EncodeJSON f, henc, ⟨b2h, t2h, hbh, hbneh⟩, ?_⟩
            intro acc tail res hfresh htail hcont fuel hfl
            obtain ⟨c0, t0, htl0, hc0⟩ := htail
            subst htl0
            rw [show dirsOf pre.length [Entry.fileE f]
                  = [] from rfl, List.append_nil,
                show filesOf pre.length [Entry.fileE f]
                  = [(itoa pre.length, f)] from rfl,
                show n = pre.length + 1 from by omega] at hcont
            simp only [List.length_append, List.length_cons] at hfl
            cases fuel with
            | zero => omega
            | succ f1 =>
                rw [parseItems_scalar_enc f1 pre.length acc f c0 t0 hfv hfn
                      hc0]
                rw [insertA_fresh acc.files (itoa pre.length) f
                      (hfresh pre.length (le_refl _)).2]
                exact hcont f1 (by simp only [List.length_cons]; omega)
          · have hia : (pre ++ [Entry.fileE f]) ++ suf2
                = pre ++ Entry.fileE f :: suf2 := by simp
            obtain ⟨seg2, henc2, _, hdec2⟩ := ih (pre ++ [.fileE f]) d n
              (by rw [hia]; exact hff) (by rw [hia]; exact hdv)
              (by rw [hia]; exact hn) hwff hwfd hs2
            have hpl : (pre ++ [Entry.fileE f]).length = pre.length + 1 := by
              simp
            rw [hpl] at henc2 hdec2
            have hcomma : pre.length < n - 1 := by
              have := List.length_pos.mpr hs2
              omega
            have henc : encodeArrayItems d (Entry.fileE f :: suf2).length n
                pre.length
                  = .ok (File.EncodeJSON f ++ commaByte :: seg2) := by
              rw [show (Entry.fileE f :: suf2).length = suf2.length + 1
                    from rfl,
                  encodeArrayItems_succ, hff, lookup_filesOf_fileE]
              dsimp only
              rw [henc2]
              dsimp only
              rw [if_pos hcomma, List.append_assoc]
              rfl
            obtain ⟨b2h, t2h, hbh, hbneh⟩ := EncodeJSON_head hfv
            refine ⟨File.EncodeJSON f ++ commaByte :: seg2, henc,
              ⟨b2h, t2h ++ commaByte :: seg2, by rw [hbh]; rfl, hbneh⟩, ?_⟩
            intro acc tail res hfresh htail hcont fuel hfl
            obtain ⟨c0, t0, htl0, hc0⟩ := htail
            subst htl0
            rw [show (File.EncodeJSON f ++ commaByte :: seg2) ++ (c0 :: t0)
                  = File.EncodeJSON f
                      ++ commaByte :: (seg2 ++ (c0 :: t0)) from by simp]
              at hfl ⊢
            simp only [List.length_append, List.length_cons] at hfl
            cases fuel with
            | zero => omega
            | succ f1 =>
                rw [parseItems_scalar_enc f1 pre.length acc f commaByte
                      (seg2 ++ (c0 :: t0)) hfv hfn (by decide)]
                rw [insertA_fresh acc.files (itoa pre.length) f
                      (hfresh pre.length (le_refl _)).2]
                cases f1 with
                | zero => omega
                | succ f2 =>
                    rw [parseCloseArr_eq]
                    rw [skipSpace_nonspace commaByte _ (by decide)]
                    dsimp only
                    rw [if_neg (by decide), if_pos rfl]
                    refine hdec2 (.mk acc.name acc.dirs
                        (acc.files ++ [(itoa pre.length, f)]) acc.isArray)
                      (c0 :: t0) res ?_ ⟨c0, t0, rfl, hc0⟩ ?_ f2 ?_
                    · intro j hj
                      constructor
                      · rw [show Directory.dirs (.mk acc.name acc.dirs
                              (acc.files ++ [(itoa pre.length, f)])
                              acc.isArray) = acc.dirs from rfl]
                        exact (hfresh j (by omega)).1
                      · rw [show Directory.files (.mk acc.name acc.dirs
                              (acc.files ++ [(itoa pre.length, f)])
                              acc.isArray)
                            = acc.files ++ [(itoa pre.length, f)] from rfl,
                            keysA_snoc]
                        intro hmm
                        rcases List.mem_append.mp hmm with hmm | hmm
                        · exact (hfresh j (by omega)).2 hmm
                        · have : itoa j = itoa pre.length := by
                            simpa using hmm
                          have := itoa_inj this
                          omega
                    · intro q hq
                      rw [show dirsOf pre.length (Entry.fileE f :: suf2)
                            = dirsOf (pre.length + 1) suf2 from rfl,
                          show filesOf pre.length (Entry.fileE f :: suf2)
                            = (itoa pre.length, f)
                                :: filesOf (pre.length + 1) suf2 from rfl]
                        at hcont
                      rw [show Directory.name (.mk acc.name acc.dirs
                            (acc.files ++ [(itoa pre.length, f)])
                            acc.isArray) = acc.name from rfl,
                          show Directory.dirs (.mk acc.name acc.dirs
                            (acc.files ++ [(itoa pre.length, f)])
                            acc.isArray) = acc.dirs from rfl,
                          show Directory.files (.mk acc.name acc.dirs
                            (acc.files ++ [(itoa pre.length, f)])
                            acc.isArray)
                            = acc.files ++ [(itoa pre.length, f)] from rfl,
                          show Directory.isArray (.mk acc.name acc.dirs
                            (acc.files ++ [(itoa pre.length, f)])
                            acc.isArray) = acc.isArray from rfl,
                          List.append_assoc]
                      exact hcont q hq
                    · simp only [List.length_append, List.length_cons]
                      omega
      | dirE dd =>
          have hmem : (itoa pre.length, dd) ∈ d.dirs := by
            rw [hdv, dirsOf_append]
            refine List.mem_append_right _ ?_
            rw [Nat.zero_add,
                show dirsOf pre.length (.dirE dd :: suf2)
                  = (itoa pre.length, dd)
                      :: dirsOf (pre.length + 1) suf2 from rfl]
            exact List.mem_cons_self _ _
          obtain ⟨hdn, hrt⟩ := hwfd _ hmem
          dsimp only at hdn hrt
          obtain ⟨inner, hinner, hrtc⟩ := hrt
          have hinner1 : 0 < inner.length := by
            rcases hrtc with ⟨_, ⟨o2, ho2⟩, _⟩ | ⟨_, ⟨o2, ho2⟩, _⟩ <;>
              simp [ho2]
          by_cases hs2 : suf2 = []
          · subst hs2
            simp only [List.length_nil] at hn2
            have henc : encodeArrayItems d (Entry.dirE dd :: []).length n
                pre.length = .ok inner := by
              rw [show (Entry.dirE dd :: ([] : List Entry)).length = 0 + 1
                    from rfl,
                  encodeArrayItems_succ, hff, lookup_filesOf_dirE]
              dsimp only
              rw [hdv, lookup_dirsOf_dirE]
              dsimp only
              rw [hinner]
              dsimp only
              rw [encodeArrayItems_zero]
              dsimp only
              rw [if_neg (by omega), List.append_nil, List.append_nil]
            have hheadI : ∃ b2 t2, inner = b2 :: t2 ∧ b2 ≠ closeBracket := by
              rcases hrtc with ⟨_, ⟨o2, ho2⟩, _⟩ | ⟨_, ⟨o2, ho2⟩, _⟩
              · exact ⟨openBrace, o2, ho2, by decide⟩
              · exact ⟨openBracket, o2, ho2, by decide⟩
            refine ⟨inner, henc, hheadI, ?_⟩
            intro acc tail res hfresh htail hcont fuel hfl
            obtain ⟨c0, t0, htl0, hc0⟩ := htail
            subst htl0
            rw [show dirsOf pre.length [Entry.dirE dd]
                  = [(itoa pre.length, dd)] from rfl,
                show filesOf pre.length [Entry.dirE dd]
                  = [] from rfl, List.append_nil,
                show n = pre.length + 1 from by omega] at hcont
            simp only [List.length_append, List.length_cons] at hfl
            cases fuel with
            | zero => omega
            | succ f1 =>
                rw [parseItems_eq]
                rcases hrtc with ⟨hisA, ⟨o2, ho2⟩, hrtP⟩
                  | ⟨hisA, ⟨o2, ho2⟩, hrtP⟩
                · rw [ho2, List.cons_append, valueCheck_brace]
                  dsimp only
                  rw [← List.cons_append, ← ho2]
                  rw [hrtP f1 (c0 :: t0) (itoa pre.length)
                        (by simp only [List.length_append, List.length_cons]
                            omega)]
                  dsimp only
                  rw [show (Directory.mk (itoa pre.length) dd.dirs dd.files
                        false) = dd from by
                      rw [← hdn, ← hisA]; exact Directory.eta dd]
                  rw [hdn, insertA_fresh acc.dirs (itoa pre.length) dd
                        (hfresh pre.length (le_refl _)).1]
                  exact hcont f1 (by simp only [List.length_cons]; omega)
                · rw [ho2, List.cons_append, valueCheck_bracket]
                  dsimp only
                  rw [← List.cons_append, ← ho2]
                  rw [hrtP f1 (c0 :: t0) (itoa pre.length)
                        (by simp only [List.length_append, List.length_cons]
                            omega)]
                  dsimp only
                  rw [show (Directory.mk (itoa pre.length) dd.dirs dd.files
                        true) = dd from by
                      rw [← hdn, ← hisA]; exact Directory.eta dd]
                  rw [hdn, insertA_fresh acc.dirs (itoa pre.length) dd
                        (hfresh pre.length (le_refl _)).1]
                  exact hcont f1 (by simp only [List.length_cons]; omega)
          · have hia : (pre ++ [Entry.dirE dd]) ++ suf2
                = pre ++ Entry.dirE dd :: suf2 := by simp
            obtain ⟨seg2, henc2, _, hdec2⟩ := ih (pre ++ [.dirE dd]) d n
              (by rw [hia]; exact hff) (by rw [hia]; exact hdv)
              (by rw [hia]; exact hn) hwff hwfd hs2
            have hpl : (pre ++ [Entry.dirE dd]).length = pre.length + 1 := by
              simp
            rw [hpl] at henc2 hdec2
            have hcomma : pre.length < n - 1 := by
              have := List.length_pos.mpr hs2
              omega
            have henc : encodeArrayItems d (Entry.dirE dd :: suf2).length n
                pre.length = .ok (inner ++ commaByte :: seg2) := by
              rw [show (Entry.dirE dd :: suf2).length = suf2.length + 1
                    from rfl,
                  encodeArrayItems_succ, hff, lookup_filesOf_dirE]
              dsimp only
              rw [hdv, lookup_dirsOf_dirE]
              dsimp only
              rw [hinner]
              dsimp only
              rw [henc2]
              dsimp only
              rw [if_pos hcomma, List.append_assoc]
              rfl
            have hheadI : ∃ b2 t2, inner = b2 :: t2 ∧ b2 ≠ closeBracket := by
              rcases hrtc with ⟨_, ⟨o2, ho2⟩, _⟩ | ⟨_, ⟨o2, ho2⟩, _⟩
              · exact ⟨openBrace, o2, ho2, by decide⟩
              · exact ⟨openBracket, o2, ho2, by decide⟩
            obtain ⟨b2h, t2h, hbh, hbneh⟩ := hheadI
            refine ⟨inner ++ commaByte :: seg2, henc,
              ⟨b2h, t2h ++ commaByte :: seg2, by rw [hbh]; rfl, hbneh⟩, ?_⟩
            intro acc tail res hfresh htail hcont fuel hfl
            obtain ⟨c0, t0, htl0, hc0⟩ := htail
            subst htl0
            rw [show (inner ++ commaByte :: seg2) ++ (c0 :: t0)
                  = inner ++ commaByte :: (seg2 ++ (c0 :: t0)) from by simp]
              at hfl ⊢
            simp only [List.length_append, List.length_cons] at hfl
            cases fuel with
            | zero => omega
            | succ f1 =>
                rw [parseItems_eq]
                rcases hrtc with ⟨hisA, ⟨o2, ho2⟩, hrtP⟩
                  | ⟨hisA, ⟨o2, ho2⟩, hrtP⟩
                · rw [ho2, List.cons_append, valueCheck_brace]
                  dsimp only
                  rw [← List.cons_append, ← ho2]
                  rw [hrtP f1 (commaByte :: (seg2 ++ (c0 :: t0)))
                        (itoa pre.length)
                        (by simp only [List.length_append, List.length_cons]
                            omega)]
                  dsimp only
                  rw [show (Directory.mk (itoa pre.length) dd.dirs dd.files
                        false) = dd from by
                      rw [← hdn, ← hisA]; exact Directory.eta dd]
                  rw [hdn, insertA_fresh acc.dirs (itoa pre.length) dd
                        (hfresh pre.length (le_refl _)).1]
                  cases f1 with
                  | zero => omega
                  | succ f2 =>
                      rw [parseCloseArr_eq]
                      rw [skipSpace_nonspace commaByte _ (by decide)]
                      dsimp only
                      rw [if_neg (by decide), if_pos rfl]
                      refine hdec2 (.mk acc.name
                          (acc.dirs ++ [(itoa pre.length, dd)]) acc.files
                          acc.isArray)
                        (c0 :: t0) res ?_ ⟨c0, t0, rfl, hc0⟩ ?_ f2 ?_
                      · intro j hj
                        constructor
                        · rw [show Directory.dirs (.mk acc.name
                                (acc.dirs ++ [(itoa pre.length, dd)])
                                acc.files acc.isArray)
                              = acc.dirs ++ [(itoa pre.length, dd)]
                              from rfl, keysA_snoc]
                          intro hmm
                          rcases List.mem_append.mp hmm with hmm | hmm
                          · exact (hfresh j (by omega)).1 hmm
                          · have : itoa j = itoa pre.length := by
                              simpa using hmm
                            have := itoa_inj this
                            omega
                        · rw [show Directory.files (.mk acc.name
                                (acc.dirs ++ [(itoa pre.length, dd)])
                                acc.files acc.isArray)
                              = acc.files from rfl]
                          exact (hfresh j (by omega)).2
                      · intro q hq
                        rw [show dirsOf pre.length (Entry.dirE dd :: suf2)
                              = (itoa pre.length, dd)
                                  :: dirsOf (pre.length + 1) suf2 from rfl,
                            show filesOf pre.length (Entry.dirE dd :: suf2)
                              = filesOf (pre.length + 1) suf2 from rfl]
                          at hcont
                        rw [show Directory.name (.mk acc.name
                              (acc.dirs ++ [(itoa pre.length, dd)])
                              acc.files acc.isArray) = acc.name from rfl,
                            show Directory.dirs (.mk acc.name
                              (acc.dirs ++ [(itoa pre.length, dd)])
                              acc.files acc.isArray)
                              = acc.dirs ++ [(itoa pre.length, dd)]
                              from rfl,
                            show Directory.files (.mk acc.name
                              (acc.dirs ++ [(itoa pre.length, dd)])
                              acc.files acc.isArray) = acc.files from rfl,
                            show Directory.isArray (.mk acc.name
                              (acc.dirs ++ [(itoa pre.length, dd)])
                              acc.files acc.isArray) = acc.isArray
                              from rfl,
                            List.append_assoc]
                        exact hcont q hq
                      · simp only [List.length_append, List.length_cons]
                        omega
                · rw [ho2, List.cons_append, valueCheck_bracket]
                  dsimp only
                  rw [← List.cons_append, ← ho2]
                  rw [hrtP f1 (commaByte :: (seg2 ++ (c0 :: t0)))
                        (itoa pre.length)
                        (by simp only [List.length_append, List.length_cons]
                            omega)]
                  dsimp only
                  rw [show (Directory.mk (itoa pre.length) dd.dirs dd.files
                        true) = dd from by
                      rw [← hdn, ← hisA]; exact Directory.eta dd]
                  rw [hdn, insertA_fresh acc.dirs (itoa pre.length) dd
                        (hfresh pre.length (le_refl _)).1]
                  cases f1 with
                  | zero => omega
                  | succ f2 =>
                      rw [parseCloseArr_eq]
                      rw [skipSpace_nonspace commaByte _ (by decide)]
                      dsimp only
                      rw [if_neg (by decide), if_pos rfl]
                      refine hdec2 (.mk acc.name
                          (acc.dirs ++ [(itoa pre.length, dd)]) acc.files
                          acc.isArray)
                        (c0 :: t0) res ?_ ⟨c0, t0, rfl, hc0⟩ ?_ f2 ?_
                      · intro j hj
                        constructor
                        · rw [show Directory.dirs (.mk acc.name
                                (acc.dirs ++ [(itoa pre.length, dd)])
                                acc.files acc.isArray)
                              = acc.dirs ++ [(itoa pre.length, dd)]
                              from rfl, keysA_snoc]
                          intro hmm
                          rcases List.mem_append.mp hmm with hmm | hmm
                          · exact (hfresh j (by omega)).1 hmm
                          · have : itoa j = itoa pre.length := by
                              simpa using hmm
                            have := itoa_inj this
                            omega
                        · rw [show Directory.files (.mk acc.name
                                (acc.dirs ++ [(itoa pre.length, dd)])
                                acc.files acc.isArray)
                              = acc.files from rfl]
                          exact (hfresh j (by omega)).2
                      · intro q hq
                        rw [show dirsOf pre.length (Entry.dirE dd :: suf2)
                              = (itoa pre.length, dd)
                                  :: dirsOf (pre.length + 1) suf2 from rfl,
                            show filesOf pre.length (Entry.dirE dd :: suf2)
                              = filesOf (pre.length + 1) suf2 from rfl]
                          at hcont
                        rw [show Directory.name (.mk acc.name
                              (acc.dirs ++ [(itoa pre.length, dd)])
                              acc.files acc.isArray) = acc.name from rfl,
                            show Directory.dirs (.mk acc.name
                              (acc.dirs ++ [(itoa pre.length, dd)])
                              acc.files acc.isArray)
                              = acc.dirs ++ [(itoa pre.length, dd)]
                              from rfl,
                            show Directory.files (.mk acc.name
                              (acc.dirs ++ [(itoa pre.length, dd)])
                              acc.files acc.isArray) = acc.files from rfl,
                            show Directory.isArray (.mk acc.name
                              (acc.dirs ++ [(itoa pre.length, dd)])
                              acc.files acc.isArray) = acc.isArray
                              from rfl,
                            List.append_assoc]
                        exact hcont q hq
                      · simp only [List.length_append, List.length_cons]
                        omega

theorem encodeDictDirs_ok : ∀ (ds : List (List Nat × Directory)),
    (∀ p ∈ ds, ∃ o, Directory.EncodeJSON (p.2 : Directory) = .ok o) →
    ∃ b, encodeDictDirs ds = .ok b := by
  intro ds
  induction ds with
  | nil => intro _; exact ⟨[], encodeDictDirs_nil⟩
  | cons p t ih =>
      intro h
      obtain ⟨k, dd⟩ := p
      obtain ⟨o, ho⟩ := h (k, dd) (by simp)
      dsimp only at ho
      obtain ⟨b, hb⟩ := ih (fun q hq => h q (by simp [hq]))
      refine ⟨[doubleQuote] ++ dd.name ++ [doubleQuote] ++ [colonByte]
          ++ o ++ (if t.isEmpty then [] else [commaByte]) ++ b, ?_⟩
      rw [encodeDictDirs_cons, ho]
      dsimp only
      rw [hb]

theorem encodeDictFilesBytes_head (p : List Nat × File)
    (t : List (List Nat × File)) :
    ∃ u, encodeDictFilesBytes (p :: t) = doubleQuote :: u := by
  obtain ⟨k, f⟩ := p
  exact ⟨f.name ++ [doubleQuote] ++ [colonByte] ++ File.EncodeJSON f
      ++ (if t.isEmpty then [] else [commaByte])
      ++ encodeDictFilesBytes t, by simp [encodeDictFilesBytes]⟩

theorem encodeDictDirs_head (p : List Nat × Directory)
    (t : List (List Nat × Directory)) (b : List Nat)
    (h : encodeDictDirs (p :: t) = .ok b) :
    ∃ u, b = doubleQuote :: u := by
  obtain ⟨k, dd⟩ := p
  rw [encodeDictDirs_cons] at h
  cases hi : Directory.EncodeJSON dd with
  | error e => rw [hi] at h; cases h
  | ok inner =>
      rw [hi] at h
      dsimp only at h
      cases hr : encodeDictDirs t with
      | error e => rw [hr] at h; cases h
      | ok restB =>
          rw [hr] at h
          dsimp only at h
          cases h
          exact ⟨dd.name ++ [doubleQuote] ++ [colonByte] ++ inner
              ++ (if t.isEmpty then [] else [commaByte]) ++ restB,
            by simp⟩

theorem rt_main : ∀ (N : Nat) (d : Directory), sizeOf d ≤ N → WFDir d →
    ChildRT d := by
  intro N
  induction N with
  | zero =>
      intro d hsz _
      exfalso
      cases d with
      | mk n ds fs a => simp at hsz
  | succ N ih =>
      intro d hsz hwf
      have hch : ∀ p ∈ d.dirs, ChildRT (p.2 : Directory) := fun p hp =>
        ih p.2 (by have := sizeOf_mem_dirs_lt hp; omega)
          (WFDir_dirs_rec hwf p hp)
      cases hA : d.isArray with
      | false =>
          obtain ⟨dirsB, hdirsB⟩ := encodeDictDirs_ok d.dirs
            (fun p hp => by
              obtain ⟨o, ho, _⟩ := hch p hp
              exact ⟨o, ho⟩)
          have henc0 : Directory.EncodeJSON d
              = .ok ([openBrace] ++ encodeDictFilesBytes d.files
                  ++ (if 0 < d.files.length ∧ 0 < d.dirs.length
                      then [commaByte] else [])
                  ++ dirsB ++ [closeBrace]) := by
            rw [EncodeJSON_unfold, hA]
            rw [if_neg (by simp)]
            unfold encodeJSONDict
            rw [hdirsB]
          have hnd := WFDir_nodup hwf
          by_cases hfs : d.files = []
          · by_cases hds : d.dirs = []
            · rw [hds, encodeDictDirs_nil] at hdirsB
              cases hdirsB
              refine ⟨[openBrace, closeBrace], ?_,
                Or.inl ⟨hA, ⟨[closeBrace], rfl⟩, ?_⟩⟩
              · rw [henc0, hfs, hds]
                rfl
              · intro fuel rest nm hfl
                cases fuel with
                | zero => omega
                | succ f1 =>
                    rw [show ([openBrace, closeBrace] : List Nat) ++ rest
                          = openBrace :: (closeBrace :: rest) from rfl]
                    rw [parseDict_eq]
                    rw [skipSpace_nonspace openBrace _ (by decide)]
                    dsimp only
                    rw [if_pos rfl]
                    rw [if_pos rfl, hfs, hds]
                    rfl
            · obtain ⟨pd, td, hdc⟩ : ∃ pd td, d.dirs = pd :: td := by
                cases hval : d.dirs with
                | nil => exact absurd hval hds
                | cons a b => exact ⟨a, b, rfl⟩
              obtain ⟨u, hu⟩ := encodeDictDirs_head pd td dirsB
                (by rw [← hdc]; exact hdirsB)
              have henc : Directory.EncodeJSON d
                  = .ok (openBrace :: (dirsB ++ [closeBrace])) := by
                rw [henc0, hfs]
                rw [show encodeDictFilesBytes [] = [] from rfl]
                rw [if_neg (by simp)]
                simp
              refine ⟨openBrace :: (dirsB ++ [closeBrace]), henc,
                Or.inl ⟨hA, ⟨_, rfl⟩, ?_⟩⟩
              intro fuel rest nm hfl
              cases fuel with
              | zero => omega
              | succ f1 =>
                  rw [List.cons_append]
                  rw [parseDict_eq]
                  rw [skipSpace_nonspace openBrace _ (by decide)]
                  dsimp only
                  rw [if_pos rfl]
                  rw [List.append_assoc,
                      show ([closeBrace] : List Nat) ++ rest
                        = closeBrace :: rest from rfl]
                  rw [hu, List.cons_append]
                  dsimp only
                  rw [if_neg (by decide)]
                  rw [← List.cons_append, ← hu]
                  refine rt_dirs d.dirs (newDir nm) (closeBrace :: rest)
                    (.ok (.mk nm d.dirs d.files false, rest)) hds
                    (fun p hp => ⟨(WFDir_dirs hwf p hp).1,
                      (WFDir_dirs hwf p hp).2, hch p hp⟩) ?_
                    ⟨closeBrace, rest, rfl⟩ ?_ dirsB hdirsB f1 ?_
                  · rw [show (newDir nm).dirs = [] from rfl,
                        show (newDir nm).files = [] from rfl,
                        List.nil_append]
                    rw [hfs] at hnd
                    exact hnd
                  · intro f2 hf2
                    cases f2 with
                    | zero => omega
                    | succ f3 =>
                        rw [parseClose_eq]
                        rw [skipSpace_nonspace closeBrace _ (by decide)]
                        dsimp only
                        rw [if_pos rfl]
                        rw [show (newDir nm).name = nm from rfl,
                            show (newDir nm).dirs = [] from rfl,
                            show (newDir nm).files = [] from rfl,
                            show (newDir nm).isArray = false from rfl,
                            List.nil_append, hfs]
                  · simp only [List.length_append, List.length_cons,
                      List.length_nil] at hfl ⊢
                    omega
          · obtain ⟨pf, tf, hfc⟩ : ∃ pf tf, d.files = pf :: tf := by
              cases hval : d.files with
              | nil => exact absurd hval hfs
              | cons a b => exact ⟨a, b, rfl⟩
            obtain ⟨u, hu⟩ : ∃ u, encodeDictFilesBytes d.files
                = doubleQuote :: u := by
              rw [hfc]
              exact encodeDictFilesBytes_head pf tf
            by_cases hds : d.dirs = []
            · rw [hds, encodeDictDirs_nil] at hdirsB
              cases hdirsB
              have henc : Directory.EncodeJSON d
                  = .ok (openBrace :: (encodeDictFilesBytes d.files
                      ++ [closeBrace])) := by
                rw [henc0]
                rw [if_neg (by simp [hds])]
                simp
              refine ⟨openBrace :: (encodeDictFilesBytes d.files
                  ++ [closeBrace]), henc, Or.inl ⟨hA, ⟨_, rfl⟩, ?_⟩⟩
              intro fuel rest nm hfl
              cases fuel with
              | zero => omega
              | succ f1 =>
                  rw [List.cons_append]
                  rw [parseDict_eq]
                  rw [skipSpace_nonspace openBrace _ (by decide)]
                  dsimp only
                  rw [if_pos rfl]
                  rw [List.append_assoc,
                      show ([closeBrace] : List Nat) ++ rest
                        = closeBrace :: rest from rfl]
                  rw [hu, List.cons_append]
                  dsimp only
                  rw [if_neg (by decide)]
                  rw [← List.cons_append, ← hu]
                  refine rt_fields d.files (newDir nm) (closeBrace :: rest)
                    (.ok (.mk nm d.dirs d.files false, rest)) hfs
                    (fun p hp => WFDir_files hwf p hp) ?_
                    ⟨closeBrace, rest, rfl, by decide⟩ ?_ f1 ?_
                  · rw [show (newDir nm).dirs = [] from rfl,
                        show (newDir nm).files = [] from rfl,
                        List.nil_append]
                    rw [hds] at hnd
                    exact hnd
                  · intro f2 hf2
                    cases f2 with
                    | zero => omega
                    | succ f3 =>
                        rw [parseClose_eq]
                        rw [skipSpace_nonspace closeBrace _ (by decide)]
                        dsimp only
                        rw [if_pos rfl]
                        rw [show (newDir nm).name = nm from rfl,
                            show (newDir nm).dirs = [] from rfl,
                            show (newDir nm).files = [] from rfl,
                            show (newDir nm).isArray = false from rfl,
                            List.nil_append, hds]
                  · simp only [List.length_append, List.length_cons,
                      List.length_nil] at hfl ⊢
                    omega
            · have henc : Directory.EncodeJSON d
                  = .ok (openBrace :: (encodeDictFilesBytes d.files
                      ++ (commaByte :: (dirsB ++ [closeBrace])))) := by
                rw [henc0]
                rw [if_pos ⟨List.length_pos.mpr hfs,
                      List.length_pos.mpr hds⟩]
                simp
              refine ⟨openBrace :: (encodeDictFilesBytes d.files
                  ++ (commaByte :: (dirsB ++ [closeBrace]))), henc,
                Or.inl ⟨hA, ⟨_, rfl⟩, ?_⟩⟩
              intro fuel rest nm hfl
              cases fuel with
              | zero => omega
              | succ f1 =>
                  rw [List.cons_append]
                  rw [parseDict_eq]
                  rw [skipSpace_nonspace openBrace _ (by decide)]
                  dsimp only
                  rw [if_pos rfl]
                  rw [List.append_assoc]
                  rw [show (commaByte :: (dirsB ++ [closeBrace])) ++ rest
                        = commaByte :: (dirsB ++ (closeBrace :: rest))
                      from by simp]
                  rw [hu, List.cons_append]
                  dsimp only
                  rw [if_neg (by decide)]
                  rw [← List.cons_append, ← hu]
                  refine rt_fields d.files (newDir nm)
                    (commaByte :: (dirsB ++ (closeBrace :: rest)))
                    (.ok (.mk nm d.dirs d.files false, rest)) hfs
                    (fun p hp => WFDir_files hwf p hp) ?_
                    ⟨commaByte, dirsB ++ (closeBrace :: rest), rfl,
                      by decide⟩ ?_ f1 ?_
                  · rw [show (newDir nm).dirs = [] from rfl,
                        show (newDir nm).files = [] from rfl,
                        List.nil_append,
                        show keysA ([] : List (List Nat × Directory)) = []
                          from rfl,
                        List.nil_append]
                    exact (List.nodup_append.mp hnd).2.1
                  · intro f2 hf2
                    cases f2 with
                    | zero => omega
                    | succ f3 =>
                        rw [parseClose_eq]
                        rw [skipSpace_nonspace commaByte _ (by decide)]
                        dsimp only
                        rw [if_neg (by decide), if_pos rfl]
                        refine rt_dirs d.dirs
                          (.mk (newDir nm).name (newDir nm).dirs
                            ((newDir nm).files ++ d.files)
                            (newDir nm).isArray)
                          (closeBrace :: rest)
                          (.ok (.mk nm d.dirs d.files false, rest)) hds
                          (fun p hp => ⟨(WFDir_dirs hwf p hp).1,
                            (WFDir_dirs hwf p hp).2, hch p hp⟩) ?_
                          ⟨closeBrace, rest, rfl⟩ ?_ dirsB hdirsB f3 ?_
                        · rw [show Directory.dirs (.mk (newDir nm).name
                                (newDir nm).dirs
                                ((newDir nm).files ++ d.files)
                                (newDir nm).isArray)
                              = (newDir nm).dirs from rfl,
                              show Directory.files (.mk (newDir nm).name
                                (newDir nm).dirs
                                ((newDir nm).files ++ d.files)
                                (newDir nm).isArray)
                              = (newDir nm).files ++ d.files from rfl,
                              show (newDir nm).dirs = [] from rfl,
                              show (newDir nm).files = [] from rfl,
                              List.nil_append, List.nil_append]
                          exact hnd
                        · intro f4 hf4
                          cases f4 with
                          | zero => omega
                          | succ f5 =>
                              rw [parseClose_eq]
                              rw [skipSpace_nonspace closeBrace _
                                    (by decide)]
                              dsimp only
                              rw [if_pos rfl]
                              rw [show Directory.name (.mk (newDir nm).name
                                    (newDir nm).dirs
                                    ((newDir nm).files ++ d.files)
                                    (newDir nm).isArray)
                                  = (newDir nm).name from rfl,
                                  show Directory.dirs (.mk (newDir nm).name
                                    (newDir nm).dirs
                                    ((newDir nm).files ++ d.files)
                                    (newDir nm).isArray)
                                  = (newDir nm).dirs from rfl,
                                  show Directory.files
                                    (.mk (newDir nm).name (newDir nm).dirs
                                    ((newDir nm).files ++ d.files)
                                    (newDir nm).isArray)
                                  = (newDir nm).files ++ d.files from rfl,
                                  show Directory.isArray
                                    (.mk (newDir nm).name (newDir nm).dirs
                                    ((newDir nm).files ++ d.files)
                                    (newDir nm).isArray)
                                  = (newDir nm).isArray from rfl,
                                  show (newDir nm).name = nm from rfl,
                                  show (newDir nm).dirs = [] from rfl,
                                  show (newDir nm).files = [] from rfl,
                                  show (newDir nm).isArray = false from rfl,
                                  List.nil_append, List.nil_append]
                        · simp only [List.length_append, List.length_cons,
                            List.length_nil] at hf2 ⊢
                          omega
                  · simp only [List.length_append, List.length_cons,
                      List.length_nil] at hfl ⊢
                    omega
      | true =>
          obtain ⟨items, hfv, hdv⟩ := WFDir_array hwf hA
          have hlen : d.files.length + d.dirs.length = items.length := by
            rw [hfv, hdv]
            exact filesOf_length_add items 0
          by_cases hit : items = []
          · subst hit
            have hfs : d.files = [] := by rw [hfv]; rfl
            have hds : d.dirs = [] := by rw [hdv]; rfl
            have henc : Directory.EncodeJSON d
                = .ok [openBracket, closeBracket] := by
              rw [EncodeJSON_unfold, hA, if_pos rfl]
              unfold encodeJSONArray
              rw [hlen]
              rw [show (([] : List Entry)).length = 0 from rfl,
                  encodeArrayItems_zero]
              rfl
            refine ⟨[openBracket, closeBracket], henc,
              Or.inr ⟨hA, ⟨[closeBracket], rfl⟩, ?_⟩⟩
            intro fuel rest nm hfl
            cases fuel with
            | zero => omega
            | succ f1 =>
                rw [show ([openBracket, closeBracket] : List Nat) ++ rest
                      = openBracket :: (closeBracket :: rest) from rfl]
                rw [parseArray_eq]
                rw [skipSpace_nonspace openBracket _ (by decide)]
                dsimp only
                rw [if_pos rfl]
                rw [if_pos rfl, hfs, hds]
                rfl
          · obtain ⟨seg, hencI, ⟨b2h, t2h, hbh, hbneh⟩, hdecI⟩ :=
              rt_items items [] d items.length
                (by rw [List.nil_append]; exact hfv)
                (by rw [List.nil_append]; exact hdv)
                (by rw [List.nil_append])
                (fun p hp => ⟨(WFDir_files hwf p hp).1,
                  (WFDir_files hwf p hp).2.2⟩)
                (fun p hp => ⟨(WFDir_dirs hwf p hp).1, hch p hp⟩)
                hit
            rw [show (([] : List Entry)).length = 0 from rfl]
              at hencI hdecI
            have henc : Directory.EncodeJSON d
                = .ok (openBracket :: (seg ++ [closeBracket])) := by
              rw [EncodeJSON_unfold, hA, if_pos rfl]
              unfold encodeJSONArray
              rw [hlen, hencI]
              dsimp only
              rw [List.append_assoc]
              rfl
            refine ⟨openBracket :: (seg ++ [closeBracket]), henc,
              Or.inr ⟨hA, ⟨_, rfl⟩, ?_⟩⟩
            intro fuel rest nm hfl
            cases fuel with
            | zero => omega
            | succ f1 =>
                rw [List.cons_append]
                rw [parseArray_eq]
                rw [skipSpace_nonspace openBracket _ (by decide)]
                dsimp only
                rw [if_pos rfl]
                rw [List.append_assoc,
                    show ([closeBracket] : List Nat) ++ rest
                      = closeBracket :: rest from rfl]
                rw [hbh, List.cons_append]
                dsimp only
                rw [if_neg hbneh]
                rw [← List.cons_append, ← hbh]
                refine hdecI (newArrayDir nm) (closeBracket :: rest)
                  (.ok (.mk nm d.dirs d.files true, rest)) ?_
                  ⟨closeBracket, rest, rfl, by decide⟩ ?_ f1 ?_
                · intro j _
                  constructor
                  · rw [show (newArrayDir nm).dirs = [] from rfl]
                    simp [keysA]
                  · rw [show (newArrayDir nm).files = [] from rfl]
                    simp [keysA]
                · intro f2 hf2
                  cases f2 with
                  | zero => omega
                  | succ f3 =>
                      rw [parseCloseArr_eq]
                      rw [skipSpace_nonspace closeBracket _ (by decide)]
                      dsimp only
                      rw [if_pos rfl]
                      rw [show (newArrayDir nm).name = nm from rfl,
                          show (newArrayDir nm).dirs = [] from rfl,
                          show (newArrayDir nm).files = [] from rfl,
                          show (newArrayDir nm).isArray = true from rfl,
                          List.nil_append, List.nil_append, ← hfv, ← hdv]
                · simp only [List.length_append, List.length_cons,
                    List.length_nil] at hfl ⊢
                  omega

/-- Claim C2: for every Directory obtained by a successful decode of JSON
text, the encoder succeeds on it and decoding the encoder's output yields
the directory back exactly — same tree, same child names, same file kinds
and identical raw scalar bytes (so floats are even byte-identical, which
implies the claim's value-equality up to child order and modification
times, both of which the model's maps already fix). -/
theorem UnmarshalJSON_roundtrip (l : List Nat) (d : Directory)
    (r : List Nat) (h : unmarshalJSONR l = .ok (d, r)) :
    ∃ out, MarshalJSON d = .ok out ∧ UnmarshalJSON out = .ok d := by
  obtain ⟨hname, hisA, hwf⟩ :=
    (parseSound (2 * l.length + 4)).1 l [] d r h
  obtain ⟨o, ho, hrt⟩ := rt_main (sizeOf d) d (le_refl _) hwf
  rcases hrt with ⟨_, _, hrtP⟩ | ⟨hA2, _, _⟩
  · refine ⟨o, ho, ?_⟩
    unfold UnmarshalJSON unmarshalJSONR
    have hp := hrtP (2 * o.length + 4) [] []
      (by simp only [List.append_nil]; omega)
    rw [List.append_nil] at hp
    rw [hp]
    dsimp only [Except.map]
    rw [show Directory.mk [] d.dirs d.files false = d from by
        rw [← hname, ← hisA]; exact Directory.eta d]
  · rw [hA2] at hisA
    cases hisA

theorem UnmarshalJSON_roundtrip_witness :
    ∃ out, MarshalJSON (Directory.mk [] []
        [([97], ⟨[97], FTInt, [49]⟩)] false) = .ok out
      ∧ UnmarshalJSON out = .ok (Directory.mk [] []
        [([97], ⟨[97], FTInt, [49]⟩)] false) :=
  UnmarshalJSON_roundtrip [123, 34, 97, 34, 58, 49, 125] _ [] (by rfl)
